import Mathlib

/-!
Verification of the digisim event-driven digital logic simulator.

The definitions below are a shallow embedding of the Rust sources:
  * `src/circuit_fast.rs`   — the `CircuitFast` engine (node store, intrusive
    work lists, two-phase `update`, gate constructors, `set_input`, `connect`);
  * `src/circuit_sim.rs`    — `run` / `run_until_done`;
  * `src/components/adder.rs`  — the full adder and `RippleCarryAdder`;
  * `src/components/memory.rs` — `Sram::new` / `Sram::new_full_2d`.

Machine integers are modelled as `Nat` with explicit `% 256` where the Rust
code uses `Wrapping<u8>`, and node ids (`u32`) as `Nat` with the all-ones
sentinel `NULL = 2^32 - 1`.
-/

namespace Digisim

/-- `NodeId::NULL` (circuit_fast.rs: `NodeId(u32::MAX)`). -/
def NULL : Nat := 4294967295

/-- The three gate families (circuit_fast.rs `enum GateType`). -/
inductive GateType where
  | OrNor
  | AndNand
  | XorXnor
deriving DecidableEq, Repr, Inhabited

/-- Per-node static / propagation-phase record (circuit_fast.rs `struct NodeData`).
Field defaults mirror the Rust `Default` derive (`NodeId::NULL`, `false`, `0`,
`GateType::OrNor`). -/
structure NodeData where
  next_update : Nat := NULL
  output : Bool := false
  inputs : Nat := 0
  inverted : Bool := false
  gate_type : GateType := .OrNor
deriving DecidableEq, Repr, Inhabited

/-- Per-node recompute-phase record (circuit_fast.rs `struct UpdateData`). -/
structure UpdateData where
  next_changed : Nat := NULL
  inputs_delta : Nat := 0
deriving DecidableEq, Repr, Inhabited

/-- The engine state (circuit_fast.rs `struct CircuitFast`).  `next_id` is the
monotone counter of `NodeIdBuilder` (the freelist is never used by the code
paths modelled here: `_destroy_id` has no callers). -/
structure CircuitFast where
  tick : Nat := 0
  next_id : Nat := 0
  node_children : List (List Nat) := []
  node_data : List NodeData := []
  node_update_data : List UpdateData := []
  update_head : Nat := NULL
  changed_head : Nat := NULL
deriving Repr, Inhabited, DecidableEq

namespace CircuitFast

/-- `self.node_data[node_id]` (reads out of range yield the default record;
the Rust code performs the access unchecked). -/
def getData (c : CircuitFast) (n : Nat) : NodeData := c.node_data.getD n {}

def getUD (c : CircuitFast) (n : Nat) : UpdateData := c.node_update_data.getD n {}

def getChildren (c : CircuitFast) (n : Nat) : List Nat := c.node_children.getD n []

def setData (c : CircuitFast) (n : Nat) (d : NodeData) : CircuitFast :=
  { c with node_data := c.node_data.set n d }

def setUD (c : CircuitFast) (n : Nat) (d : UpdateData) : CircuitFast :=
  { c with node_update_data := c.node_update_data.set n d }

/-- `CircuitFast::new` = `Self::default()`. -/
def new : CircuitFast := {}

/-- `enqueue!` on the propagate list followed by the head update
(circuit_fast.rs `enqueue_update`). -/
def enqueue_update (c : CircuitFast) (node_id : Nat) : CircuitFast :=
  let nd := c.getData node_id
  if nd.next_update = NULL then
    { c.setData node_id { nd with next_update := c.update_head } with
        update_head := node_id }
  else c

/-- `CircuitFast::modify`: bump `inputs_delta` by plus or minus one
(`Wrapping<u8>` arithmetic) and `enqueue!` onto the recompute list. -/
def modify (c : CircuitFast) (node_id : Nat) (increment : Bool) : CircuitFast :=
  let ud := c.getUD node_id
  let delta := if increment then (ud.inputs_delta + 1) % 256
               else (ud.inputs_delta + 255) % 256
  let ud := { ud with inputs_delta := delta }
  if ud.next_changed = NULL then
    { c.setUD node_id { ud with next_changed := c.changed_head } with
        changed_head := node_id }
  else c.setUD node_id ud

/-- Pad a list with default elements up to the given length (`Vec::resize`). -/
def resizePad (l : List α) (len : Nat) (d : α) : List α :=
  l ++ List.replicate (len - l.length) d

/-- `CircuitFast::add_node`: allocate the next id, grow the three parallel
arrays, and initialise the record with `output = inverted`. -/
def add_node (c : CircuitFast) (gate_type : GateType) (inverted : Bool) :
    CircuitFast × Nat :=
  let node_id := c.next_id
  let c := { c with next_id := node_id + 1 }
  let c :=
    if c.node_data.length ≤ node_id then
      { c with
          node_children := resizePad c.node_children (node_id + 1) []
          node_data := resizePad c.node_data (node_id + 1) {}
          node_update_data := resizePad c.node_update_data (node_id + 1) {} }
    else c
  let nd := c.getData node_id
  (c.setData node_id { nd with inverted := inverted, output := inverted,
                               gate_type := gate_type }, node_id)

def or (c : CircuitFast) : CircuitFast × Nat := c.add_node .OrNor false
def nor (c : CircuitFast) : CircuitFast × Nat := c.add_node .OrNor true
def and (c : CircuitFast) : CircuitFast × Nat := c.add_node .AndNand true
def nand (c : CircuitFast) : CircuitFast × Nat := c.add_node .AndNand false
def xor (c : CircuitFast) : CircuitFast × Nat := c.add_node .XorXnor false
def xnor (c : CircuitFast) : CircuitFast × Nat := c.add_node .XorXnor true

/-- `CircuitFast::input`: an external input is an OR node. -/
def input (c : CircuitFast) : CircuitFast × Nat := c.add_node .OrNor false

/-- `CircuitFast::is_active` (the trait's `get_output`). -/
def is_active (c : CircuitFast) (n : Nat) : Bool := (c.getData n).output

/-- `CircuitFast::set_input`: write the output directly and enqueue onto the
propagate list; a write of the current value is a no-op. -/
def set_input (c : CircuitFast) (node_id : Nat) (val : Bool) : CircuitFast :=
  let nd := c.getData node_id
  if nd.output ≠ val then
    (c.setData node_id { nd with output := val }).enqueue_update node_id
  else c

/-- The first statement of `CircuitFast::connect`:
`self.node_children[input].push(output)`. -/
def connectChildren (c : CircuitFast) (inp outp : Nat) : CircuitFast :=
  { c with
    node_children := c.node_children.set inp (c.getChildren inp ++ [outp]) }

/-- `CircuitFast::connect`: append `output` to `input`'s children, then
reconcile the consumer's counter when the producer is already asserting
(or, for the AndNand family, de-asserting). -/
def connect (c : CircuitFast) (inp outp : Nat) : CircuitFast :=
  let c := c.connectChildren inp outp
  let is_and_nand := match (c.getData outp).gate_type with
    | .OrNor | .XorXnor => false
    | .AndNand => true
  if Bool.xor (c.is_active inp) is_and_nand then
    c.modify outp (!is_and_nand)
  else c

/-- `CircuitFast::work_left`. -/
def work_left (c : CircuitFast) : Bool :=
  !(c.update_head == NULL) || !(c.changed_head == NULL)

/-- One iteration of the Phase A (propagate) loop of `CircuitFast::update`:
clear the visited producer's `next_update` link and deliver its current
output to every child via `modify`. -/
def phaseAStep (c : CircuitFast) (node_id : Nat) : CircuitFast :=
  let nd := c.getData node_id
  let node_output := nd.output
  let c := c.setData node_id { nd with next_update := NULL }
  (c.getChildren node_id).foldl (fun c child => c.modify child node_output) c

/-- Phase A (propagate) walk of `CircuitFast::update`.  The Rust loop runs
until the `NULL` terminator; the walk clears each visited node's `next_update`
link before following it, so a second visit of any node reads `NULL` and ends
the loop — hence at most `node count + 1` iterations ever execute and the fuel
passed by `update` is always sufficient. -/
def phaseA : Nat → CircuitFast → Nat → CircuitFast
  | 0, c, _ => c
  | fuel + 1, c, node_id =>
    if node_id = NULL then c
    else phaseA fuel (phaseAStep c node_id) (c.getData node_id).next_update

/-- The consumer's counter update of Phase B (circuit_fast.rs lines 199-204):
`inputs += inputs_delta` for OrNor/AndNand, `inputs ^= inputs_delta & 1` for
XorXnor (`Wrapping<u8>` arithmetic). -/
def recomputeInputs (gt : GateType) (inputs delta : Nat) : Nat :=
  match gt with
  | .OrNor | .AndNand => (inputs + delta) % 256
  | .XorXnor => Nat.xor inputs (delta % 2)

/-- The engine's output formula (circuit_fast.rs line 206):
`new_output = inverted ^ (inputs != 0)`. -/
def newOutputFormula (inverted : Bool) (inputs : Nat) : Bool :=
  Bool.xor inverted (inputs != 0)

/-- One iteration of the Phase B (recompute) loop of `CircuitFast::update`:
clear the visited consumer's `next_changed` link and, when it has a pending
delta, fold the delta into `inputs`, recompute the output, and when the
output changed enqueue the node onto the (next tick's) propagate list. -/
def phaseBStep (c : CircuitFast) (node_id : Nat) : CircuitFast :=
  let ud := c.getUD node_id
  let c := c.setUD node_id { ud with next_changed := NULL }
  if ud.inputs_delta ≠ 0 then
    let nd := c.getData node_id
    let newInputs := recomputeInputs nd.gate_type nd.inputs ud.inputs_delta
    let c := c.setUD node_id { next_changed := NULL, inputs_delta := 0 }
    let new_output := newOutputFormula nd.inverted newInputs
    if nd.output ≠ new_output then
      let nd2 := { nd with inputs := newInputs, output := new_output }
      (c.setData node_id nd2).enqueue_update node_id
    else c.setData node_id { nd with inputs := newInputs }
  else c

/-- Phase B (recompute) walk of `CircuitFast::update`; fuel as in `phaseA`. -/
def phaseB : Nat → CircuitFast → Nat → CircuitFast
  | 0, c, _ => c
  | fuel + 1, c, node_id =>
    if node_id = NULL then c
    else phaseB fuel (phaseBStep c node_id) (c.getUD node_id).next_changed

/-- `CircuitFast::update`: Phase A from the captured propagate head, Phase B
from the captured recompute head, then advance the tick. -/
def update (c : CircuitFast) : CircuitFast :=
  let headA := c.update_head
  let c := { c with update_head := NULL }
  let c := phaseA (c.node_data.length + 1) c headA
  let headB := c.changed_head
  let c := { c with changed_head := NULL }
  let c := phaseB (c.node_data.length + 1) c headB
  { c with tick := c.tick + 1 }

end CircuitFast

/-- `circuit_sim.rs` `enum RunResult`. -/
inductive RunResult where
  | finished (after_ticks : Nat)
  | reachedMaxTicks (max_ticks : Nat)
deriving DecidableEq, Repr

namespace CircuitFast

/-- The loop body of `CircuitSim::run`: `for ticks in 0..max_ticks { if
work_left { update } else { return Finished(ticks) } }`.  `rem` counts the
remaining iterations, `ticks` the completed ones. -/
def runGo (maxTicks : Nat) : CircuitFast → Nat → Nat → CircuitFast × RunResult
  | c, 0, _ => (c, .reachedMaxTicks maxTicks)
  | c, rem + 1, ticks =>
    if c.work_left then runGo maxTicks c.update rem (ticks + 1)
    else (c, .finished ticks)

/-- `CircuitSim::run`. -/
def run (c : CircuitFast) (max_ticks : Nat) : CircuitFast × RunResult :=
  runGo max_ticks c max_ticks 0

/-- `CircuitSim::run_until_done` — `while work_left { update }` — with explicit
fuel; `none` means the loop has not finished within `fuel` iterations. -/
def run_until_done : Nat → CircuitFast → Option CircuitFast
  | 0, c => if c.work_left then none else some c
  | fuel + 1, c => if c.work_left then run_until_done fuel c.update else some c

end CircuitFast

/-- One call of the public mutating API, used to describe the states reachable
by an arbitrary call sequence. -/
inductive Op where
  | addOr | addNor | addAnd | addNand | addXor | addXnor | addInput
  | setInput (n : Nat) (v : Bool)
  | connect (i o : Nat)
  | update
deriving DecidableEq, Repr

/-- Apply one API call to the engine state. -/
def applyOp (c : CircuitFast) : Op → CircuitFast
  | .addOr => (c.or).1
  | .addNor => (c.nor).1
  | .addAnd => (c.and).1
  | .addNand => (c.nand).1
  | .addXor => (c.xor).1
  | .addXnor => (c.xnor).1
  | .addInput => (c.input).1
  | .setInput n v => c.set_input n v
  | .connect i o => c.connect i o
  | .update => c.update

/-- The state reached from a fresh circuit by a sequence of API calls
(`run`/`run_until_done` only iterate `update`, so every state they produce is
also of this form). -/
def exec (ops : List Op) : CircuitFast := ops.foldl applyOp CircuitFast.new

/-! ## C1: gate truth tables -/

/-- The two-input gate scenario of claim C1 (mirroring `gate_tests` in
`tests/circuit_test.rs`): on a fresh circuit create two external inputs and
one gate, connect both inputs to the gate, drive the inputs, run to
quiescence, and read the gate's output.  `none` would mean the run did not
quiesce within the (ample) fuel. -/
def twoInputGate (mk : CircuitFast → CircuitFast × Nat) (a b : Bool) :
    Option Bool :=
  let (c, ia) := CircuitFast.new.input
  let (c, ib) := c.input
  let (c, g) := mk c
  let c := c.connect ia g
  let c := c.connect ib g
  let c := c.set_input ia a
  let c := c.set_input ib b
  (CircuitFast.run_until_done 20 c).map (fun c => c.is_active g)

/-- C1.  For each gate constructor among or, nor, and, nand, xor, xnor on a
fresh circuit, a two-input instance whose inputs are two external input
nodes, driven with every pair (a, b) via `set_input` and run to quiescence,
has `get_output` equal to the classical truth table. -/
theorem claim_C1_gate_truth_tables :
    ∀ a b : Bool,
      twoInputGate CircuitFast.or a b = some (a || b) ∧
      twoInputGate CircuitFast.nor a b = some (!(a || b)) ∧
      twoInputGate CircuitFast.and a b = some (a && b) ∧
      twoInputGate CircuitFast.nand a b = some (!(a && b)) ∧
      twoInputGate CircuitFast.xor a b = some (Bool.xor a b) ∧
      twoInputGate CircuitFast.xnor a b = some (!(Bool.xor a b)) := by
  decide

/-! ## C2: the `next_* == NULL` gating and list deduplication -/

/-- C2.  The claimed invariant — `next_update == NULL` iff the node is not on
the propagate list, and gating on `next_* == NULL` never enqueues a node
already on a list — fails on the code.  After `input a; or g; connect a g;
set_input a true` the node `a` (id 0) is the head of the propagate list while
its `next_update` link is `NULL`; the subsequent `set_input a false` therefore
passes the gate again and links `a` to itself, and the next `update` walks the
self-loop, visiting `a`'s children twice in Phase A: the OR child `g` (id 1)
ends the tick with `inputs = 254` (two wrapping decrements for a single net
no-change of `a`) and `output = true` although its only producer is `false`. -/
theorem claim_C2_intrusive_list_bug :
    -- after the first set_input: node 0 is on the propagate list (it is the
    -- head) with next_update = NULL, refuting the claimed iff
    (exec [.addInput, .addOr, .connect 0 1, .setInput 0 true]).update_head = 0 ∧
    ((exec [.addInput, .addOr, .connect 0 1,
        .setInput 0 true]).getData 0).next_update = NULL ∧
    -- the second set_input re-enqueues node 0: its link now points to itself
    ((exec [.addInput, .addOr, .connect 0 1, .setInput 0 true,
        .setInput 0 false]).getData 0).next_update = 0 ∧
    -- consequence of the double visit in Phase A of the next update
    (let c := exec [.addInput, .addOr, .connect 0 1, .setInput 0 true,
        .setInput 0 false, .update]
     c.is_active 0 = false ∧ c.is_active 1 = true ∧
       (c.getData 1).inputs = 254) := by
  decide

/-! ## C3: the between-ticks output formula -/

/-- The per-family output formula that claim C3 (spec §3, invariants) asserts
for every node between ticks: `inverted XOR (inputs != 0)` for the OrNor and
AndNand families, `inverted XOR (inputs & 1)` for XorXnor. -/
def specOutputFormula (nd : NodeData) : Bool :=
  match nd.gate_type with
  | .XorXnor => Bool.xor nd.inverted (nd.inputs % 2 != 0)
  | _ => Bool.xor nd.inverted (nd.inputs != 0)

/-- C3, counterexample.  The claim includes external input nodes driven by
`set_input`, but `set_input` writes `output` directly and never touches
`inputs`: after `input a; set_input a true; update` the circuit is quiescent
and node `a` has `output = true`, `inputs = 0`, violating
`output == inverted XOR (inputs != 0)`. -/
theorem claim_C3_counterexample :
    (exec [.addInput, .setInput 0 true, .update]).work_left = false ∧
    ((exec [.addInput, .setInput 0 true, .update]).getData 0).output ≠
      specOutputFormula
        ((exec [.addInput, .setInput 0 true, .update]).getData 0) := by
  decide

/-! ## List access helpers -/

theorem getD_set (l : List α) (n m : Nat) (a d : α) :
    (l.set n a).getD m d = if m = n ∧ n < l.length then a else l.getD m d := by
  rcases Decidable.em (m = n ∧ n < l.length) with h | h
  · rcases h with ⟨rfl, hlt⟩
    simp [List.getD, List.getElem?_set_self', List.getElem?_eq_getElem hlt,
      if_pos hlt]
  · rw [if_neg h]
    rcases Decidable.em (m = n) with rfl | hne
    · have hge : l.length ≤ m := by
        rcases Nat.lt_or_ge m l.length with h1 | h1
        · exact absurd ⟨rfl, h1⟩ h
        · exact h1
      rw [List.set_eq_of_length_le hge]
    · simp [List.getD, List.getElem?_set_ne (fun h => hne h.symm)]

theorem getD_resizePad (l : List α) (k : Nat) (a : α) (m : Nat) :
    (CircuitFast.resizePad l k a).getD m a = l.getD m a := by
  unfold CircuitFast.resizePad
  rcases Nat.lt_or_ge m l.length with h | h
  · simp [List.getD, List.getElem?_append_left h]
  · rw [List.getD_eq_default _ _ h]
    rcases Nat.lt_or_ge m (l.length + (k - l.length)) with h2 | h2
    · have := @List.getElem?_append_right _ l (List.replicate (k - l.length) a) m h
      simp only [List.getD, this]
      have hlt : m - l.length < k - l.length := by omega
      simp [this, List.getElem?_replicate, hlt]
    · apply List.getD_eq_default
      simpa using h2

theorem length_resizePad (l : List α) (k : Nat) (a : α) :
    (CircuitFast.resizePad l k a).length = max l.length k := by
  unfold CircuitFast.resizePad
  simp [List.length_append, List.length_replicate]
  omega

/-! ## The between-ticks invariants (C3 amended, C6, C10)

The simulator only writes a node's `output`/`inputs` pair in three places:
at birth (`add_node`), in Phase B (where it recomputes `output` from
`inputs` by the engine formula), and in `set_input` (which writes `output`
directly).  The invariant below therefore holds for every node that has
never been passed to `set_input`, in every reachable state. -/

namespace CircuitFast

/-- The node-record fields read by the between-ticks invariants
(everything except the intrusive `next_update` link). -/
structure SemEq (nd nd' : NodeData) : Prop where
  out_eq : nd'.output = nd.output
  in_eq : nd'.inputs = nd.inputs
  inv_eq : nd'.inverted = nd.inverted
  gt_eq : nd'.gate_type = nd.gate_type

theorem SemEq.refl (nd : NodeData) : SemEq nd nd :=
  ⟨Eq.refl _, Eq.refl _, Eq.refl _, Eq.refl _⟩

theorem SemEq.trans {a b c : NodeData} (h1 : SemEq a b) (h2 : SemEq b c) :
    SemEq a c :=
  ⟨h2.out_eq.trans h1.out_eq, h2.in_eq.trans h1.in_eq,
   h2.inv_eq.trans h1.inv_eq, h2.gt_eq.trans h1.gt_eq⟩

/-- A state transition that moves no node between the semantic fields:
the allocator, the array length, and every node's output/inputs/inverted/
gate_type are unchanged (intrusive links and the recompute-phase data may
change freely). -/
def SemPreserved (c c' : CircuitFast) : Prop :=
  c'.next_id = c.next_id ∧ c'.node_data.length = c.node_data.length ∧
  ∀ m, SemEq (c.getData m) (c'.getData m)

theorem semPreserved_refl (c : CircuitFast) : SemPreserved c c :=
  ⟨rfl, rfl, fun _ => SemEq.refl _⟩

theorem semPreserved_trans {a b c : CircuitFast} (h1 : SemPreserved a b)
    (h2 : SemPreserved b c) : SemPreserved a c :=
  ⟨h2.1.trans h1.1, h2.2.1.trans h1.2.1,
   fun m => (h1.2.2 m).trans (h2.2.2 m)⟩

theorem setUD_semPreserved (c : CircuitFast) (n : Nat) (d : UpdateData) :
    SemPreserved c (c.setUD n d) :=
  ⟨rfl, rfl, fun _ => SemEq.refl _⟩

theorem modify_semPreserved (c : CircuitFast) (n : Nat) (b : Bool) :
    SemPreserved c (c.modify n b) := by
  unfold modify
  dsimp only
  split
  · exact ⟨rfl, rfl, fun _ => SemEq.refl _⟩
  · exact ⟨rfl, rfl, fun _ => SemEq.refl _⟩

theorem foldl_modify_semPreserved (l : List Nat) (b : Bool) :
    ∀ c : CircuitFast,
      SemPreserved c (l.foldl (fun c child => c.modify child b) c) := by
  induction l with
  | nil => exact fun c => semPreserved_refl c
  | cons hd tl ih =>
    intro c
    exact semPreserved_trans (modify_semPreserved c hd b) (ih _)

/-- Writing back a record that changes only the `next_update` link preserves
the semantic fields. -/
theorem setData_link_semPreserved (c : CircuitFast) (n v : Nat) :
    SemPreserved c (c.setData n { c.getData n with next_update := v }) := by
  refine ⟨rfl, by simp [setData], fun m => ?_⟩
  simp only [getData, setData]
  rw [getD_set]
  split
  · rename_i h
    rcases h with ⟨rfl, _⟩
    exact ⟨rfl, rfl, rfl, rfl⟩
  · exact SemEq.refl _

theorem enqueue_update_semPreserved (c : CircuitFast) (n : Nat) :
    SemPreserved c (c.enqueue_update n) := by
  unfold enqueue_update
  dsimp only
  split
  · have h := setData_link_semPreserved c n c.update_head
    exact ⟨h.1, h.2.1, h.2.2⟩
  · exact semPreserved_refl c

theorem phaseAStep_semPreserved (c : CircuitFast) (n : Nat) :
    SemPreserved c (phaseAStep c n) := by
  unfold phaseAStep
  dsimp only
  exact semPreserved_trans (setData_link_semPreserved c n NULL)
    (foldl_modify_semPreserved _ _ _)

theorem phaseA_semPreserved :
    ∀ (fuel : Nat) (c : CircuitFast) (n : Nat),
      SemPreserved c (phaseA fuel c n) := by
  intro fuel
  induction fuel with
  | zero => exact fun c n => semPreserved_refl c
  | succ f ih =>
    intro c n
    unfold phaseA
    split
    · exact semPreserved_refl c
    · exact semPreserved_trans (phaseAStep_semPreserved c n) (ih _ _)

/-- The invariant: the node store never outruns the id allocator, every
XorXnor counter is a parity bit, and every node not in the exempt set `T`
(the nodes that have been written directly by `set_input`) satisfies the
per-family output formula of spec §3. -/
structure EZInv (T : Nat → Prop) (c : CircuitFast) : Prop where
  len_le : c.node_data.length ≤ c.next_id
  xorBound : ∀ n, (c.getData n).gate_type = .XorXnor → (c.getData n).inputs ≤ 1
  formulaInv : ∀ n, ¬ T n →
    (c.getData n).output = specOutputFormula (c.getData n)

theorem EZInv.transfer {T : Nat → Prop} {c c' : CircuitFast}
    (hp : SemPreserved c c') (h : EZInv T c) : EZInv T c' := by
  refine ⟨hp.2.1 ▸ hp.1 ▸ h.len_le, fun n hg => ?_, fun n hT => ?_⟩
  · have s := hp.2.2 n
    rw [s.in_eq]
    exact h.xorBound n (s.gt_eq.symm ▸ hg)
  · have s := hp.2.2 n
    rw [s.out_eq, h.formulaInv n hT]
    unfold specOutputFormula
    rw [s.in_eq, s.inv_eq, s.gt_eq]

theorem nat_xor_le_one {a b : Nat} (ha : a ≤ 1) (hb : b ≤ 1) :
    Nat.xor a b ≤ 1 := by
  interval_cases a <;> interval_cases b <;> decide

theorem bne_zero_of_le_one {x : Nat} (h : x ≤ 1) :
    (x != 0) = (x % 2 != 0) := by
  interval_cases x <;> decide

theorem getData_new (n : Nat) : new.getData n = {} := by
  simp [new, getData, List.getD]

theorem new_EZ (T : Nat → Prop) : EZInv T new := by
  refine ⟨Nat.le_refl 0, fun n hg => ?_, fun n _ => ?_⟩
  · rw [getData_new] at hg
    exact absurd hg (by decide)
  · rw [getData_new]
    rfl

theorem add_node_EZ {T : Nat → Prop} {c : CircuitFast}
    (gt : GateType) (inv : Bool) (h : EZInv T c) :
    EZInv T (c.add_node gt inv).1 := by
  unfold add_node
  dsimp only
  rw [if_pos h.len_le]
  have hlen : ∀ m, (resizePad c.node_data (c.next_id + 1) {}).getD m {} =
      c.node_data.getD m {} := fun m => getD_resizePad _ _ _ m
  have hdef : c.node_data.getD c.next_id {} = {} :=
    List.getD_eq_default _ _ h.len_le
  constructor
  · simp only [setData, List.length_set, length_resizePad]
    have := h.len_le
    omega
  · intro n hg
    simp only [getData, setData] at hg ⊢
    rw [getD_set] at hg ⊢
    split at hg
    · rename_i hcase
      rcases hcase with ⟨rfl, hlt⟩
      rw [if_pos ⟨rfl, hlt⟩]
      dsimp only
      rw [hlen, hdef]
      exact Nat.zero_le 1
    · rename_i hcase
      rw [if_neg hcase] at *
      rw [hlen] at hg ⊢
      exact h.xorBound n hg
  · intro n hT
    simp only [getData, setData]
    rw [getD_set]
    split
    · rename_i hcase
      rcases hcase with ⟨rfl, _⟩
      rw [hlen, hdef]
      cases gt <;> cases inv <;> rfl
    · rw [hlen]
      exact h.formulaInv n hT

theorem set_input_EZ {T : Nat → Prop} {c : CircuitFast} {n : Nat} (v : Bool)
    (hT : T n) (h : EZInv T c) : EZInv T (c.set_input n v) := by
  unfold set_input
  dsimp only
  split
  · refine EZInv.transfer (enqueue_update_semPreserved _ n) ?_
    constructor
    · simpa only [setData, List.length_set] using h.len_le
    · intro m hg
      simp only [getData, setData] at hg ⊢
      rw [getD_set] at hg ⊢
      split at hg
      · rename_i hcase
        rcases hcase with ⟨rfl, hlt⟩
        rw [if_pos ⟨rfl, hlt⟩]
        exact h.xorBound m hg
      · rename_i hcase
        rw [if_neg hcase] at *
        exact h.xorBound m hg
    · intro m hTm
      simp only [getData, setData]
      rw [getD_set]
      split
      · rename_i hcase
        rcases hcase with ⟨rfl, _⟩
        exact absurd hT hTm
      · exact h.formulaInv m hTm
  · exact h

theorem connect_EZ {T : Nat → Prop} {c : CircuitFast} (i o : Nat)
    (h : EZInv T c) : EZInv T (c.connect i o) := by
  unfold connect
  dsimp only
  have hbase : EZInv T { c with
      node_children := c.node_children.set i (c.getChildren i ++ [o]) } := by
    refine ⟨h.len_le, h.xorBound, h.formulaInv⟩
  split
  · exact EZInv.transfer (modify_semPreserved _ o _) hbase
  · exact hbase

/-- The recomputed counter of a XorXnor node is again a parity bit. -/
theorem recompute_xor_le_one {inputs delta : Nat} (h : inputs ≤ 1) :
    recomputeInputs .XorXnor inputs delta ≤ 1 := by
  unfold recomputeInputs
  exact nat_xor_le_one h (by omega)

/-- The engine's Phase B write satisfies the per-family spec formula. -/
theorem engine_formula_matches_spec (u : Nat) (o : Bool) (ni : Nat)
    (inv : Bool) (gt : GateType) (hxor : gt = .XorXnor → ni ≤ 1) :
    newOutputFormula inv ni =
      specOutputFormula ⟨u, o, ni, inv, gt⟩ := by
  unfold newOutputFormula specOutputFormula
  cases hgt : gt
  · rfl
  · rfl
  · dsimp only
    rw [bne_zero_of_le_one (hxor hgt)]

theorem getData_setUD (c : CircuitFast) (n : Nat) (d : UpdateData) (m : Nat) :
    (c.setUD n d).getData m = c.getData m := rfl

theorem phaseBStep_EZ {T : Nat → Prop} {c : CircuitFast} (n : Nat)
    (h : EZInv T c) : EZInv T (phaseBStep c n) := by
  unfold phaseBStep
  dsimp only
  split
  · -- pending delta: fold it into the counter and recompute the output
    have hrec :
        ∀ nd2 : NodeData,
          nd2.gate_type = (c.getData n).gate_type →
          nd2.inputs = recomputeInputs (c.getData n).gate_type
            (c.getData n).inputs (c.getUD n).inputs_delta →
          nd2.output = specOutputFormula nd2 →
          EZInv T ((c.setUD n { c.getUD n with next_changed := NULL }).setUD n
              { next_changed := NULL, inputs_delta := 0 } |>.setData n nd2) := by
      intro nd2 hgt hin hform
      constructor
      · simpa only [setData, setUD, List.length_set] using h.len_le
      · intro m hg
        simp only [getData, setData, setUD] at hg ⊢
        rw [getD_set] at hg ⊢
        split at hg
        · rename_i hcase
          rcases hcase with ⟨rfl, hlt⟩
          rw [if_pos ⟨rfl, hlt⟩]
          rw [hin]
          have hx : (c.getData m).gate_type = .XorXnor := by
            rw [← hgt]; exact hg
          rw [hx]
          exact recompute_xor_le_one (h.xorBound m hx)
        · rename_i hcase
          rw [if_neg hcase] at *
          exact h.xorBound m hg
      · intro m hTm
        simp only [getData, setData, setUD]
        rw [getD_set]
        split
        · exact hform
        · exact h.formulaInv m hTm
    split
    · -- the output changed: write it back and enqueue for propagation
      refine EZInv.transfer (enqueue_update_semPreserved _ n) (hrec _ rfl rfl ?_)
      simp only [getData_setUD]
      try dsimp only
      exact engine_formula_matches_spec _ _ _ _ _
        (fun hx => by rw [hx]; exact recompute_xor_le_one (h.xorBound n hx))
    · -- the output is unchanged (and already satisfied the engine formula)
      rename_i hsame
      refine hrec _ rfl rfl ?_
      simp only [getData_setUD] at hsame
      rw [not_ne_iff] at hsame
      simp only [getData_setUD]
      try dsimp only
      rw [hsame]
      exact engine_formula_matches_spec _ _ _ _ _
        (fun hx => by rw [hx]; exact recompute_xor_le_one (h.xorBound n hx))
  · exact EZInv.transfer (setUD_semPreserved c n _) h

theorem phaseB_EZ {T : Nat → Prop} :
    ∀ (fuel : Nat) {c : CircuitFast} (n : Nat),
      EZInv T c → EZInv T (phaseB fuel c n) := by
  intro fuel
  induction fuel with
  | zero => exact fun n h => h
  | succ f ih =>
    intro c n h
    unfold phaseB
    split
    · exact h
    · exact ih _ (phaseBStep_EZ n h)

theorem EZInv.with_update_head {T : Nat → Prop} {c : CircuitFast} (v : Nat)
    (h : EZInv T c) : EZInv T { c with update_head := v } :=
  ⟨h.len_le, h.xorBound, h.formulaInv⟩

theorem EZInv.with_changed_head {T : Nat → Prop} {c : CircuitFast} (v : Nat)
    (h : EZInv T c) : EZInv T { c with changed_head := v } :=
  ⟨h.len_le, h.xorBound, h.formulaInv⟩

theorem EZInv.with_tick {T : Nat → Prop} {c : CircuitFast} (v : Nat)
    (h : EZInv T c) : EZInv T { c with tick := v } :=
  ⟨h.len_le, h.xorBound, h.formulaInv⟩

theorem update_EZ {T : Nat → Prop} {c : CircuitFast} (h : EZInv T c) :
    EZInv T c.update := by
  unfold update
  dsimp only
  exact EZInv.with_tick _ (phaseB_EZ _ _ (EZInv.with_changed_head _
    (EZInv.transfer (phaseA_semPreserved _ _ _)
      (EZInv.with_update_head _ h))))

theorem applyOp_EZ {T : Nat → Prop} {c : CircuitFast} (op : Op)
    (hop : ∀ n v, op = Op.setInput n v → T n) (h : EZInv T c) :
    EZInv T (applyOp c op) := by
  cases op with
  | addOr => exact add_node_EZ _ _ h
  | addNor => exact add_node_EZ _ _ h
  | addAnd => exact add_node_EZ _ _ h
  | addNand => exact add_node_EZ _ _ h
  | addXor => exact add_node_EZ _ _ h
  | addXnor => exact add_node_EZ _ _ h
  | addInput => exact add_node_EZ _ _ h
  | setInput n v => exact set_input_EZ v (hop n v rfl) h
  | connect i o => exact connect_EZ i o h
  | update => exact update_EZ h

theorem exec_EZ {T : Nat → Prop} :
    ∀ (ops : List Op) (c : CircuitFast),
      EZInv T c → (∀ n v, Op.setInput n v ∈ ops → T n) →
      EZInv T (ops.foldl applyOp c) := by
  intro ops
  induction ops with
  | nil => exact fun c h _ => h
  | cons op tl ih =>
    intro c h hops
    refine ih _ (applyOp_EZ op (fun n v hv => ?_) h) (fun n v hv => ?_)
    · exact hops n v (hv ▸ List.mem_cons_self op tl)
    · exact hops n v (List.mem_cons_of_mem op hv)

end CircuitFast

open CircuitFast in
/-- C3, amended.  In every reachable state — not only after an `update` —
every node that has never been passed to `set_input` satisfies
`output == inverted XOR (inputs != 0)` for the OrNor/AndNand families and
`output == inverted XOR (inputs & 1)` for XorXnor.  (Driven external input
nodes are excluded: `set_input` writes `output` directly, see the recorded
counterexample.) -/
theorem claim_C3_amended_formula_invariant :
    ∀ (ops : List Op) (n : Nat), (∀ v : Bool, Op.setInput n v ∉ ops) →
      ((exec ops).getData n).output = specOutputFormula ((exec ops).getData n) := by
  intro ops n hn
  have h := @exec_EZ (fun m => ∃ v, Op.setInput m v ∈ ops) ops
    CircuitFast.new (new_EZ _) (fun m v hv => ⟨v, hv⟩)
  exact h.formulaInv n (fun hmem => by
    rcases hmem with ⟨v, hv⟩
    exact hn v hv)

/-- Witness for C3 (amended): a circuit with an OR gate and a driven input;
node 1 (the OR gate) was never passed to `set_input` and satisfies the
formula. -/
theorem claim_C3_witness :
    (∀ v : Bool, Op.setInput 1 v ∉
        [Op.addInput, Op.addOr, Op.connect 0 1, Op.setInput 0 true,
          Op.update, Op.update]) ∧
    ((exec [Op.addInput, Op.addOr, Op.connect 0 1, Op.setInput 0 true,
        Op.update, Op.update]).getData 1).output =
      specOutputFormula ((exec [Op.addInput, Op.addOr, Op.connect 0 1,
        Op.setInput 0 true, Op.update, Op.update]).getData 1) :=
  ⟨by decide, claim_C3_amended_formula_invariant _ 1 (by decide)⟩

open CircuitFast in
/-- C10.  For every XorXnor node, in every reachable state, the `inputs`
counter is 0 or 1: it starts at 0, `set_input` and `connect` never write it,
and Phase B only XORs in the low bit of the accumulated delta. -/
theorem claim_C10_xor_counter_invariant :
    ∀ (ops : List Op) (n : Nat),
      ((exec ops).getData n).gate_type = .XorXnor →
      ((exec ops).getData n).inputs ≤ 1 := by
  intro ops n hg
  have h := @exec_EZ (fun _ => True) ops CircuitFast.new (new_EZ _)
    (fun _ _ _ => trivial)
  exact h.xorBound n hg

/-- Witness for C10: a driven two-input XOR gate after two ticks. -/
theorem claim_C10_witness :
    ((exec [Op.addInput, Op.addInput, Op.addXor, Op.connect 0 2,
        Op.connect 1 2, Op.setInput 0 true, Op.update,
        Op.update]).getData 2).gate_type = GateType.XorXnor ∧
    ((exec [Op.addInput, Op.addInput, Op.addXor, Op.connect 0 2,
        Op.connect 1 2, Op.setInput 0 true, Op.update,
        Op.update]).getData 2).inputs ≤ 1 :=
  ⟨by decide, claim_C10_xor_counter_invariant _ 2 (by decide)⟩

/-- The spec's recompute formula for the XorXnor family (spec §4.2, Phase B
step 2): `new_output = c.inverted XOR (c.inputs & 1)`. -/
def specXorXnorRecompute (inverted : Bool) (inputs : Nat) : Bool :=
  Bool.xor inverted (inputs % 2 != 0)

open CircuitFast in
/-- C6.  For every reachable state and every XorXnor node, the output the
engine computes in Phase B — `inverted XOR (inputs != 0)` applied to the
counter after folding in any delta — coincides with the spec's per-family
formula `inverted XOR (inputs & 1)`: the single-formula implementation
refines the per-family specification because the XorXnor counter is always
a parity bit. -/
theorem claim_C6_xorxnor_refinement :
    ∀ (ops : List Op) (n : Nat) (delta : Nat),
      ((exec ops).getData n).gate_type = .XorXnor →
      newOutputFormula ((exec ops).getData n).inverted
          (recomputeInputs .XorXnor ((exec ops).getData n).inputs delta) =
        specXorXnorRecompute ((exec ops).getData n).inverted
          (recomputeInputs .XorXnor ((exec ops).getData n).inputs delta) := by
  intro ops n delta hg
  have hle : ((exec ops).getData n).inputs ≤ 1 := by
    have h := @exec_EZ (fun _ => True) ops CircuitFast.new (new_EZ _)
      (fun _ _ _ => trivial)
    exact h.xorBound n hg
  have hle2 : recomputeInputs .XorXnor ((exec ops).getData n).inputs delta ≤ 1 :=
    recompute_xor_le_one hle
  unfold newOutputFormula specXorXnorRecompute
  rw [bne_zero_of_le_one hle2]

/-- Witness for C6: the XOR gate of a concrete circuit with delta 1. -/
theorem claim_C6_witness :
    ((exec [Op.addInput, Op.addXor, Op.connect 0 1]).getData 1).gate_type =
        GateType.XorXnor ∧
    CircuitFast.newOutputFormula
        ((exec [Op.addInput, Op.addXor, Op.connect 0 1]).getData 1).inverted
        (CircuitFast.recomputeInputs .XorXnor
          ((exec [Op.addInput, Op.addXor, Op.connect 0 1]).getData 1).inputs 1) =
      specXorXnorRecompute
        ((exec [Op.addInput, Op.addXor, Op.connect 0 1]).getData 1).inverted
        (CircuitFast.recomputeInputs .XorXnor
          ((exec [Op.addInput, Op.addXor, Op.connect 0 1]).getData 1).inputs 1) :=
  ⟨by decide, claim_C6_xorxnor_refinement _ 1 1 (by decide)⟩

/-! ## C5: `run` / `run_until_done` -/

namespace CircuitFast

theorem run_until_done_work_left :
    ∀ (fuel : Nat) (c c' : CircuitFast),
      run_until_done fuel c = some c' → c'.work_left = false := by
  intro fuel
  induction fuel with
  | zero =>
    intro c c' h
    unfold run_until_done at h
    split at h
    · exact absurd h (by simp)
    · rename_i hw
      cases h
      exact Bool.not_eq_true _ ▸ hw
  | succ f ih =>
    intro c c' h
    unfold run_until_done at h
    split at h
    · exact ih _ _ h
    · rename_i hw
      cases h
      exact Bool.not_eq_true _ ▸ hw

theorem runGo_spec (m : Nat) :
    ∀ (rem ticks : Nat) (c0 : CircuitFast), ticks + rem = m →
      (∀ j, j < ticks → (update^[j] c0).work_left = true) →
      (∀ k, ((runGo m (update^[ticks] c0) rem ticks).2 = RunResult.finished k ↔
         (k < m ∧ (update^[k] c0).work_left = false ∧
           ∀ j, j < k → (update^[j] c0).work_left = true))) ∧
      (((runGo m (update^[ticks] c0) rem ticks).2 =
          RunResult.reachedMaxTicks m) ↔
        ∀ j, j < m → (update^[j] c0).work_left = true) := by
  intro rem
  induction rem with
  | zero =>
    intro ticks c0 htot hprev
    have hticks : ticks = m := by omega
    subst hticks
    constructor
    · intro k
      simp only [runGo]
      constructor
      · intro h
        exact absurd h (by simp)
      · rintro ⟨hk, hw, -⟩
        rw [hprev k hk] at hw
        cases hw
    · simp only [runGo]
      exact ⟨fun _ => hprev, fun _ => trivial⟩
  | succ rem ih =>
    intro ticks c0 htot hprev
    rcases hw : (update^[ticks] c0).work_left with _ | _
    · -- quiescent before exhausting the budget: Finished(ticks)
      have hstep : runGo m (update^[ticks] c0) (rem + 1) ticks =
          ((update^[ticks] c0), RunResult.finished ticks) := by
        simp only [runGo, hw]
        rfl
      rw [hstep]
      constructor
      · intro k
        constructor
        · intro h
          cases h
          exact ⟨by omega, hw, hprev⟩
        · rintro ⟨hk, hwk, hall⟩
          rcases Nat.lt_trichotomy k ticks with hlt | rfl | hgt
          · rw [hprev k hlt] at hwk
            cases hwk
          · rfl
          · rw [hall ticks hgt] at hw
            cases hw
      · constructor
        · intro h
          cases h
        · intro hall
          rw [hall ticks (by omega)] at hw
          cases hw
    · -- still work: one more update and recurse
      have hstep : runGo m (update^[ticks] c0) (rem + 1) ticks =
          runGo m (update^[ticks + 1] c0) rem (ticks + 1) := by
        simp only [runGo, hw]
        rw [Function.iterate_succ_apply' update ticks c0]
        rfl
      rw [hstep]
      refine ih (ticks + 1) c0 (by omega) ?_
      intro j hj
      rcases Nat.lt_or_ge j ticks with hlt | hge
      · exact hprev j hlt
      · have : j = ticks := by omega
        subst this
        exact hw

end CircuitFast

open CircuitFast in
/-- C5, counterexample.  A circuit that quiesces within the first
`max_ticks = 1` ticks (one `update` empties both work lists) for which
`run(1)` nevertheless returns `ReachedMaxTicks` — the loop only reports
`Finished` when it observes quiescence before spending an iteration, so
quiescence reached exactly on the budget boundary is reported as
`ReachedMaxTicks`. -/
theorem claim_C5_counterexample :
    (exec [Op.addInput, Op.setInput 0 true]).work_left = true ∧
    ((exec [Op.addInput, Op.setInput 0 true]).update.work_left = false) ∧
    ((exec [Op.addInput, Op.setInput 0 true]).run 1).2 =
      RunResult.reachedMaxTicks 1 := by
  decide

open CircuitFast in
/-- C5, amended.  `run(max_ticks)` returns `Finished{after_ticks = k}` (with
`k < max_ticks`) exactly when the circuit reaches quiescence after `k` updates
for some `k` strictly below the budget; otherwise it performs `max_ticks`
updates and returns `ReachedMaxTicks{max_ticks}` — even if the circuit is
quiescent right after the final update.  `run_until_done`, when it returns,
leaves `work_left() == false`. -/
theorem claim_C5_run_characterization :
    ∀ (c : CircuitFast) (m : Nat),
      (∀ k, ((c.run m).2 = RunResult.finished k ↔
        (k < m ∧ (update^[k] c).work_left = false ∧
          ∀ j, j < k → (update^[j] c).work_left = true))) ∧
      (((c.run m).2 = RunResult.reachedMaxTicks m) ↔
        ∀ j, j < m → (update^[j] c).work_left = true) ∧
      (∀ (fuel : Nat) (c' : CircuitFast),
        run_until_done fuel c = some c' → c'.work_left = false) := by
  intro c m
  have h := runGo_spec m m 0 c (by omega)
    (fun j hj => absurd hj (Nat.not_lt_zero j))
  exact ⟨h.1, h.2, fun fuel c' => run_until_done_work_left fuel c c'⟩

open CircuitFast in
/-- Witness for C5 (amended): on the concrete one-input circuit, `run(2)`
returns `Finished{after_ticks = 1}`. -/
theorem claim_C5_witness :
    ((exec [Op.addInput, Op.setInput 0 true]).run 2).2 =
      RunResult.finished 1 := by
  have h :=
    (claim_C5_run_characterization (exec [Op.addInput, Op.setInput 0 true]) 2).1 1
  exact h.mpr ⟨by decide, by decide, by decide⟩

/-! ## C4: `connect` -/

namespace CircuitFast

/-- Walk an intrusive list from `head` following `f`, collecting the visited
ids (the walk stops at the `NULL` terminator or when the fuel runs out). -/
def chase (f : Nat → Nat) : Nat → Nat → List Nat
  | 0, _ => []
  | fuel + 1, h => if h = NULL then [] else h :: chase f fuel (f h)

theorem chase_congr {f g : Nat → Nat} (hfg : ∀ m, f m = g m) :
    ∀ (fuel h : Nat), chase f fuel h = chase g fuel h := by
  intro fuel
  induction fuel with
  | zero => intro h; rfl
  | succ fu ih =>
    intro h
    unfold chase
    split
    · rfl
    · rw [ih, hfg]

/-- The recompute ("changed") list: the nodes reachable from `changed_head`
through the `next_changed` links. -/
def changedList (c : CircuitFast) : List Nat :=
  chase (fun m => (c.getUD m).next_changed) (c.node_update_data.length + 1)
    c.changed_head

theorem getUD_setUD_getD (c : CircuitFast) (n : Nat) (d : UpdateData) (m : Nat) :
    (c.setUD n d).getUD m =
      if m = n ∧ n < c.node_update_data.length then d else c.getUD m := by
  simp only [getUD, setUD]
  exact getD_set _ _ _ _ _

theorem getUD_set_changed_head (c : CircuitFast) (v m : Nat) :
    ({ c with changed_head := v }).getUD m = c.getUD m := rfl

theorem mem_chase_head {f : Nat → Nat} {h : Nat} (fuel : Nat) (hh : h ≠ NULL) :
    h ∈ chase f (fuel + 1) h := by
  unfold chase
  rw [if_neg hh]
  exact List.mem_cons_self _ _

/-- Characterisation of `CircuitFast::modify`: it adds plus or minus one
(wrapping) to the target's `inputs_delta`, leaves every other node alone,
leaves the whole propagate-phase state alone, and leaves the target on the
recompute list. -/
theorem modify_spec (c : CircuitFast) (n : Nat) (b : Bool)
    (hn : n < c.node_update_data.length) (hNULL : n ≠ NULL)
    (hmem : (c.getUD n).next_changed ≠ NULL → n ∈ changedList c) :
    ((c.modify n b).getUD n).inputs_delta =
      (if b then ((c.getUD n).inputs_delta + 1) % 256
       else ((c.getUD n).inputs_delta + 255) % 256) ∧
    (∀ j, j ≠ n → (c.modify n b).getUD j = c.getUD j) ∧
    n ∈ changedList (c.modify n b) ∧
    (c.modify n b).node_data = c.node_data ∧
    (c.modify n b).node_children = c.node_children ∧
    (c.modify n b).update_head = c.update_head ∧
    (c.modify n b).tick = c.tick ∧ (c.modify n b).next_id = c.next_id := by
  unfold modify
  dsimp only
  split
  · -- freshly spliced onto the recompute list
    rename_i hnil
    refine ⟨?_, ?_, ?_, rfl, rfl, rfl, rfl, rfl⟩
    · rw [getUD_set_changed_head, getUD_setUD_getD, if_pos ⟨rfl, hn⟩]
    · intro j hj
      rw [getUD_set_changed_head, getUD_setUD_getD, if_neg (fun hc => hj hc.1)]
    · exact mem_chase_head _ hNULL
  · -- already on the recompute list: only the delta changes
    rename_i hnotnil
    have hlinks : ∀ m,
        (((c.setUD n { c.getUD n with
            inputs_delta := if b then ((c.getUD n).inputs_delta + 1) % 256
              else ((c.getUD n).inputs_delta + 255) % 256 }).getUD m)).next_changed =
          (c.getUD m).next_changed := by
      intro m
      rw [getUD_setUD_getD]
      split
      · rename_i hc
        rcases hc with ⟨rfl, _⟩
        rfl
      · rfl
    have hsame : changedList (c.setUD n { c.getUD n with
        inputs_delta := if b then ((c.getUD n).inputs_delta + 1) % 256
          else ((c.getUD n).inputs_delta + 255) % 256 }) = changedList c := by
      unfold changedList
      simp only [setUD, List.length_set]
      exact chase_congr hlinks _ _
    refine ⟨?_, ?_, ?_, rfl, rfl, rfl, rfl, rfl⟩
    · rw [getUD_setUD_getD, if_pos ⟨rfl, hn⟩]
    · intro j hj
      rw [getUD_setUD_getD, if_neg (fun hc => hj hc.1)]
    · rw [hsame]
      exact hmem hnotnil

theorem connectChildren_getData (c : CircuitFast) (i o m : Nat) :
    ((c.connectChildren i o)).getData m = c.getData m := rfl

theorem connectChildren_getUD (c : CircuitFast) (i o m : Nat) :
    ((c.connectChildren i o)).getUD m = c.getUD m := rfl

theorem connectChildren_is_active (c : CircuitFast) (i o m : Nat) :
    ((c.connectChildren i o)).is_active m = c.is_active m := rfl

theorem connectChildren_changedList (c : CircuitFast) (i o : Nat) :
    changedList (c.connectChildren i o) = changedList c := rfl

theorem connectChildren_getChildren (c : CircuitFast) (i o m : Nat) :
    (c.connectChildren i o).getChildren m =
      if m = i ∧ i < c.node_children.length then c.getChildren i ++ [o]
      else c.getChildren m := by
  simp only [getChildren, connectChildren]
  exact getD_set _ _ _ _ _

end CircuitFast

open CircuitFast in
/-- C4.  For in-range nodes, `connect(input, output)` appends `output` to
`input`'s children list and performs exactly one reconciliation: if `output`
is OrNor/XorXnor and `input` is currently asserting, it adds +1 (wrapping) to
`output`'s `inputs_delta` and leaves `output` on the recompute list; if
`output` is AndNand and `input` is currently de-asserting, it adds -1; in
every other case it changes nothing beyond the children push.  No node
record, the propagate list, the tick, or the allocator is touched, and the
operation is total (`connect` never fails).  The last hypothesis is the
intrusive-list soundness condition: a node with a non-`NULL` link is on the
recompute list. -/
theorem claim_C4_connect_characterization :
    ∀ (c : CircuitFast) (inp out : Nat),
      inp < c.node_children.length →
      out < c.node_update_data.length → out ≠ NULL →
      ((c.getUD out).next_changed ≠ NULL → out ∈ changedList c) →
      ((c.connect inp out).getChildren inp = c.getChildren inp ++ [out]) ∧
      (∀ j, j ≠ inp → (c.connect inp out).getChildren j = c.getChildren j) ∧
      (c.connect inp out).node_data = c.node_data ∧
      (c.connect inp out).update_head = c.update_head ∧
      (c.connect inp out).tick = c.tick ∧
      (c.connect inp out).next_id = c.next_id ∧
      ((c.getData out).gate_type = GateType.AndNand →
        (c.is_active inp = false →
          ((c.connect inp out).getUD out).inputs_delta =
            ((c.getUD out).inputs_delta + 255) % 256 ∧
          (∀ j, j ≠ out → (c.connect inp out).getUD j = c.getUD j) ∧
          out ∈ changedList (c.connect inp out)) ∧
        (c.is_active inp = true →
          (c.connect inp out).node_update_data = c.node_update_data ∧
          (c.connect inp out).changed_head = c.changed_head)) ∧
      ((c.getData out).gate_type ≠ GateType.AndNand →
        (c.is_active inp = true →
          ((c.connect inp out).getUD out).inputs_delta =
            ((c.getUD out).inputs_delta + 1) % 256 ∧
          (∀ j, j ≠ out → (c.connect inp out).getUD j = c.getUD j) ∧
          out ∈ changedList (c.connect inp out)) ∧
        (c.is_active inp = false →
          (c.connect inp out).node_update_data = c.node_update_data ∧
          (c.connect inp out).changed_head = c.changed_head)) := by
  intro c inp out hin hout hNN hmem
  have houtc : out < (c.connectChildren inp out).node_update_data.length := hout
  have hmemc : (((c.connectChildren inp out).getUD out)).next_changed ≠ NULL →
      out ∈ changedList (c.connectChildren inp out) := hmem
  unfold connect
  dsimp only
  simp only [connectChildren_getData, connectChildren_is_active]
  cases hgt : (c.getData out).gate_type <;>
    cases hact : c.is_active inp <;>
      simp only [Bool.xor_false, Bool.xor_true, Bool.not_true,
        Bool.not_false, Bool.false_eq_true, Bool.true_eq_false, reduceIte]
  -- OrNor, producer low: untriggered
  · refine ⟨?_, ?_, rfl, rfl, rfl, rfl, ?_, ?_⟩
    · rw [connectChildren_getChildren, if_pos ⟨rfl, hin⟩]
    · intro j hj
      rw [connectChildren_getChildren, if_neg (fun hc => hj hc.1)]
    · exact fun hc => absurd hc (by decide)
    · exact fun _ => ⟨fun hf => absurd hf (by decide), fun _ => ⟨rfl, rfl⟩⟩
  -- OrNor, producer high: +1 and enqueue
  · rcases modify_spec (c.connectChildren inp out) out true houtc hNN hmemc
      with ⟨hd, hothers, hm, hnd, hnc, huh, htk, hni⟩
    refine ⟨?_, ?_, hnd, huh, htk, hni, ?_, ?_⟩
    · show ((c.connectChildren inp out).modify out true).node_children.getD
          inp [] = _
      rw [hnc]
      exact (connectChildren_getChildren c inp out inp).trans
        (if_pos ⟨rfl, hin⟩)
    · intro j hj
      show ((c.connectChildren inp out).modify out true).node_children.getD
          j [] = _
      rw [hnc]
      exact (connectChildren_getChildren c inp out j).trans
        (if_neg (fun hc => hj hc.1))
    · exact fun hc => absurd hc (by decide)
    · exact fun _ => ⟨fun _ => ⟨by simpa using hd, hothers, hm⟩,
        fun hf => absurd hf (by decide)⟩
  -- AndNand, producer low: -1 and enqueue
  · rcases modify_spec (c.connectChildren inp out) out false houtc hNN hmemc
      with ⟨hd, hothers, hm, hnd, hnc, huh, htk, hni⟩
    refine ⟨?_, ?_, hnd, huh, htk, hni, ?_, ?_⟩
    · show ((c.connectChildren inp out).modify out false).node_children.getD
          inp [] = _
      rw [hnc]
      exact (connectChildren_getChildren c inp out inp).trans
        (if_pos ⟨rfl, hin⟩)
    · intro j hj
      show ((c.connectChildren inp out).modify out false).node_children.getD
          j [] = _
      rw [hnc]
      exact (connectChildren_getChildren c inp out j).trans
        (if_neg (fun hc => hj hc.1))
    · exact fun _ => ⟨fun _ => ⟨by simpa using hd, hothers, hm⟩,
        fun hf => absurd hf (by decide)⟩
    · exact fun hc => absurd rfl hc
  -- AndNand, producer high: untriggered
  · refine ⟨?_, ?_, rfl, rfl, rfl, rfl, ?_, ?_⟩
    · rw [connectChildren_getChildren, if_pos ⟨rfl, hin⟩]
    · intro j hj
      rw [connectChildren_getChildren, if_neg (fun hc => hj hc.1)]
    · exact fun _ => ⟨fun hf => absurd hf (by decide), fun _ => ⟨rfl, rfl⟩⟩
    · exact fun hc => absurd rfl hc
  -- XorXnor, producer low: untriggered
  · refine ⟨?_, ?_, rfl, rfl, rfl, rfl, ?_, ?_⟩
    · rw [connectChildren_getChildren, if_pos ⟨rfl, hin⟩]
    · intro j hj
      rw [connectChildren_getChildren, if_neg (fun hc => hj hc.1)]
    · exact fun hc => absurd hc (by decide)
    · exact fun _ => ⟨fun hf => absurd hf (by decide), fun _ => ⟨rfl, rfl⟩⟩
  -- XorXnor, producer high: +1 and enqueue
  · rcases modify_spec (c.connectChildren inp out) out true houtc hNN hmemc
      with ⟨hd, hothers, hm, hnd, hnc, huh, htk, hni⟩
    refine ⟨?_, ?_, hnd, huh, htk, hni, ?_, ?_⟩
    · show ((c.connectChildren inp out).modify out true).node_children.getD
          inp [] = _
      rw [hnc]
      exact (connectChildren_getChildren c inp out inp).trans
        (if_pos ⟨rfl, hin⟩)
    · intro j hj
      show ((c.connectChildren inp out).modify out true).node_children.getD
          j [] = _
      rw [hnc]
      exact (connectChildren_getChildren c inp out j).trans
        (if_neg (fun hc => hj hc.1))
    · exact fun hc => absurd hc (by decide)
    · exact fun _ => ⟨fun _ => ⟨by simpa using hd, hothers, hm⟩,
        fun hf => absurd hf (by decide)⟩

open CircuitFast in
/-- Witness for C4 on a concrete circuit (an input node feeding an OR). -/
theorem claim_C4_witness :
    0 < (exec [Op.addInput, Op.addOr]).node_children.length ∧
    1 < (exec [Op.addInput, Op.addOr]).node_update_data.length ∧
    ((exec [Op.addInput, Op.addOr]).connect 0 1).getChildren 0 =
      (exec [Op.addInput, Op.addOr]).getChildren 0 ++ [1] :=
  ⟨by decide, by decide,
    (claim_C4_connect_characterization (exec [Op.addInput, Op.addOr]) 0 1
      (by decide) (by decide) (by decide)
      (fun h => absurd (by decide :
        ((exec [Op.addInput, Op.addOr]).getUD 1).next_changed = NULL) h)).1⟩

/-! ## Structural lemmas about the engine operations

Projection equations used to track the shape of a circuit while it is being
built by the component constructors (`wire.rs`, `memory.rs`, `adder.rs`). -/

namespace CircuitFast

/-- The three node arrays and the id allocator stay in lockstep. -/
structure WFAlloc (c : CircuitFast) : Prop where
  children_len : c.node_children.length = c.next_id
  data_len : c.node_data.length = c.next_id
  ud_len : c.node_update_data.length = c.next_id

theorem new_WFAlloc : WFAlloc new := ⟨rfl, rfl, rfl⟩

theorem modify_node_data (c : CircuitFast) (n : Nat) (b : Bool) :
    (c.modify n b).node_data = c.node_data := by
  unfold modify; dsimp only; split <;> rfl

theorem modify_node_children (c : CircuitFast) (n : Nat) (b : Bool) :
    (c.modify n b).node_children = c.node_children := by
  unfold modify; dsimp only; split <;> rfl

theorem modify_next_id (c : CircuitFast) (n : Nat) (b : Bool) :
    (c.modify n b).next_id = c.next_id := by
  unfold modify; dsimp only; split <;> rfl

theorem modify_ud_length (c : CircuitFast) (n : Nat) (b : Bool) :
    (c.modify n b).node_update_data.length = c.node_update_data.length := by
  unfold modify; dsimp only; split <;> simp [setUD]

theorem enqueue_update_node_children (c : CircuitFast) (n : Nat) :
    (c.enqueue_update n).node_children = c.node_children := by
  unfold enqueue_update; dsimp only; split <;> rfl

theorem enqueue_update_next_id (c : CircuitFast) (n : Nat) :
    (c.enqueue_update n).next_id = c.next_id := by
  unfold enqueue_update; dsimp only; split <;> rfl

theorem enqueue_update_node_ud (c : CircuitFast) (n : Nat) :
    (c.enqueue_update n).node_update_data = c.node_update_data := by
  unfold enqueue_update; dsimp only; split <;> rfl

theorem enqueue_update_data_length (c : CircuitFast) (n : Nat) :
    (c.enqueue_update n).node_data.length = c.node_data.length := by
  unfold enqueue_update; dsimp only; split <;> simp [setData]

theorem set_input_node_children (c : CircuitFast) (n : Nat) (v : Bool) :
    (c.set_input n v).node_children = c.node_children := by
  unfold set_input; dsimp only; split
  · exact enqueue_update_node_children _ _
  · rfl

theorem set_input_next_id (c : CircuitFast) (n : Nat) (v : Bool) :
    (c.set_input n v).next_id = c.next_id := by
  unfold set_input; dsimp only; split
  · exact enqueue_update_next_id _ _
  · rfl

theorem set_input_node_ud (c : CircuitFast) (n : Nat) (v : Bool) :
    (c.set_input n v).node_update_data = c.node_update_data := by
  unfold set_input; dsimp only; split
  · exact enqueue_update_node_ud _ _
  · rfl

theorem set_input_data_length (c : CircuitFast) (n : Nat) (v : Bool) :
    (c.set_input n v).node_data.length = c.node_data.length := by
  unfold set_input; dsimp only; split
  · rw [enqueue_update_data_length]
    simp [setData]
  · rfl

theorem set_input_WFAlloc {c : CircuitFast} (n : Nat) (v : Bool)
    (h : WFAlloc c) : WFAlloc (c.set_input n v) := by
  refine ⟨?_, ?_, ?_⟩
  · rw [set_input_node_children, set_input_next_id]; exact h.children_len
  · rw [set_input_data_length, set_input_next_id]; exact h.data_len
  · rw [set_input_node_ud, set_input_next_id]; exact h.ud_len

theorem connect_node_data (c : CircuitFast) (i o : Nat) :
    (c.connect i o).node_data = c.node_data := by
  unfold connect; dsimp only; split
  · exact modify_node_data _ _ _
  · rfl

theorem connect_node_children (c : CircuitFast) (i o : Nat) :
    (c.connect i o).node_children =
      c.node_children.set i (c.getChildren i ++ [o]) := by
  unfold connect; dsimp only; split
  · exact modify_node_children _ _ _
  · rfl

theorem connect_next_id (c : CircuitFast) (i o : Nat) :
    (c.connect i o).next_id = c.next_id := by
  unfold connect; dsimp only; split
  · exact modify_next_id _ _ _
  · rfl

theorem connect_ud_length (c : CircuitFast) (i o : Nat) :
    (c.connect i o).node_update_data.length =
      c.node_update_data.length := by
  unfold connect; dsimp only; split
  · exact modify_ud_length _ _ _
  · rfl

theorem connect_getChildren_ne (c : CircuitFast) (i o m : Nat) (h : m ≠ i) :
    (c.connect i o).getChildren m = c.getChildren m := by
  simp only [getChildren, connect_node_children]
  rw [getD_set, if_neg (fun hc => h hc.1)]

theorem connect_getChildren_self (c : CircuitFast) (i o : Nat)
    (h : i < c.node_children.length) :
    (c.connect i o).getChildren i = c.getChildren i ++ [o] := by
  simp only [getChildren, connect_node_children]
  rw [getD_set, if_pos ⟨rfl, h⟩]

theorem connect_getChildren_mono (c : CircuitFast) (i o m x : Nat)
    (h : x ∈ c.getChildren m) : x ∈ (c.connect i o).getChildren m := by
  rcases Decidable.em (m = i) with rfl | hne
  · simp only [getChildren, connect_node_children]
    rw [getD_set]
    split
    · exact List.mem_append_left _ h
    · exact h
  · rw [connect_getChildren_ne c i o m hne]
    exact h

theorem connect_getData (c : CircuitFast) (i o m : Nat) :
    (c.connect i o).getData m = c.getData m := by
  simp only [getData, connect_node_data]

theorem connect_WFAlloc {c : CircuitFast} (i o : Nat) (h : WFAlloc c) :
    WFAlloc (c.connect i o) := by
  refine ⟨?_, ?_, ?_⟩
  · rw [connect_node_children, connect_next_id, List.length_set]
    exact h.children_len
  · rw [connect_node_data, connect_next_id]; exact h.data_len
  · rw [connect_ud_length, connect_next_id]; exact h.ud_len

theorem set_input_getChildren (c : CircuitFast) (n : Nat) (v : Bool)
    (m : Nat) : (c.set_input n v).getChildren m = c.getChildren m := by
  simp only [getChildren, set_input_node_children]

theorem add_node_snd (c : CircuitFast) (gt : GateType) (inv : Bool) :
    (c.add_node gt inv).2 = c.next_id := rfl

theorem add_node_next_id (c : CircuitFast) (gt : GateType) (inv : Bool) :
    (c.add_node gt inv).1.next_id = c.next_id + 1 := by
  unfold add_node; dsimp only; split <;> rfl

theorem add_node_getChildren (c : CircuitFast) (gt : GateType) (inv : Bool)
    (m : Nat) : (c.add_node gt inv).1.getChildren m = c.getChildren m := by
  unfold add_node; dsimp only; split
  · show (resizePad c.node_children (c.next_id + 1) []).getD m [] = _
    exact getD_resizePad _ _ _ _
  · rfl

theorem add_node_getData_ne (c : CircuitFast) (gt : GateType) (inv : Bool)
    (m : Nat) (hm : m ≠ c.next_id) :
    (c.add_node gt inv).1.getData m = c.getData m := by
  unfold add_node; dsimp only; split
  · simp only [getData, setData]
    rw [getD_set, if_neg (fun hc => hm hc.1)]
    exact getD_resizePad _ _ _ _
  · simp only [getData, setData]
    rw [getD_set, if_neg (fun hc => hm hc.1)]

theorem add_node_getData_self {c : CircuitFast} (gt : GateType) (inv : Bool)
    (h : WFAlloc c) :
    (c.add_node gt inv).1.getData c.next_id =
      { next_update := NULL, output := inv, inputs := 0, inverted := inv,
        gate_type := gt } := by
  unfold add_node
  dsimp only
  rw [if_pos (Nat.le_of_eq h.data_len)]
  simp only [getData, setData]
  rw [getD_set, if_pos ⟨rfl, by rw [length_resizePad]; omega⟩]
  rw [getD_resizePad, List.getD_eq_default _ _ (Nat.le_of_eq h.data_len)]

theorem add_node_WFAlloc {c : CircuitFast} (gt : GateType) (inv : Bool)
    (h : WFAlloc c) : WFAlloc (c.add_node gt inv).1 := by
  unfold add_node
  dsimp only
  rw [if_pos (Nat.le_of_eq h.data_len)]
  refine ⟨?_, ?_, ?_⟩ <;>
    simp only [setData, List.length_set, length_resizePad,
      h.children_len, h.data_len, h.ud_len] <;> omega

theorem add_node_getChildren_fresh {c : CircuitFast} (gt : GateType)
    (inv : Bool) (h : WFAlloc c) :
    (c.add_node gt inv).1.getChildren c.next_id = [] := by
  rw [add_node_getChildren]
  exact List.getD_eq_default _ _ (Nat.le_of_eq h.children_len)

end CircuitFast

/-! ## Accounting invariant machinery -/

namespace CircuitFast

/-- Number of edges from producer `p` into consumer `m` (occurrences of `m`
in `p`'s children list). -/
def cnt (c : CircuitFast) (p m : Nat) : Nat := (c.getChildren p).count m

/-- Total in-degree of consumer `m`. -/
def indeg (c : CircuitFast) (m : Nat) : Nat :=
  ∑ p ∈ Finset.range c.next_id, cnt c p m

/-- The output of producer `p` as already delivered to its consumers: a node
on the propagate list has toggled but not yet delivered, so consumers still
see the pre-toggle value. -/
def deliv (c : CircuitFast) (ul : List Nat) (p : Nat) : Bool :=
  if p ∈ ul then !(c.getData p).output else (c.getData p).output

/-- Sum over producers of delivered-high edge multiplicities into `m`. -/
def Hdel (c : CircuitFast) (ul : List Nat) (m : Nat) : Nat :=
  ∑ p ∈ Finset.range c.next_id, (if deliv c ul p then cnt c p m else 0)

/-- The per-family counter accounting: what `inputs + inputs_delta` must be,
modulo the stored width, in terms of delivered producer outputs.  The AndNand
counter tracks minus the number of delivered-low producers, i.e.
`Hdel - indeg` in `ZMod 256`. -/
def famOK (c : CircuitFast) (ul : List Nat) (m : Nat) : Prop :=
  match (c.getData m).gate_type with
  | .OrNor => ((c.getData m).inputs + (c.getUD m).inputs_delta : ZMod 256)
      = (Hdel c ul m : ZMod 256)
  | .AndNand => ((c.getData m).inputs + (c.getUD m).inputs_delta : ZMod 256)
      = (Hdel c ul m : ZMod 256) - (indeg c m : ZMod 256)
  | .XorXnor => ((c.getData m).inputs + (c.getUD m).inputs_delta : ZMod 2)
      = (Hdel c ul m : ZMod 2)

/-- The propagate list as a ghost chain: `h` points at the list's head and
each node's `next_update` at its successor, ending in `NULL`. -/
def uchain (c : CircuitFast) : Nat → List Nat → Prop
  | h, [] => h = NULL
  | h, n :: rest => h = n ∧ uchain c (c.getData n).next_update rest

/-- The recompute list as a ghost chain with a relaxed terminator: the last
link is `NULL` or satisfies `P` (the re-enqueue of a list tail creates a
benign cycle back into the list). -/
def cchain (c : CircuitFast) (P : Nat → Prop) : Nat → List Nat → Prop
  | h, [] => h = NULL ∨ P h
  | h, n :: rest => h = n ∧ cchain c P (c.getUD n).next_changed rest

/-- Global invariant of the engine state between API calls, with ghost
propagate list `ul` and recompute list `cl`. -/
structure Inv (c : CircuitFast) (ul cl : List Nat) : Prop where
  data_len : c.node_data.length = c.next_id
  ud_len : c.node_update_data.length = c.next_id
  ch_len : c.node_children.length = c.next_id
  next_le : c.next_id ≤ NULL
  child_lt : ∀ p m, m ∈ c.getChildren p → m < c.next_id
  ul_chain : uchain c c.update_head ul
  ul_nodup : ul.Nodup
  ul_lt : ∀ n ∈ ul, n < c.next_id
  ul_off : ∀ n, n ∉ ul → (c.getData n).next_update = NULL
  cl_chain : cchain c (fun t => t ∈ cl) c.changed_head cl
  cl_nodup : cl.Nodup
  cl_lt : ∀ n ∈ cl, n < c.next_id
  cl_off : ∀ n, n ∉ cl → (c.getUD n).next_changed = NULL ∧
    (c.getUD n).inputs_delta = 0
  sizes : ∀ m, (c.getData m).inputs < 256 ∧ (c.getUD m).inputs_delta < 256
  fam : ∀ m, famOK c ul m
  xorb : ∀ m, (c.getData m).gate_type = .XorXnor → (c.getData m).inputs ≤ 1
  formula : ∀ m, indeg c m ≠ 0 →
    (c.getData m).output = newOutputFormula (c.getData m).inverted
      (c.getData m).inputs

/-! ### Chain auxiliary lemmas -/

theorem cchain_mono {c : CircuitFast} {P Q : Nat → Prop}
    (hpq : ∀ n, P n → Q n) :
    ∀ {l : List Nat} {h : Nat}, cchain c P h l → cchain c Q h l := by
  intro l
  induction l with
  | nil => intro h hc; exact hc.imp id (hpq h)
  | cons n rest ih =>
    intro h hc
    exact ⟨hc.1, ih hc.2⟩

theorem cchain_ext {c c' : CircuitFast} {P : Nat → Prop} :
    ∀ {l : List Nat} {h : Nat},
      (∀ n ∈ l, (c'.getUD n).next_changed = (c.getUD n).next_changed) →
      cchain c P h l → cchain c' P h l := by
  intro l
  induction l with
  | nil => intro h _ hc; exact hc
  | cons n rest ih =>
    intro h hud hc
    refine ⟨hc.1, ?_⟩
    rw [hud n (List.mem_cons_self n rest)]
    exact ih (fun m hm => hud m (List.mem_cons_of_mem n hm)) hc.2

theorem uchain_ext {c c' : CircuitFast} :
    ∀ {l : List Nat} {h : Nat},
      (∀ n ∈ l, (c'.getData n).next_update = (c.getData n).next_update) →
      uchain c h l → uchain c' h l := by
  intro l
  induction l with
  | nil => intro h _ hc; exact hc
  | cons n rest ih =>
    intro h hud hc
    refine ⟨hc.1, ?_⟩
    rw [hud n (List.mem_cons_self n rest)]
    exact ih (fun m hm => hud m (List.mem_cons_of_mem n hm)) hc.2

/-- In a changed chain whose members are below `NULL`, a member with a `NULL`
link is the final element. -/
theorem cchain_null_last {c : CircuitFast} {P : Nat → Prop} {t : Nat}
    (htn : (c.getUD t).next_changed = NULL) :
    ∀ {l : List Nat} {h : Nat}, cchain c P h l → (∀ n ∈ l, n < NULL) →
      t ∈ l → ∃ front, l = front ++ [t] := by
  intro l
  induction l with
  | nil => intro h _ _ hm; exact absurd hm (List.not_mem_nil t)
  | cons n rest ih =>
    intro h hc hlt hm
    rcases List.mem_cons.mp hm with rfl | hm
    · cases rest with
      | nil => exact ⟨[], rfl⟩
      | cons r rs =>
        exfalso
        have h1 : (c.getUD t).next_changed = r := hc.2.1
        have := hlt r (List.mem_cons_of_mem t (List.mem_cons_self r rs))
        omega
    · obtain ⟨front, hfr⟩ := ih hc.2
        (fun m hmm => hlt m (List.mem_cons_of_mem n hmm)) hm
      exact ⟨n :: front, by rw [hfr]; rfl⟩

/-- Rotating a changed chain that ends in `t` when `t` is re-enqueued with
its link pointing at the old head. -/
theorem cchain_rotate {c c' : CircuitFast} {P : Nat → Prop} {t : Nat} :
    ∀ {front : List Nat} {h : Nat},
      cchain c P h (front ++ [t]) →
      t ∉ front →
      (∀ n ∈ front, (c'.getUD n).next_changed = (c.getUD n).next_changed) →
      cchain c' (fun q => q ∈ t :: front) h front := by
  intro front
  induction front with
  | nil =>
    intro h hc _ _
    exact Or.inr (hc.1 ▸ List.mem_cons_self _ _)
  | cons f fs ih =>
    intro h hc hnt hud
    refine ⟨hc.1, ?_⟩
    rw [hud f (List.mem_cons_self f fs)]
    have hr := ih hc.2 (fun hx => hnt (List.mem_cons_of_mem f hx))
      (fun m hm => hud m (List.mem_cons_of_mem f hm))
    exact cchain_mono (fun q hq => by
      rcases List.mem_cons.mp hq with rfl | hq
      · exact List.mem_cons_self _ _
      · exact List.mem_cons_of_mem _ (List.mem_cons_of_mem f hq)) hr


/-! ### Getter lemmas for the primitive mutators -/

theorem getD_set' {α : Type} (l : List α) (n m : Nat) (a d : α) :
    (l.set n a).getD m d = if m = n ∧ n < l.length then a else l.getD m d := by
  rcases Decidable.em (m = n ∧ n < l.length) with h | h
  · rcases h with ⟨rfl, hlt⟩
    simp [List.getD, List.getElem?_set_self', List.getElem?_eq_getElem hlt,
      if_pos hlt]
  · rw [if_neg h]
    rcases Decidable.em (m = n) with rfl | hne
    · have hge : l.length ≤ m := by
        rcases Nat.lt_or_ge m l.length with h1 | h1
        · exact absurd ⟨rfl, h1⟩ h
        · exact h1
      rw [List.set_eq_of_length_le hge]
    · simp [List.getD, List.getElem?_set_ne (fun h => hne h.symm)]

theorem getUD_setUD' (c : CircuitFast) (n : Nat) (d : UpdateData) (m : Nat) :
    (c.setUD n d).getUD m =
      if m = n ∧ n < c.node_update_data.length then d else c.getUD m := by
  simp only [getUD, setUD]
  exact getD_set' _ _ _ _ _

theorem getData_setUD' (c : CircuitFast) (n : Nat) (d : UpdateData) (m : Nat) :
    (c.setUD n d).getData m = c.getData m := rfl

theorem getData_setData' (c : CircuitFast) (n : Nat) (d : NodeData) (m : Nat) :
    (c.setData n d).getData m =
      if m = n ∧ n < c.node_data.length then d else c.getData m := by
  simp only [getData, setData]
  exact getD_set' _ _ _ _ _

theorem getUD_mk_chead (x : CircuitFast) (v : Nat) (m : Nat) :
    ({ x with changed_head := v } : CircuitFast).getUD m = x.getUD m := rfl

theorem chead_mk (x : CircuitFast) (v : Nat) :
    ({ x with changed_head := v } : CircuitFast).changed_head = v := rfl

theorem getData_mk_chead (x : CircuitFast) (v : Nat) (m : Nat) :
    ({ x with changed_head := v } : CircuitFast).getData m = x.getData m := rfl

theorem modify_getData' (c : CircuitFast) (t : Nat) (inc : Bool) (m : Nat) :
    (c.modify t inc).getData m = c.getData m := by
  unfold modify
  dsimp only
  split <;> rfl

theorem modify_getChildren' (c : CircuitFast) (t : Nat) (inc : Bool) (m : Nat) :
    (c.modify t inc).getChildren m = c.getChildren m := by
  unfold modify
  dsimp only
  split <;> rfl

theorem modify_next_id' (c : CircuitFast) (t : Nat) (inc : Bool) :
    (c.modify t inc).next_id = c.next_id := by
  unfold modify
  dsimp only
  split <;> rfl

theorem modify_update_head' (c : CircuitFast) (t : Nat) (inc : Bool) :
    (c.modify t inc).update_head = c.update_head := by
  unfold modify
  dsimp only
  split <;> rfl

theorem modify_lens (c : CircuitFast) (t : Nat) (inc : Bool) :
    (c.modify t inc).node_data = c.node_data ∧
    (c.modify t inc).node_children = c.node_children ∧
    (c.modify t inc).node_update_data.length =
      c.node_update_data.length := by
  unfold modify
  dsimp only
  split <;> exact ⟨rfl, rfl, by simp [setUD]⟩

theorem modify_getUD_ne (c : CircuitFast) (t : Nat) (inc : Bool) (m : Nat)
    (h : m ≠ t) : (c.modify t inc).getUD m = c.getUD m := by
  unfold modify
  dsimp only
  split
  · rw [getUD_mk_chead, getUD_setUD', if_neg (fun hc => h hc.1)]
  · rw [getUD_setUD', if_neg (fun hc => h hc.1)]

/-- The new delta of the modified node. -/
def bump (inc : Bool) (d : Nat) : Nat :=
  if inc then (d + 1) % 256 else (d + 255) % 256

theorem modify_getUD_self (c : CircuitFast) (t : Nat) (inc : Bool)
    (ht : t < c.node_update_data.length) :
    (c.modify t inc).getUD t =
      { next_changed := if (c.getUD t).next_changed = NULL then c.changed_head
          else (c.getUD t).next_changed,
        inputs_delta := bump inc (c.getUD t).inputs_delta } := by
  unfold modify bump
  dsimp only
  split
  · rw [getUD_mk_chead, getUD_setUD', if_pos ⟨rfl, ht⟩]
  · rw [getUD_setUD', if_pos ⟨rfl, ht⟩]

theorem modify_changed_head (c : CircuitFast) (t : Nat) (inc : Bool) :
    (c.modify t inc).changed_head =
      if (c.getUD t).next_changed = NULL then t else c.changed_head := by
  unfold modify
  dsimp only
  split
  · rw [chead_mk]
  · rfl

/-- Ghost recompute-list update across one `modify`. -/
theorem modify_cl {c : CircuitFast} {cl : List Nat} (t : Nat) (inc : Bool)
    (hch : cchain c (fun q => q ∈ cl) c.changed_head cl)
    (hnd : cl.Nodup)
    (hoff : ∀ n, n ∉ cl → (c.getUD n).next_changed = NULL ∧
      (c.getUD n).inputs_delta = 0)
    (hlt : ∀ n ∈ cl, n < c.next_id)
    (ht : t < c.node_update_data.length) (hle : c.next_id ≤ NULL) :
    ∃ cl', (∀ m, m ∈ cl' ↔ m = t ∨ m ∈ cl) ∧ cl'.Nodup ∧
      cchain (c.modify t inc) (fun q => q ∈ cl')
        (c.modify t inc).changed_head cl' ∧
      (∀ n, n ∉ cl' → ((c.modify t inc).getUD n).next_changed = NULL ∧
        ((c.modify t inc).getUD n).inputs_delta = 0) := by
  rcases Decidable.em ((c.getUD t).next_changed = NULL) with hnl | hnl
  · rcases Decidable.em (t ∈ cl) with hmem | hmem
    · -- re-enqueue of the listed tail: rotate
      obtain ⟨front, hfr⟩ := cchain_null_last hnl hch
        (fun n hn => Nat.lt_of_lt_of_le (hlt n hn) hle) hmem
      have hnf : t ∉ front := by
        intro hx
        have := hfr ▸ hnd
        exact (List.disjoint_of_nodup_append this) hx
          (List.mem_singleton.mpr rfl)
      have hfnd : front.Nodup := (hfr ▸ hnd).of_append_left
      refine ⟨t :: front, ?_, ?_, ?_, ?_⟩
      · intro m
        constructor
        · rintro hm
          rcases List.mem_cons.mp hm with rfl | hm
          · exact Or.inl rfl
          · exact Or.inr (hfr ▸ List.mem_append_left _ hm)
        · rintro (rfl | hm)
          · exact List.mem_cons_self _ _
          · rw [hfr] at hm
            rcases List.mem_append.mp hm with hm | hm
            · exact List.mem_cons_of_mem _ hm
            · rw [List.mem_singleton.mp hm]
              exact List.mem_cons_self _ _
      · exact List.nodup_cons.mpr ⟨hnf, hfnd⟩
      · rw [modify_changed_head, if_pos hnl]
        refine ⟨rfl, ?_⟩
        rw [modify_getUD_self c t inc ht]
        dsimp only
        rw [if_pos hnl]
        exact cchain_rotate (hfr ▸ hch) hnf
          (fun n hn => congrArg UpdateData.next_changed
            (modify_getUD_ne c t inc n (fun he => hnf (he ▸ hn))))
      · intro n hn
        have hne : n ≠ t := fun he => hn (he ▸ List.mem_cons_self _ _)
        have hncl : n ∉ cl := by
          rw [hfr]
          intro hx
          rcases List.mem_append.mp hx with hx | hx
          · exact hn (List.mem_cons_of_mem _ hx)
          · exact hne (List.mem_singleton.mp hx)
        rw [modify_getUD_ne c t inc n hne]
        exact hoff n hncl
    · -- fresh enqueue: prepend
      refine ⟨t :: cl, ?_, List.nodup_cons.mpr ⟨hmem, hnd⟩, ?_, ?_⟩
      · intro m
        exact ⟨fun hm => (List.mem_cons.mp hm).imp id id,
          fun hm => hm.elim (fun he => he ▸ List.mem_cons_self _ _)
            (List.mem_cons_of_mem _)⟩
      · rw [modify_changed_head, if_pos hnl]
        refine ⟨rfl, ?_⟩
        rw [modify_getUD_self c t inc ht]
        dsimp only
        rw [if_pos hnl]
        refine cchain_mono (fun q hq => List.mem_cons_of_mem _ hq) ?_
        exact cchain_ext
          (fun n hn => congrArg UpdateData.next_changed
            (modify_getUD_ne c t inc n (fun he => hmem (he ▸ hn)))) hch
      · intro n hn
        have hne : n ≠ t := fun he => hn (he ▸ List.mem_cons_self _ _)
        rw [modify_getUD_ne c t inc n hne]
        exact hoff n (fun hx => hn (List.mem_cons_of_mem _ hx))
  · -- already linked: no list change
    have hmem : t ∈ cl := by
      by_contra hx
      exact hnl (hoff t hx).1
    refine ⟨cl, ?_, hnd, ?_, ?_⟩
    · intro m
      exact ⟨Or.inr, fun hm => hm.elim (fun he => he ▸ hmem) id⟩
    · rw [modify_changed_head, if_neg hnl]
      refine cchain_ext ?_ hch
      intro n hn
      rcases Decidable.em (n = t) with he | hne
      · rw [he, modify_getUD_self c t inc ht]
        dsimp only
        rw [if_neg hnl]
      · rw [modify_getUD_ne c t inc n hne]
    · intro n hn
      have hne : n ≠ t := fun he => hn (he ▸ hmem)
      rw [modify_getUD_ne c t inc n hne]
      exact hoff n hn


/-! ### Delivering one producer output to a list of consumers -/

theorem bump_lt (inc : Bool) (d : Nat) : bump inc d < 256 := by
  unfold bump
  cases inc <;> exact Nat.mod_lt _ (by omega)

theorem bump_zmod256 (inc : Bool) (d : Nat) :
    ((bump inc d : Nat) : ZMod 256) =
      (d : ZMod 256) + (if inc then 1 else -1) := by
  unfold bump
  cases inc
  · rw [if_neg (by simp), if_neg (by simp)]
    rw [ZMod.natCast_mod]
    push_cast
    have h255 : (255 : ZMod 256) = -1 := by decide
    rw [h255]
  · rw [if_pos rfl, if_pos rfl]
    rw [ZMod.natCast_mod]
    push_cast
    rfl

theorem bump_zmod2 (inc : Bool) (d : Nat) :
    ((bump inc d : Nat) : ZMod 2) = (d : ZMod 2) + 1 := by
  have h2 : (2 : Nat) ∣ 256 := by omega
  have key : ∀ k : Nat, k % 2 = 1 →
      (((d + k) % 256 : Nat) : ZMod 2) = (d : ZMod 2) + 1 := by
    intro k hk
    have h1 : ((d + k) % 256 : Nat) ≡ d + 1 [MOD 2] := by
      refine Nat.ModEq.trans (Nat.ModEq.of_dvd h2 (Nat.mod_modEq _ _)) ?_
      refine Nat.ModEq.add_left d ?_
      unfold Nat.ModEq
      omega
    have h3 : ((d + 1 : Nat) : ZMod 2) = (d : ZMod 2) + 1 := by
      push_cast
      ring
    rw [← h3]
    exact (ZMod.natCast_eq_natCast_iff _ _ _).mpr h1
  unfold bump
  cases inc
  · rw [if_neg (by simp)]
    exact key 255 (by omega)
  · rw [if_pos rfl]
    exact key 1 (by omega)

/-- The result of folding `modify · b` over a list of targets. -/
structure DeliverSpec (c c' : CircuitFast) (b : Bool) (cs cl cl' : List Nat) :
    Prop where
  data : ∀ m, c'.getData m = c.getData m
  children : ∀ m, c'.getChildren m = c.getChildren m
  nid : c'.next_id = c.next_id
  uhead : c'.update_head = c.update_head
  udlen : c'.node_update_data.length = c.node_update_data.length
  ndata : c'.node_data = c.node_data
  nchild : c'.node_children = c.node_children
  d256 : ∀ m, ((c'.getUD m).inputs_delta : ZMod 256)
    = (c.getUD m).inputs_delta + (cs.count m) * (if b then 1 else -1)
  d2 : ∀ m, ((c'.getUD m).inputs_delta : ZMod 2)
    = (c.getUD m).inputs_delta + (cs.count m)
  dlt : ∀ m, (c'.getUD m).inputs_delta < 256
  clmem : ∀ m, m ∈ cl' ↔ m ∈ cs ∨ m ∈ cl
  clnd : cl'.Nodup
  clch : cchain c' (fun q => q ∈ cl') c'.changed_head cl'
  cloff : ∀ n, n ∉ cl' → (c'.getUD n).next_changed = NULL ∧
    (c'.getUD n).inputs_delta = 0

theorem deliver_spec (b : Bool) :
    ∀ (cs : List Nat) (c : CircuitFast) (cl : List Nat),
      cchain c (fun q => q ∈ cl) c.changed_head cl → cl.Nodup →
      (∀ n, n ∉ cl → (c.getUD n).next_changed = NULL ∧
        (c.getUD n).inputs_delta = 0) →
      (∀ n ∈ cl, n < c.next_id) →
      (∀ x ∈ cs, x < c.next_id) →
      c.node_update_data.length = c.next_id →
      c.next_id ≤ NULL →
      (∀ m, (c.getUD m).inputs_delta < 256) →
      ∃ cl', DeliverSpec c (cs.foldl (fun c child => c.modify child b) c)
        b cs cl cl' := by
  intro cs
  induction cs with
  | nil =>
    intro c cl hch hnd hoff hlt _ _ _ hsz
    refine ⟨cl, ⟨fun _ => rfl, fun _ => rfl, rfl, rfl, rfl, rfl, rfl, ?_, ?_,
      hsz, ?_, hnd, hch, hoff⟩⟩
    · intro m
      simp
    · intro m
      simp
    · intro m
      simp
  | cons x rest ih =>
    intro c cl hch hnd hoff hlt hcs hlen hle hsz
    simp only [List.foldl_cons]
    have hx : x < c.next_id := hcs x (List.mem_cons_self x rest)
    have hxud : x < c.node_update_data.length := by omega
    obtain ⟨cl1, hmem1, hnd1, hch1, hoff1⟩ :=
      modify_cl x b hch hnd hoff hlt hxud hle
    set c1 := c.modify x b with hc1
    have hlt1 : ∀ n ∈ cl1, n < c1.next_id := by
      intro n hn
      rw [hc1, modify_next_id']
      rcases (hmem1 n).mp hn with rfl | hn
      · exact hx
      · exact hlt n hn
    have hsz1 : ∀ m, (c1.getUD m).inputs_delta < 256 := by
      intro m
      rcases Decidable.em (m = x) with rfl | hne
      · rw [hc1, modify_getUD_self c m b hxud]
        exact bump_lt b _
      · rw [hc1, modify_getUD_ne c x b m hne]
        exact hsz m
    obtain ⟨cl', sp⟩ := ih c1 cl1 hch1 hnd1 hoff1 hlt1
      (fun y hy => by
        rw [hc1, modify_next_id']
        exact hcs y (List.mem_cons_of_mem x hy))
      (by rw [hc1, (modify_lens c x b).2.2, modify_next_id']; exact hlen)
      (by rw [hc1, modify_next_id']; exact hle) hsz1
    refine ⟨cl', ⟨?_, ?_, ?_, ?_, ?_, ?_, ?_, ?_, ?_, sp.dlt, ?_, sp.clnd,
      sp.clch, sp.cloff⟩⟩
    · intro m
      rw [sp.data m, hc1, modify_getData']
    · intro m
      rw [sp.children m, hc1, modify_getChildren']
    · rw [sp.nid, hc1, modify_next_id']
    · rw [sp.uhead, hc1, modify_update_head']
    · rw [sp.udlen, hc1, (modify_lens c x b).2.2]
    · rw [sp.ndata, hc1, (modify_lens c x b).1]
    · rw [sp.nchild, hc1, (modify_lens c x b).2.1]
    · intro m
      rw [sp.d256 m]
      rcases Decidable.em (m = x) with rfl | hne
      · rw [hc1, modify_getUD_self c m b hxud]
        dsimp only
        rw [bump_zmod256]
        rw [List.count_cons_self]
        push_cast
        ring
      · rw [hc1, modify_getUD_ne c x b m hne]
        rw [List.count_cons_of_ne hne]
    · intro m
      rw [sp.d2 m]
      rcases Decidable.em (m = x) with rfl | hne
      · rw [hc1, modify_getUD_self c m b hxud]
        dsimp only
        rw [bump_zmod2]
        rw [List.count_cons_self]
        push_cast
        ring
      · rw [hc1, modify_getUD_ne c x b m hne]
        rw [List.count_cons_of_ne hne]
    · intro m
      rw [sp.clmem m]
      constructor
      · rintro (hm | hm)
        · exact Or.inl (List.mem_cons_of_mem x hm)
        · rcases (hmem1 m).mp hm with rfl | hm
          · exact Or.inl (List.mem_cons_self _ _)
          · exact Or.inr hm
      · rintro (hm | hm)
        · rcases List.mem_cons.mp hm with rfl | hm
          · exact Or.inr ((hmem1 m).mpr (Or.inl rfl))
          · exact Or.inl hm
        · exact Or.inr ((hmem1 m).mpr (Or.inr hm))


/-! ### Phase A: delivering the propagate list -/

theorem getUD_setData' (c : CircuitFast) (n : Nat) (d : NodeData) (m : Nat) :
    (c.setData n d).getUD m = c.getUD m := rfl

theorem getChildren_setData' (c : CircuitFast) (n : Nat) (d : NodeData)
    (m : Nat) : (c.setData n d).getChildren m = c.getChildren m := rfl

/-- Getter preservation across phase A: only `next_update` links and the
recompute side change. -/
structure DataPres (c c' : CircuitFast) : Prop where
  output : ∀ m, (c'.getData m).output = (c.getData m).output
  inputs : ∀ m, (c'.getData m).inputs = (c.getData m).inputs
  inverted : ∀ m, (c'.getData m).inverted = (c.getData m).inverted
  gate : ∀ m, (c'.getData m).gate_type = (c.getData m).gate_type
  children : ∀ m, c'.getChildren m = c.getChildren m
  nid : c'.next_id = c.next_id
  uhead : c'.update_head = c.update_head

theorem DataPres.rfl_d (c : CircuitFast) : DataPres c c :=
  ⟨fun _ => rfl, fun _ => rfl, fun _ => rfl, fun _ => rfl, fun _ => rfl,
    rfl, rfl⟩

theorem DataPres.trans_d {a b c : CircuitFast} (h1 : DataPres a b)
    (h2 : DataPres b c) : DataPres a c :=
  ⟨fun m => (h2.output m).trans (h1.output m),
    fun m => (h2.inputs m).trans (h1.inputs m),
    fun m => (h2.inverted m).trans (h1.inverted m),
    fun m => (h2.gate m).trans (h1.gate m),
    fun m => (h2.children m).trans (h1.children m),
    h2.nid.trans h1.nid, h2.uhead.trans h1.uhead⟩

theorem indeg_congr {c c' : CircuitFast}
    (hch : ∀ p, c'.getChildren p = c.getChildren p)
    (hnid : c'.next_id = c.next_id) (m : Nat) :
    indeg c' m = indeg c m := by
  unfold indeg cnt
  rw [hnid]
  exact Finset.sum_congr rfl (fun p _ => by rw [hch p])

/-- Removing the head of the pending list flips its delivered contribution:
the two sides differ by exactly the head's edge count on the corresponding
side of its output. -/
theorem Hdel_uncons {c c' : CircuitFast} {n : Nat} {rest : List Nat} (m : Nat)
    (hn : n < c.next_id) (hnr : n ∉ rest)
    (houts : ∀ p, (c'.getData p).output = (c.getData p).output)
    (hch : ∀ p, c'.getChildren p = c.getChildren p)
    (hnid : c'.next_id = c.next_id) :
    Hdel c' rest m + (if (c.getData n).output then 0 else cnt c n m)
      = Hdel c (n :: rest) m +
        (if (c.getData n).output then cnt c n m else 0) := by
  have hcnt : ∀ p, cnt c' p m = cnt c p m := fun p => by
    unfold cnt
    rw [hch p]
  have hmem : n ∈ Finset.range c.next_id := Finset.mem_range.mpr hn
  unfold Hdel
  rw [hnid]
  rw [Finset.sum_eq_sum_diff_singleton_add hmem
      (fun p => if deliv c' rest p then cnt c' p m else 0),
    Finset.sum_eq_sum_diff_singleton_add hmem
      (fun p => if deliv c (n :: rest) p then cnt c p m else 0)]
  have hsame : ∀ p ∈ Finset.range c.next_id \ {n},
      (if deliv c' rest p then cnt c' p m else 0)
        = (if deliv c (n :: rest) p then cnt c p m else 0) := by
    intro p hp
    have hpne : p ≠ n := by
      have := (Finset.mem_sdiff.mp hp).2
      simpa using this
    unfold deliv
    rw [houts p, hcnt p]
    have hiff : p ∈ rest ↔ p ∈ n :: rest := by
      simp [List.mem_cons, hpne]
    rcases Decidable.em (p ∈ rest) with hpm | hpm
    · rw [if_pos hpm, if_pos (hiff.mp hpm)]
    · rw [if_neg hpm, if_neg (fun hx => hpm (hiff.mpr hx))]
  rw [Finset.sum_congr rfl hsame]
  have hterm1 : (if deliv c' rest n then cnt c' n m else 0)
      = if (c.getData n).output then cnt c n m else 0 := by
    unfold deliv
    rw [if_neg hnr, houts n, hcnt n]
  have hterm2 : (if deliv c (n :: rest) n then cnt c n m else 0)
      = if (c.getData n).output then 0 else cnt c n m := by
    unfold deliv
    rw [if_pos (List.mem_cons_self n rest)]
    cases (c.getData n).output <;> simp
  rw [hterm1, hterm2]
  cases (c.getData n).output <;> simp <;> omega

/-- Counter accounting survives delivering the head of the pending list. -/
theorem fam_step {c c3 : CircuitFast} {n : Nat} {rest : List Nat} (m : Nat)
    (hfam : famOK c (n :: rest) m)
    (hn : n < c.next_id) (hnr : n ∉ rest)
    (houts : ∀ q, (c3.getData q).output = (c.getData q).output)
    (hinp : ∀ q, (c3.getData q).inputs = (c.getData q).inputs)
    (hgt : ∀ q, (c3.getData q).gate_type = (c.getData q).gate_type)
    (hch : ∀ q, c3.getChildren q = c.getChildren q)
    (hnid : c3.next_id = c.next_id)
    (hd256 : ((c3.getUD m).inputs_delta : ZMod 256)
      = (c.getUD m).inputs_delta +
        (cnt c n m) * (if (c.getData n).output then 1 else -1))
    (hd2 : ((c3.getUD m).inputs_delta : ZMod 2)
      = (c.getUD m).inputs_delta + (cnt c n m)) :
    famOK c3 rest m := by
  have hun := @Hdel_uncons c c3 n rest m hn hnr houts hch hnid
  have h256 : (Hdel c3 rest m : ZMod 256)
      = (Hdel c (n :: rest) m : ZMod 256) +
        (cnt c n m) * (if (c.getData n).output then 1 else -1) := by
    cases hout : (c.getData n).output
    · rw [hout, if_neg (by simp), if_neg (by simp)] at hun
      have hc := congrArg (fun x : Nat => (x : ZMod 256)) hun
      push_cast at hc
      rw [if_neg (by simp)]
      linear_combination hc
    · rw [hout, if_pos rfl, if_pos rfl] at hun
      have hc := congrArg (fun x : Nat => (x : ZMod 256)) hun
      push_cast at hc
      rw [if_pos rfl]
      linear_combination hc
  have h2 : (Hdel c3 rest m : ZMod 2)
      = (Hdel c (n :: rest) m : ZMod 2) + (cnt c n m) := by
    have htwo : (2 : ZMod 2) = 0 := by decide
    cases hout : (c.getData n).output
    · rw [hout, if_neg (by simp), if_neg (by simp)] at hun
      have hc := congrArg (fun x : Nat => (x : ZMod 2)) hun
      push_cast at hc
      linear_combination hc - (cnt c n m : ZMod 2) * htwo
    · rw [hout, if_pos rfl, if_pos rfl] at hun
      have hc := congrArg (fun x : Nat => (x : ZMod 2)) hun
      push_cast at hc
      linear_combination hc
  have hid : indeg c3 m = indeg c m := indeg_congr hch hnid m
  unfold famOK at hfam ⊢
  rw [hgt m, hinp m]
  rcases hg : (c.getData m).gate_type with _ | _ | _ <;> rw [hg] at hfam
  · dsimp only
    rw [hd256, h256]
    linear_combination hfam
  · dsimp only
    rw [hd256, h256, hid]
    push_cast
    linear_combination hfam
  · dsimp only
    rw [hd2, h2]
    linear_combination hfam


/-- Mid-walk state of Phase A: the full invariant with the remaining pending
suffix `ul` tracked separately from `update_head`. -/
structure AMid (c : CircuitFast) (ul cl : List Nat) : Prop where
  data_len : c.node_data.length = c.next_id
  ud_len : c.node_update_data.length = c.next_id
  ch_len : c.node_children.length = c.next_id
  next_le : c.next_id ≤ NULL
  child_lt : ∀ p m, m ∈ c.getChildren p → m < c.next_id
  ul_nodup : ul.Nodup
  ul_lt : ∀ n ∈ ul, n < c.next_id
  ul_off : ∀ n, n ∉ ul → (c.getData n).next_update = NULL
  cl_chain : cchain c (fun t => t ∈ cl) c.changed_head cl
  cl_nodup : cl.Nodup
  cl_lt : ∀ n ∈ cl, n < c.next_id
  cl_off : ∀ n, n ∉ cl → (c.getUD n).next_changed = NULL ∧
    (c.getUD n).inputs_delta = 0
  sizes : ∀ m, (c.getData m).inputs < 256 ∧ (c.getUD m).inputs_delta < 256
  fam : ∀ m, famOK c ul m
  xorb : ∀ m, (c.getData m).gate_type = .XorXnor → (c.getData m).inputs ≤ 1
  formula : ∀ m, indeg c m ≠ 0 →
    (c.getData m).output = newOutputFormula (c.getData m).inverted
      (c.getData m).inputs

set_option maxHeartbeats 1000000 in
theorem phaseA_walk :
    ∀ (ul : List Nat) (fuel : Nat) (c : CircuitFast) (cl : List Nat)
      (h : Nat),
      AMid c ul cl → uchain c h ul → ul.length < fuel →
      ∃ cl', AMid (phaseA fuel c h) [] cl' ∧ DataPres c (phaseA fuel c h) := by
  intro ul
  induction ul with
  | nil =>
    intro fuel c cl h hmid huch hfl
    cases fuel with
    | zero => omega
    | succ f =>
      have hh : h = NULL := huch
      subst hh
      simp only [phaseA, if_pos rfl]
      exact ⟨cl, hmid, DataPres.rfl_d c⟩
  | cons n rest ih =>
    intro fuel c cl h hmid huch hfl
    obtain ⟨he, huch2⟩ := huch
    rw [he]
    have hnlt : n < c.next_id := hmid.ul_lt n (List.mem_cons_self n rest)
    have hnN : ¬ n = NULL := by
      have := hmid.next_le
      unfold NULL at this ⊢
      omega
    cases fuel with
    | zero => omega
    | succ f =>
      simp only [phaseA, if_neg hnN]
      have hnr : n ∉ rest := (List.nodup_cons.mp hmid.ul_nodup).1
      set nd := c.getData n with hnd
      set c2 := c.setData n { nd with next_update := NULL } with hc2
      have hstep : phaseAStep c n =
          (c2.getChildren n).foldl
            (fun d child => d.modify child nd.output) c2 := rfl
      have g2 : c2.getData n = { nd with next_update := NULL } := by
        rw [hc2, getData_setData', if_pos ⟨rfl, by
          have := hmid.data_len
          omega⟩]
      have g1 : ∀ m, m ≠ n → c2.getData m = c.getData m := by
        intro m hm
        rw [hc2, getData_setData', if_neg (fun hx => hm hx.1)]
      have gud : ∀ m, c2.getUD m = c.getUD m := fun m => rfl
      have gch : ∀ m, c2.getChildren m = c.getChildren m := fun m => rfl
      have gnid : c2.next_id = c.next_id := rfl
      have gchead : c2.changed_head = c.changed_head := rfl
      have guhead : c2.update_head = c.update_head := rfl
      have hclch2 : cchain c2 (fun q => q ∈ cl) c2.changed_head cl := by
        show cchain c2 (fun q => q ∈ cl) c.changed_head cl
        exact @cchain_ext c c2 (fun q => q ∈ cl) cl c.changed_head
          (fun q _ => rfl) hmid.cl_chain
      obtain ⟨cl3, sp⟩ := deliver_spec nd.output (c2.getChildren n) c2 cl
        hclch2
        hmid.cl_nodup
        (fun q hq => hmid.cl_off q hq)
        (fun q hq => hmid.cl_lt q hq)
        (fun x hx => hmid.child_lt n x hx)
        hmid.ud_len hmid.next_le
        (fun m => (hmid.sizes m).2)
      rw [← hstep] at sp
      set c3 := phaseAStep c n with hc3
      -- getter facts c → c3
      have pout : ∀ m, (c3.getData m).output = (c.getData m).output := by
        intro m
        rw [sp.data m]
        rcases Decidable.em (m = n) with rfl | hm
        · rw [g2]
        · rw [g1 m hm]
      have pinp : ∀ m, (c3.getData m).inputs = (c.getData m).inputs := by
        intro m
        rw [sp.data m]
        rcases Decidable.em (m = n) with rfl | hm
        · rw [g2]
        · rw [g1 m hm]
      have pinv : ∀ m, (c3.getData m).inverted = (c.getData m).inverted := by
        intro m
        rw [sp.data m]
        rcases Decidable.em (m = n) with rfl | hm
        · rw [g2]
        · rw [g1 m hm]
      have pgt : ∀ m, (c3.getData m).gate_type = (c.getData m).gate_type := by
        intro m
        rw [sp.data m]
        rcases Decidable.em (m = n) with rfl | hm
        · rw [g2]
        · rw [g1 m hm]
      have pch : ∀ m, c3.getChildren m = c.getChildren m := fun m =>
        (sp.children m).trans (gch m)
      have pnid : c3.next_id = c.next_id := sp.nid.trans gnid
      have pdp : DataPres c c3 :=
        ⟨pout, pinp, pinv, pgt, pch, pnid, sp.uhead.trans guhead⟩
      have pnu : ∀ m, m ≠ n →
          (c3.getData m).next_update = (c.getData m).next_update := by
        intro m hm
        rw [sp.data m, g1 m hm]
      have pnun : (c3.getData n).next_update = NULL := by
        rw [sp.data n, g2]
      -- AMid for the tail
      have hmid3 : AMid c3 rest cl3 := by
        refine ⟨?_, ?_, ?_, ?_, ?_, ?_, ?_, ?_, sp.clch, sp.clnd, ?_, ?_,
          ?_, ?_, ?_, ?_⟩
        · rw [sp.ndata, hc2]
          show (c.node_data.set n _).length = _
          rw [List.length_set, hmid.data_len, pnid]
        · rw [pnid]
          have h1 := sp.udlen
          have h2 : c2.node_update_data.length =
              c.node_update_data.length := rfl
          have h3 := hmid.ud_len
          omega
        · rw [sp.nchild, pnid]
          exact hmid.ch_len
        · rw [pnid]
          exact hmid.next_le
        · intro p m hm
          rw [pnid]
          exact hmid.child_lt p m (pch p ▸ hm)
        · exact (List.nodup_cons.mp hmid.ul_nodup).2
        · intro q hq
          rw [pnid]
          exact hmid.ul_lt q (List.mem_cons_of_mem n hq)
        · intro q hq
          rcases Decidable.em (q = n) with rfl | hne
          · exact pnun
          · rw [pnu q hne]
            exact hmid.ul_off q (by
              intro hx
              rcases List.mem_cons.mp hx with he | hx
              · exact hne he
              · exact hq hx)
        · intro q hq
          rw [pnid]
          rcases (sp.clmem q).mp hq with hx | hx
          · exact hmid.child_lt n q hx
          · exact hmid.cl_lt q hx
        · exact sp.cloff
        · intro m
          exact ⟨(pinp m) ▸ (hmid.sizes m).1, sp.dlt m⟩
        · intro m
          refine fam_step m (hmid.fam m) hnlt hnr pout pinp pgt pch pnid ?_ ?_
          · rw [sp.d256 m, gud m]
            rfl
          · rw [sp.d2 m, gud m]
            rfl
        · intro m hx
          rw [pinp m]
          exact hmid.xorb m ((pgt m) ▸ hx)
        · intro m hm
          rw [pout m, pinp m, pinv m]
          refine hmid.formula m ?_
          rw [← indeg_congr pch pnid m]
          exact hm
      have huch3 : uchain c3 (c.getData n).next_update rest := by
        refine uchain_ext ?_ huch2
        intro q hq
        exact pnu q (fun he => hnr (he ▸ hq))
      obtain ⟨cl', hmidF, hdpF⟩ := ih f c3 cl3 _ hmid3 huch3
        (by simp at hfl; omega)
      exact ⟨cl', hmidF, pdp.trans_d hdpF⟩


/-! ### Phase B step shapes -/

theorem getUD_mk_uhead (x : CircuitFast) (v : Nat) (m : Nat) :
    ({ x with update_head := v } : CircuitFast).getUD m = x.getUD m := rfl

theorem getData_mk_uhead (x : CircuitFast) (v : Nat) (m : Nat) :
    ({ x with update_head := v } : CircuitFast).getData m = x.getData m := rfl

theorem getChildren_mk_uhead (x : CircuitFast) (v : Nat) (m : Nat) :
    ({ x with update_head := v } : CircuitFast).getChildren m
      = x.getChildren m := rfl

theorem enqueue_getUD (c : CircuitFast) (n m : Nat) :
    (c.enqueue_update n).getUD m = c.getUD m := by
  unfold enqueue_update
  dsimp only
  split <;> rfl

theorem enqueue_getChildren (c : CircuitFast) (n m : Nat) :
    (c.enqueue_update n).getChildren m = c.getChildren m := by
  unfold enqueue_update
  dsimp only
  split <;> rfl

theorem enqueue_next_id (c : CircuitFast) (n : Nat) :
    (c.enqueue_update n).next_id = c.next_id := by
  unfold enqueue_update
  dsimp only
  split <;> rfl

theorem enqueue_chead (c : CircuitFast) (n : Nat) :
    (c.enqueue_update n).changed_head = c.changed_head := by
  unfold enqueue_update
  dsimp only
  split <;> rfl

theorem enqueue_lens (c : CircuitFast) (n : Nat) :
    (c.enqueue_update n).node_data.length = c.node_data.length ∧
    (c.enqueue_update n).node_update_data = c.node_update_data ∧
    (c.enqueue_update n).node_children = c.node_children := by
  unfold enqueue_update
  dsimp only
  split
  · exact ⟨by simp [setData], rfl, rfl⟩
  · exact ⟨rfl, rfl, rfl⟩

theorem enqueue_getData_ne' (c : CircuitFast) (n m : Nat) (h : m ≠ n) :
    (c.enqueue_update n).getData m = c.getData m := by
  unfold enqueue_update
  dsimp only
  split
  · rw [getData_mk_uhead, getData_setData', if_neg (fun hc => h hc.1)]
  · rfl

theorem enqueue_pass (c : CircuitFast) (n : Nat)
    (hnu : (c.getData n).next_update = NULL) (hdl : n < c.node_data.length) :
    (c.enqueue_update n).getData n =
      { c.getData n with next_update := c.update_head } ∧
    (c.enqueue_update n).update_head = n := by
  unfold enqueue_update
  dsimp only
  rw [if_pos hnu]
  constructor
  · rw [getData_mk_uhead, getData_setData', if_pos ⟨rfl, hdl⟩]
  · rfl

/-- Phase B step, shape 0: no pending delta — only the `next_changed` link is
cleared. -/
theorem phaseBStep_zero (c : CircuitFast) (n : Nat)
    (h0 : (c.getUD n).inputs_delta = 0) :
    (phaseBStep c n).getUD n = { next_changed := NULL, inputs_delta := 0 } ∧
    (∀ m, m ≠ n → (phaseBStep c n).getUD m = c.getUD m) ∧
    (∀ m, (phaseBStep c n).getData m = c.getData m) ∧
    (∀ m, (phaseBStep c n).getChildren m = c.getChildren m) ∧
    (phaseBStep c n).next_id = c.next_id ∧
    (phaseBStep c n).update_head = c.update_head ∧
    (phaseBStep c n).changed_head = c.changed_head ∧
    (phaseBStep c n).node_data = c.node_data ∧
    (phaseBStep c n).node_children = c.node_children ∧
    (phaseBStep c n).node_update_data.length =
      c.node_update_data.length := by
  unfold phaseBStep
  dsimp only
  rw [if_neg (by rw [h0]; exact fun hx => hx rfl)]
  refine ⟨?_, ?_, fun _ => rfl, fun _ => rfl, rfl, rfl, rfl, rfl, rfl,
    by simp [setUD]⟩
  · rw [getUD_setUD']
    rcases Decidable.em (n < c.node_update_data.length) with hlt | hge
    · rw [if_pos ⟨rfl, hlt⟩, h0]
    · rw [if_neg (fun hc => hge hc.2)]
      have : c.getUD n = {} := by
        unfold getUD
        exact List.getD_eq_default _ _ (by omega)
      rw [this]
  · intro m hm
    rw [getUD_setUD', if_neg (fun hc => hm hc.1)]

/-- Phase B step, shape 1: pending delta folds in without an output change. -/
theorem phaseBStep_fold (c : CircuitFast) (n : Nat)
    (h0 : (c.getUD n).inputs_delta ≠ 0)
    (hno : (c.getData n).output = newOutputFormula (c.getData n).inverted
      (recomputeInputs (c.getData n).gate_type (c.getData n).inputs
        (c.getUD n).inputs_delta))
    (hdl : n < c.node_data.length) (hul : n < c.node_update_data.length) :
    (phaseBStep c n).getUD n = { next_changed := NULL, inputs_delta := 0 } ∧
    (∀ m, m ≠ n → (phaseBStep c n).getUD m = c.getUD m) ∧
    (phaseBStep c n).getData n = { c.getData n with
      inputs := recomputeInputs (c.getData n).gate_type (c.getData n).inputs
        (c.getUD n).inputs_delta } ∧
    (∀ m, m ≠ n → (phaseBStep c n).getData m = c.getData m) ∧
    (∀ m, (phaseBStep c n).getChildren m = c.getChildren m) ∧
    (phaseBStep c n).next_id = c.next_id ∧
    (phaseBStep c n).update_head = c.update_head ∧
    (phaseBStep c n).changed_head = c.changed_head ∧
    (phaseBStep c n).node_data.length = c.node_data.length ∧
    (phaseBStep c n).node_children = c.node_children ∧
    (phaseBStep c n).node_update_data.length =
      c.node_update_data.length := by
  unfold phaseBStep
  dsimp only
  rw [if_pos h0]
  have hsame : (c.setUD n { c.getUD n with next_changed := NULL }).getData n
      = c.getData n := rfl
  rw [hsame]
  rw [if_neg (by rw [hno]; exact fun hx => hx rfl)]
  have hl2 : n < (c.setUD n { c.getUD n with next_changed := NULL
      }).node_update_data.length := by
    simp only [setUD, List.length_set]
    exact hul
  refine ⟨?_, ?_, ?_, ?_, fun _ => rfl, rfl, rfl, rfl, by simp [setData, setUD],
    rfl, by simp [setData, setUD]⟩
  · rw [getUD_setData', getUD_setUD', if_pos ⟨rfl, hl2⟩]
  · intro m hm
    rw [getUD_setData', getUD_setUD', if_neg (fun hc => hm hc.1),
      getUD_setUD', if_neg (fun hc => hm hc.1)]
  · rw [getData_setData', if_pos ⟨rfl, by simp only [setUD]; exact hdl⟩]
  · intro m hm
    rw [getData_setData', if_neg (fun hc => hm hc.1)]
    rfl

/-- Phase B step, shape 2: pending delta folds in, the output toggles, and
the node is enqueued onto the next tick's propagate list. -/
theorem phaseBStep_toggle (c : CircuitFast) (n : Nat)
    (h0 : (c.getUD n).inputs_delta ≠ 0)
    (hto : (c.getData n).output ≠ newOutputFormula (c.getData n).inverted
      (recomputeInputs (c.getData n).gate_type (c.getData n).inputs
        (c.getUD n).inputs_delta))
    (hnu : (c.getData n).next_update = NULL)
    (hdl : n < c.node_data.length) (hul : n < c.node_update_data.length) :
    (phaseBStep c n).getUD n = { next_changed := NULL, inputs_delta := 0 } ∧
    (∀ m, m ≠ n → (phaseBStep c n).getUD m = c.getUD m) ∧
    (phaseBStep c n).getData n = NodeData.mk c.update_head (newOutputFormula (c.getData n).inverted (recomputeInputs (c.getData n).gate_type (c.getData n).inputs (c.getUD n).inputs_delta)) (recomputeInputs (c.getData n).gate_type (c.getData n).inputs (c.getUD n).inputs_delta) (c.getData n).inverted (c.getData n).gate_type ∧
    (∀ m, m ≠ n → (phaseBStep c n).getData m = c.getData m) ∧
    (∀ m, (phaseBStep c n).getChildren m = c.getChildren m) ∧
    (phaseBStep c n).next_id = c.next_id ∧
    (phaseBStep c n).update_head = n ∧
    (phaseBStep c n).changed_head = c.changed_head ∧
    (phaseBStep c n).node_data.length = c.node_data.length ∧
    (phaseBStep c n).node_children = c.node_children ∧
    (phaseBStep c n).node_update_data.length =
      c.node_update_data.length := by
  unfold phaseBStep
  dsimp only
  rw [if_pos h0]
  have hsame : (c.setUD n { c.getUD n with next_changed := NULL }).getData n
      = c.getData n := rfl
  rw [hsame]
  rw [if_pos hto]
  have hdl3 : n < (((c.setUD n { c.getUD n with next_changed := NULL }).setUD n { next_changed := NULL, inputs_delta := 0 }).setData n { c.getData n with inputs := recomputeInputs (c.getData n).gate_type (c.getData n).inputs (c.getUD n).inputs_delta, output := newOutputFormula (c.getData n).inverted (recomputeInputs (c.getData n).gate_type (c.getData n).inputs (c.getUD n).inputs_delta) }).node_data.length := by
    simp only [setData, setUD, List.length_set]
    exact hdl
  have hnu3 : ((((c.setUD n { c.getUD n with next_changed := NULL }).setUD n { next_changed := NULL, inputs_delta := 0 }).setData n { c.getData n with inputs := recomputeInputs (c.getData n).gate_type (c.getData n).inputs (c.getUD n).inputs_delta, output := newOutputFormula (c.getData n).inverted (recomputeInputs (c.getData n).gate_type (c.getData n).inputs (c.getUD n).inputs_delta) }).getData n).next_update = NULL := by
    rw [getData_setData', if_pos ⟨rfl, by simp only [setUD]; exact hdl⟩]
    exact hnu
  obtain ⟨hq1, hq2⟩ := enqueue_pass _ n hnu3 hdl3
  refine ⟨?_, ?_, ?_, ?_, ?_, ?_, ?_, ?_, ?_, ?_, ?_⟩
  · rw [enqueue_getUD, getUD_setData', getUD_setUD', if_pos ⟨rfl, by
      simp only [setUD, List.length_set]
      exact hul⟩]
  · intro m hm
    rw [enqueue_getUD, getUD_setData', getUD_setUD',
      if_neg (fun hc => hm hc.1), getUD_setUD', if_neg (fun hc => hm hc.1)]
  · rw [hq1]
    rw [getData_setData', if_pos ⟨rfl, by simp only [setUD]; exact hdl⟩]
    rfl
  · intro m hm
    rw [enqueue_getData_ne' _ _ _ hm, getData_setData',
      if_neg (fun hc => hm hc.1)]
    rfl
  · intro m
    rw [enqueue_getChildren]
    rfl
  · rw [enqueue_next_id]
    rfl
  · exact hq2
  · rw [enqueue_chead]
    rfl
  · rw [(enqueue_lens _ _).1]
    simp only [setData, setUD, List.length_set]
  · rw [(enqueue_lens _ _).2.2]
    rfl
  · rw [congrArg List.length (enqueue_lens _ _).2.1]
    simp only [setData, setUD, List.length_set]


/-! ### Phase B walk -/

theorem Hdel_congr {c c' : CircuitFast} {ul ul' : List Nat} (m : Nat)
    (hmem : ∀ p, p ∈ ul' ↔ p ∈ ul)
    (houts : ∀ p, (c'.getData p).output = (c.getData p).output)
    (hch : ∀ p, c'.getChildren p = c.getChildren p)
    (hnid : c'.next_id = c.next_id) :
    Hdel c' ul' m = Hdel c ul m := by
  unfold Hdel
  rw [hnid]
  refine Finset.sum_congr rfl (fun p _ => ?_)
  have hdv : deliv c' ul' p = deliv c ul p := by
    unfold deliv
    rw [houts p]
    rcases Decidable.em (p ∈ ul) with hp | hp
    · rw [if_pos hp, if_pos ((hmem p).mpr hp)]
    · rw [if_neg hp, if_neg (fun hx => hp ((hmem p).mp hx))]
  rw [hdv]
  unfold cnt
  rw [hch p]

/-- Toggling a node's output while simultaneously enqueueing it onto the
propagate list leaves every delivered count unchanged. -/
theorem Hdel_toggle {c c' : CircuitFast} {ul : List Nat} {n : Nat} (m : Nat)
    (hnin : n ∉ ul)
    (hout : (c'.getData n).output = !(c.getData n).output)
    (houts : ∀ p, p ≠ n → (c'.getData p).output = (c.getData p).output)
    (hch : ∀ p, c'.getChildren p = c.getChildren p)
    (hnid : c'.next_id = c.next_id) :
    Hdel c' (n :: ul) m = Hdel c ul m := by
  unfold Hdel
  rw [hnid]
  refine Finset.sum_congr rfl (fun p _ => ?_)
  have hdv : deliv c' (n :: ul) p = deliv c ul p := by
    unfold deliv
    rcases Decidable.em (p = n) with rfl | hp
    · rw [if_pos (List.mem_cons_self p ul), if_neg hnin, hout,
        Bool.not_not]
    · rw [houts p hp]
      rcases Decidable.em (p ∈ ul) with hm2 | hm2
      · rw [if_pos hm2, if_pos (List.mem_cons_of_mem n hm2)]
      · rw [if_neg hm2, if_neg (fun hx => by
          rcases List.mem_cons.mp hx with he | hx
          · exact hp he
          · exact hm2 hx)]
  rw [hdv]
  unfold cnt
  rw [hch p]

theorem famOK_congr {c c' : CircuitFast} {ul ul' : List Nat} (m : Nat)
    (hinp : (c'.getData m).inputs = (c.getData m).inputs)
    (hgt : (c'.getData m).gate_type = (c.getData m).gate_type)
    (hdelta : (c'.getUD m).inputs_delta = (c.getUD m).inputs_delta)
    (hH : Hdel c' ul' m = Hdel c ul m)
    (hid : indeg c' m = indeg c m) :
    famOK c ul m → famOK c' ul' m := by
  intro hf
  unfold famOK at hf ⊢
  rw [hgt, hinp, hdelta, hH, hid]
  exact hf

theorem recompute_lt (gt : GateType) (inputs delta : Nat)
    (hx : gt = .XorXnor → inputs ≤ 1) :
    recomputeInputs gt inputs delta < 256 := by
  cases gt with
  | OrNor => exact Nat.mod_lt _ (by omega)
  | AndNand => exact Nat.mod_lt _ (by omega)
  | XorXnor =>
    have h1 : inputs ≤ 1 := hx rfl
    unfold recomputeInputs
    dsimp only
    have hd2 : delta % 2 = 0 ∨ delta % 2 = 1 := by omega
    interval_cases inputs <;> rcases hd2 with hd | hd <;> rw [hd] <;> decide

theorem recompute_xor_le (inputs delta : Nat) (h : inputs ≤ 1) :
    recomputeInputs .XorXnor inputs delta ≤ 1 := by
  unfold recomputeInputs
  dsimp only
  have hd2 : delta % 2 = 0 ∨ delta % 2 = 1 := by omega
  interval_cases inputs <;> rcases hd2 with hd | hd <;> rw [hd] <;> decide

theorem recompute_zmod256 (gt : GateType) (inputs delta : Nat)
    (hg : gt ≠ GateType.XorXnor) :
    ((recomputeInputs gt inputs delta : Nat) : ZMod 256)
      = (inputs : ZMod 256) + delta := by
  cases gt with
  | OrNor =>
    unfold recomputeInputs
    rw [ZMod.natCast_mod]
    push_cast
    ring
  | AndNand =>
    unfold recomputeInputs
    rw [ZMod.natCast_mod]
    push_cast
    ring
  | XorXnor => exact absurd rfl hg

theorem recompute_zmod2 (inputs delta : Nat) (h : inputs ≤ 1) :
    ((recomputeInputs .XorXnor inputs delta : Nat) : ZMod 2)
      = (inputs : ZMod 2) + delta := by
  unfold recomputeInputs
  dsimp only
  have hcast : ((delta % 2 : Nat) : ZMod 2) = (delta : ZMod 2) :=
    ZMod.natCast_mod delta 2
  have hd2 : delta % 2 = 0 ∨ delta % 2 = 1 := by omega
  interval_cases inputs <;> rcases hd2 with hd | hd <;>
    rw [← hcast, hd] <;> decide

/-- Mid-walk state of Phase B: `rem` is the remaining recompute suffix and
`ul` the next tick's propagate list built so far. -/
structure BMid (c : CircuitFast) (rem ul : List Nat) : Prop where
  data_len : c.node_data.length = c.next_id
  ud_len : c.node_update_data.length = c.next_id
  ch_len : c.node_children.length = c.next_id
  next_le : c.next_id ≤ NULL
  child_lt : ∀ p m, m ∈ c.getChildren p → m < c.next_id
  chead : c.changed_head = NULL
  ul_chain : uchain c c.update_head ul
  ul_nodup : ul.Nodup
  ul_lt : ∀ n ∈ ul, n < c.next_id
  ul_off : ∀ n, n ∉ ul → (c.getData n).next_update = NULL
  rem_nodup : rem.Nodup
  rem_lt : ∀ n ∈ rem, n < c.next_id
  rem_off : ∀ n, n ∉ rem → (c.getUD n).next_changed = NULL ∧
    (c.getUD n).inputs_delta = 0
  disj : ∀ q ∈ ul, q ∉ rem
  sizes : ∀ m, (c.getData m).inputs < 256 ∧ (c.getUD m).inputs_delta < 256
  fam : ∀ m, famOK c ul m
  xorb : ∀ m, (c.getData m).gate_type = .XorXnor → (c.getData m).inputs ≤ 1
  formula : ∀ m, indeg c m ≠ 0 →
    (c.getData m).output = newOutputFormula (c.getData m).inverted
      (c.getData m).inputs

/-- Getter preservation across phase B. -/
structure BPres (c c' : CircuitFast) : Prop where
  inverted : ∀ m, (c'.getData m).inverted = (c.getData m).inverted
  gate : ∀ m, (c'.getData m).gate_type = (c.getData m).gate_type
  children : ∀ m, c'.getChildren m = c.getChildren m
  nid : c'.next_id = c.next_id
  chead : c'.changed_head = c.changed_head

theorem BPres.rfl_b (c : CircuitFast) : BPres c c :=
  ⟨fun _ => rfl, fun _ => rfl, fun _ => rfl, rfl, rfl⟩

theorem BPres.trans_b {a b c : CircuitFast} (h1 : BPres a b)
    (h2 : BPres b c) : BPres a c :=
  ⟨fun m => (h2.inverted m).trans (h1.inverted m),
    fun m => (h2.gate m).trans (h1.gate m),
    fun m => (h2.children m).trans (h1.children m),
    h2.nid.trans h1.nid, h2.chead.trans h1.chead⟩


theorem bool_ne_not : ∀ a b : Bool, ¬ a = b → b = !a := by decide

theorem phaseB_null : ∀ (fuel : Nat) (c : CircuitFast),
    phaseB fuel c NULL = c := by
  intro fuel c
  cases fuel with
  | zero => rfl
  | succ f => simp [phaseB]

theorem BMid_congr {c c' : CircuitFast} {rem ul : List Nat}
    (hd : ∀ m, c'.getData m = c.getData m)
    (hu : ∀ m, c'.getUD m = c.getUD m)
    (hch : ∀ m, c'.getChildren m = c.getChildren m)
    (hnid : c'.next_id = c.next_id)
    (huh : c'.update_head = c.update_head)
    (hc2 : c'.changed_head = c.changed_head)
    (hdl : c'.node_data.length = c.node_data.length)
    (hul : c'.node_update_data.length = c.node_update_data.length)
    (hchl : c'.node_children.length = c.node_children.length)
    (hmid : BMid c rem ul) : BMid c' rem ul := by
  refine ⟨?_, ?_, ?_, ?_, ?_, ?_, ?_, hmid.ul_nodup, ?_, ?_,
    hmid.rem_nodup, ?_, ?_, hmid.disj, ?_, ?_, ?_, ?_⟩
  · rw [hdl, hnid]; exact hmid.data_len
  · rw [hul, hnid]; exact hmid.ud_len
  · rw [hchl, hnid]; exact hmid.ch_len
  · rw [hnid]; exact hmid.next_le
  · intro p m hm
    rw [hnid]
    exact hmid.child_lt p m (hch p ▸ hm)
  · rw [hc2]; exact hmid.chead
  · rw [huh]
    exact uchain_ext (fun q _ => by rw [hd q]) hmid.ul_chain
  · intro q hq
    rw [hnid]
    exact hmid.ul_lt q hq
  · intro q hq
    rw [hd q]
    exact hmid.ul_off q hq
  · intro q hq
    rw [hnid]
    exact hmid.rem_lt q hq
  · intro q hq
    rw [hu q]
    exact hmid.rem_off q hq
  · intro m
    rw [hd m, hu m]
    exact hmid.sizes m
  · intro m
    refine famOK_congr m (by rw [hd m]) (by rw [hd m]) (by rw [hu m]) ?_
      (indeg_congr hch hnid m) (hmid.fam m)
    exact Hdel_congr m (fun _ => Iff.rfl) (fun p => by rw [hd p]) hch hnid
  · intro m hm
    rw [hd m]
    exact hmid.xorb m (by rw [hd m] at hm; exact hm)
  · intro m hm
    rw [hd m]
    refine hmid.formula m ?_
    rw [← indeg_congr hch hnid m]
    exact hm

theorem fam_fold {c c2 : CircuitFast} {ul ul' : List Nat} {n : Nat}
    (hfam : famOK c ul n)
    (hgt : (c2.getData n).gate_type = (c.getData n).gate_type)
    (hinp : (c2.getData n).inputs = recomputeInputs (c.getData n).gate_type
      (c.getData n).inputs (c.getUD n).inputs_delta)
    (hdel : (c2.getUD n).inputs_delta = 0)
    (hH : Hdel c2 ul' n = Hdel c ul n)
    (hid : indeg c2 n = indeg c n)
    (hxb : (c.getData n).gate_type = .XorXnor → (c.getData n).inputs ≤ 1) :
    famOK c2 ul' n := by
  unfold famOK at hfam ⊢
  rw [hgt, hinp, hdel, hH, hid]
  rcases hg : (c.getData n).gate_type with _ | _ | _
  · rw [hg] at hfam
    dsimp only at hfam ⊢
    rw [recompute_zmod256 _ _ _ (fun hx => by cases hx)]
    push_cast
    linear_combination hfam
  · rw [hg] at hfam
    dsimp only at hfam ⊢
    rw [recompute_zmod256 _ _ _ (fun hx => by cases hx)]
    push_cast
    linear_combination hfam
  · rw [hg] at hfam
    dsimp only at hfam ⊢
    rw [recompute_zmod2 _ _ (hxb hg)]
    push_cast
    linear_combination hfam

set_option maxHeartbeats 2000000 in
theorem phaseB_walk :
    ∀ (rem : List Nat) (fuel : Nat) (c : CircuitFast) (ul : List Nat)
      (h : Nat),
      BMid c rem ul → cchain c (fun _ => True) h rem → rem.length < fuel →
      ∃ ul', BMid (phaseB fuel c h) [] ul' ∧ BPres c (phaseB fuel c h) := by
  intro rem
  induction rem with
  | nil =>
    intro fuel c ul h hmid hch hfl
    cases fuel with
    | zero => omega
    | succ f =>
      rcases Decidable.em (h = NULL) with hn | hn
      · rw [hn, phaseB_null]
        exact ⟨ul, hmid, BPres.rfl_b c⟩
      · simp only [phaseB, if_neg hn]
        obtain ⟨hoffn, hoffd⟩ := hmid.rem_off h (List.not_mem_nil h)
        obtain ⟨z1, z2, z3, z4, z5, z6, z7, z8, z9, z10⟩ :=
          phaseBStep_zero c h hoffd
        have hueq : c.getUD h = UpdateData.mk NULL 0 := by
          rcases hcu : c.getUD h with ⟨a, b⟩
          rw [hcu] at hoffn hoffd
          dsimp only at hoffn hoffd
          rw [hoffn, hoffd]
        have hudall : ∀ m, (phaseBStep c h).getUD m = c.getUD m := by
          intro m
          rcases Decidable.em (m = h) with rfl | hm
          · rw [z1, hueq]
          · exact z2 m hm
        rw [hoffn, phaseB_null]
        refine ⟨ul, BMid_congr z3 hudall z4 z5 z6 z7
          (congrArg List.length z8) z10 (congrArg List.length z9) hmid, ?_⟩
        exact ⟨fun m => by rw [z3 m], fun m => by rw [z3 m], z4, z5, z7⟩
  | cons n rest ih =>
    intro fuel c ul h hmid hch hfl
    obtain ⟨he, hch2⟩ := hch
    rw [he]
    have hnlt : n < c.next_id := hmid.rem_lt n (List.mem_cons_self n rest)
    have hnN : ¬ n = NULL := by
      have := hmid.next_le
      unfold NULL at this ⊢
      omega
    cases fuel with
    | zero => omega
    | succ f =>
      simp only [phaseB, if_neg hnN]
      have hnr : n ∉ rest := (List.nodup_cons.mp hmid.rem_nodup).1
      have hrnd : rest.Nodup := (List.nodup_cons.mp hmid.rem_nodup).2
      have hnul : n ∉ ul := fun hx =>
        hmid.disj n hx (List.mem_cons_self n rest)
      have hfl2 : rest.length < f := by
        simp only [List.length_cons] at hfl
        omega
      have hremoff : ∀ m, m ∉ rest → m ≠ n →
          (c.getUD m).next_changed = NULL ∧
          (c.getUD m).inputs_delta = 0 := by
        intro m hm hmn
        refine hmid.rem_off m (fun hx => ?_)
        rcases List.mem_cons.mp hx with he2 | hx2
        · exact hmn he2
        · exact hm hx2
      rcases Decidable.em ((c.getUD n).inputs_delta = 0) with hz | hz
      · -- shape 0: only the link is cleared
        obtain ⟨z1, z2, z3, z4, z5, z6, z7, z8, z9, z10⟩ :=
          phaseBStep_zero c n hz
        have hmid2 : BMid (phaseBStep c n) rest ul := by
          refine ⟨?_, ?_, ?_, ?_, ?_, ?_, ?_, hmid.ul_nodup, ?_, ?_,
            hrnd, ?_, ?_, ?_, ?_, ?_, ?_, ?_⟩
          · rw [congrArg List.length z8, z5]; exact hmid.data_len
          · rw [z10, z5]; exact hmid.ud_len
          · rw [congrArg List.length z9, z5]; exact hmid.ch_len
          · rw [z5]; exact hmid.next_le
          · intro p m hm
            rw [z5]
            exact hmid.child_lt p m (z4 p ▸ hm)
          · rw [z7]; exact hmid.chead
          · rw [z6]
            exact uchain_ext (fun q _ => by rw [z3 q]) hmid.ul_chain
          · intro q hq
            rw [z5]
            exact hmid.ul_lt q hq
          · intro q hq
            rw [z3 q]
            exact hmid.ul_off q hq
          · intro q hq
            rw [z5]
            exact hmid.rem_lt q (List.mem_cons_of_mem n hq)
          · intro m hm
            rcases Decidable.em (m = n) with rfl | hmn
            · rw [z1]
              exact ⟨rfl, rfl⟩
            · rw [z2 m hmn]
              exact hremoff m hm hmn
          · exact fun q hq hx => hmid.disj q hq (List.mem_cons_of_mem n hx)
          · intro m
            rcases Decidable.em (m = n) with rfl | hmn
            · rw [z3 m, z1]
              exact ⟨(hmid.sizes m).1, by decide⟩
            · rw [z3 m, z2 m hmn]
              exact hmid.sizes m
          · intro m
            refine famOK_congr m (by rw [z3 m]) (by rw [z3 m]) ?_
              (Hdel_congr m (fun _ => Iff.rfl) (fun p => by rw [z3 p])
                z4 z5)
              (indeg_congr z4 z5 m) (hmid.fam m)
            rcases Decidable.em (m = n) with rfl | hmn
            · rw [z1, hz]
            · rw [z2 m hmn]
          · intro m hm
            rw [z3 m]
            exact hmid.xorb m (by rw [z3 m] at hm; exact hm)
          · intro m hm
            rw [z3 m]
            refine hmid.formula m ?_
            rw [← indeg_congr z4 z5 m]
            exact hm
        have hch3 : cchain (phaseBStep c n) (fun _ => True)
            ((c.getUD n).next_changed) rest :=
          cchain_ext (fun q hq => by rw [z2 q (fun he2 => hnr (he2 ▸ hq))])
            hch2
        obtain ⟨ul', hmidF, hpF⟩ := ih f (phaseBStep c n) ul _ hmid2 hch3 hfl2
        refine ⟨ul', hmidF, BPres.trans_b ⟨fun m => by rw [z3 m],
          fun m => by rw [z3 m], z4, z5, z7⟩ hpF⟩
      · have hdl : n < c.node_data.length := by
          rw [hmid.data_len]
          exact hnlt
        have hulb : n < c.node_update_data.length := by
          rw [hmid.ud_len]
          exact hnlt
        rcases Decidable.em ((c.getData n).output
            = newOutputFormula (c.getData n).inverted
              (recomputeInputs (c.getData n).gate_type (c.getData n).inputs
                (c.getUD n).inputs_delta)) with hno | hto
        · -- shape 1: fold without output change
          obtain ⟨f1, f2, f3, f4, f5, f6, f7, f8, f9, f10, f11⟩ :=
            phaseBStep_fold c n hz hno hdl hulb
          have pout : ((phaseBStep c n).getData n).output
              = (c.getData n).output := by rw [f3]
          have pinp : ((phaseBStep c n).getData n).inputs
              = recomputeInputs (c.getData n).gate_type
                (c.getData n).inputs (c.getUD n).inputs_delta := by rw [f3]
          have pinv : ((phaseBStep c n).getData n).inverted
              = (c.getData n).inverted := by rw [f3]
          have pgt : ((phaseBStep c n).getData n).gate_type
              = (c.getData n).gate_type := by rw [f3]
          have pnu : ((phaseBStep c n).getData n).next_update
              = (c.getData n).next_update := by rw [f3]
          have houts : ∀ p, ((phaseBStep c n).getData p).output
              = (c.getData p).output := by
            intro p
            rcases Decidable.em (p = n) with rfl | hp
            · exact pout
            · rw [f4 p hp]
          have hmid2 : BMid (phaseBStep c n) rest ul := by
            refine ⟨?_, ?_, ?_, ?_, ?_, ?_, ?_, hmid.ul_nodup, ?_, ?_,
              hrnd, ?_, ?_, ?_, ?_, ?_, ?_, ?_⟩
            · rw [f9, f6]; exact hmid.data_len
            · rw [f11, f6]; exact hmid.ud_len
            · rw [congrArg List.length f10, f6]; exact hmid.ch_len
            · rw [f6]; exact hmid.next_le
            · intro p m hm
              rw [f6]
              exact hmid.child_lt p m (f5 p ▸ hm)
            · rw [f8]; exact hmid.chead
            · rw [f7]
              refine uchain_ext (fun q hq => ?_) hmid.ul_chain
              rcases Decidable.em (q = n) with rfl | hq2
              · exact pnu
              · rw [f4 q hq2]
            · intro q hq
              rw [f6]
              exact hmid.ul_lt q hq
            · intro q hq
              rcases Decidable.em (q = n) with rfl | hq2
              · rw [pnu]
                exact hmid.ul_off q hq
              · rw [f4 q hq2]
                exact hmid.ul_off q hq
            · intro q hq
              rw [f6]
              exact hmid.rem_lt q (List.mem_cons_of_mem n hq)
            · intro m hm
              rcases Decidable.em (m = n) with rfl | hmn
              · rw [f1]
                exact ⟨rfl, rfl⟩
              · rw [f2 m hmn]
                exact hremoff m hm hmn
            · exact fun q hq hx => hmid.disj q hq (List.mem_cons_of_mem n hx)
            · intro m
              rcases Decidable.em (m = n) with rfl | hmn
              · rw [pinp, f1]
                refine ⟨recompute_lt _ _ _ (hmid.xorb m), by decide⟩
              · rw [f4 m hmn, f2 m hmn]
                exact hmid.sizes m
            · intro m
              have hHd : Hdel (phaseBStep c n) ul m = Hdel c ul m :=
                Hdel_congr m (fun _ => Iff.rfl) houts f5 f6
              rcases Decidable.em (m = n) with rfl | hmn
              · exact fam_fold (hmid.fam m) pgt pinp (by rw [f1]) hHd
                  (indeg_congr f5 f6 m) (hmid.xorb m)
              · refine famOK_congr m (by rw [f4 m hmn]) (by rw [f4 m hmn])
                  (by rw [f2 m hmn]) hHd (indeg_congr f5 f6 m) (hmid.fam m)
            · intro m hm
              rcases Decidable.em (m = n) with rfl | hmn
              · have hg : (c.getData m).gate_type = .XorXnor := pgt ▸ hm
                rw [pinp, hg]
                exact recompute_xor_le _ _ (hmid.xorb m hg)
              · rw [f4 m hmn]
                exact hmid.xorb m (by rw [f4 m hmn] at hm; exact hm)
            · intro m hm
              rcases Decidable.em (m = n) with rfl | hmn
              · rw [pout, pinv, pinp]
                exact hno
              · rw [f4 m hmn]
                refine hmid.formula m ?_
                rw [← indeg_congr f5 f6 m]
                exact hm
          have hch3 : cchain (phaseBStep c n) (fun _ => True)
              ((c.getUD n).next_changed) rest :=
            cchain_ext (fun q hq => by
              rw [f2 q (fun he2 => hnr (he2 ▸ hq))]) hch2
          obtain ⟨ul', hmidF, hpF⟩ := ih f (phaseBStep c n) ul _ hmid2 hch3
            hfl2
          refine ⟨ul', hmidF, BPres.trans_b ⟨?_, ?_, f5, f6, f8⟩ hpF⟩
          · intro m
            rcases Decidable.em (m = n) with rfl | hmn
            · exact pinv
            · rw [f4 m hmn]
          · intro m
            rcases Decidable.em (m = n) with rfl | hmn
            · exact pgt
            · rw [f4 m hmn]
        · -- shape 2: fold with toggle and enqueue
          have hnu : (c.getData n).next_update = NULL := hmid.ul_off n hnul
          obtain ⟨t1, t2, t3, t4, t5, t6, t7, t8, t9, t10, t11⟩ :=
            phaseBStep_toggle c n hz hto hnu hdl hulb
          have pout : ((phaseBStep c n).getData n).output
              = newOutputFormula (c.getData n).inverted
                (recomputeInputs (c.getData n).gate_type
                  (c.getData n).inputs (c.getUD n).inputs_delta) := by
            rw [t3]
          have pinp : ((phaseBStep c n).getData n).inputs
              = recomputeInputs (c.getData n).gate_type
                (c.getData n).inputs (c.getUD n).inputs_delta := by rw [t3]
          have pinv : ((phaseBStep c n).getData n).inverted
              = (c.getData n).inverted := by rw [t3]
          have pgt : ((phaseBStep c n).getData n).gate_type
              = (c.getData n).gate_type := by rw [t3]
          have pnu : ((phaseBStep c n).getData n).next_update
              = c.update_head := by rw [t3]
          have hflip : ((phaseBStep c n).getData n).output
              = !(c.getData n).output := by
            rw [pout]
            exact bool_ne_not _ _ hto
          have houtsne : ∀ p, p ≠ n → ((phaseBStep c n).getData p).output
              = (c.getData p).output := fun p hp => by rw [t4 p hp]
          have hHt : ∀ m, Hdel (phaseBStep c n) (n :: ul) m
              = Hdel c ul m := fun m =>
            Hdel_toggle m hnul hflip houtsne t5 t6
          have hmid2 : BMid (phaseBStep c n) rest (n :: ul) := by
            refine ⟨?_, ?_, ?_, ?_, ?_, ?_, ?_,
              List.nodup_cons.mpr ⟨hnul, hmid.ul_nodup⟩, ?_, ?_,
              hrnd, ?_, ?_, ?_, ?_, ?_, ?_, ?_⟩
            · rw [t9, t6]; exact hmid.data_len
            · rw [t11, t6]; exact hmid.ud_len
            · rw [congrArg List.length t10, t6]; exact hmid.ch_len
            · rw [t6]; exact hmid.next_le
            · intro p m hm
              rw [t6]
              exact hmid.child_lt p m (t5 p ▸ hm)
            · rw [t8]; exact hmid.chead
            · rw [t7]
              refine ⟨rfl, ?_⟩
              rw [pnu]
              refine uchain_ext (fun q hq => ?_) hmid.ul_chain
              rw [t4 q (fun he2 => hnul (he2 ▸ hq))]
            · intro q hq
              rw [t6]
              rcases List.mem_cons.mp hq with rfl | hq2
              · exact hnlt
              · exact hmid.ul_lt q hq2
            · intro q hq
              have hq1 : q ≠ n := fun he2 => hq (he2 ▸ List.mem_cons_self _ _)
              rw [t4 q hq1]
              exact hmid.ul_off q (fun hx => hq (List.mem_cons_of_mem n hx))
            · intro q hq
              rw [t6]
              exact hmid.rem_lt q (List.mem_cons_of_mem n hq)
            · intro m hm
              rcases Decidable.em (m = n) with rfl | hmn
              · rw [t1]
                exact ⟨rfl, rfl⟩
              · rw [t2 m hmn]
                exact hremoff m hm hmn
            · intro q hq
              rcases List.mem_cons.mp hq with rfl | hq2
              · exact hnr
              · exact fun hx =>
                  hmid.disj q hq2 (List.mem_cons_of_mem n hx)
            · intro m
              rcases Decidable.em (m = n) with rfl | hmn
              · rw [pinp, t1]
                refine ⟨recompute_lt _ _ _ (hmid.xorb m), by decide⟩
              · rw [t4 m hmn, t2 m hmn]
                exact hmid.sizes m
            · intro m
              rcases Decidable.em (m = n) with rfl | hmn
              · exact fam_fold (hmid.fam m) pgt pinp (by rw [t1]) (hHt m)
                  (indeg_congr t5 t6 m) (hmid.xorb m)
              · refine famOK_congr m (by rw [t4 m hmn]) (by rw [t4 m hmn])
                  (by rw [t2 m hmn]) (hHt m) (indeg_congr t5 t6 m)
                  (hmid.fam m)
            · intro m hm
              rcases Decidable.em (m = n) with rfl | hmn
              · have hg : (c.getData m).gate_type = .XorXnor := pgt ▸ hm
                rw [pinp, hg]
                exact recompute_xor_le _ _ (hmid.xorb m hg)
              · rw [t4 m hmn]
                exact hmid.xorb m (by rw [t4 m hmn] at hm; exact hm)
            · intro m hm
              rcases Decidable.em (m = n) with rfl | hmn
              · rw [pout, pinv, pinp]
              · rw [t4 m hmn]
                refine hmid.formula m ?_
                rw [← indeg_congr t5 t6 m]
                exact hm
          have hch3 : cchain (phaseBStep c n) (fun _ => True)
              ((c.getUD n).next_changed) rest :=
            cchain_ext (fun q hq => by
              rw [t2 q (fun he2 => hnr (he2 ▸ hq))]) hch2
          obtain ⟨ul', hmidF, hpF⟩ := ih f (phaseBStep c n) (n :: ul) _
            hmid2 hch3 hfl2
          refine ⟨ul', hmidF, BPres.trans_b ⟨?_, ?_, t5, t6, t8⟩ hpF⟩
          · intro m
            rcases Decidable.em (m = n) with rfl | hmn
            · exact pinv
            · rw [t4 m hmn]
          · intro m
            rcases Decidable.em (m = n) with rfl | hmn
            · exact pgt
            · rw [t4 m hmn]

/-! ### Update preservation -/

theorem nodup_lt_length_le (l : List Nat) (N : Nat) (hnd : l.Nodup)
    (hlt : ∀ q ∈ l, q < N) : l.length ≤ N := by
  have h1 : l.toFinset ⊆ Finset.range N := by
    intro q hq
    exact Finset.mem_range.mpr (hlt q (List.mem_toFinset.mp hq))
  have h2 := Finset.card_le_card h1
  rw [List.toFinset_card_of_nodup hnd, Finset.card_range] at h2
  exact h2

theorem update_pres {c : CircuitFast} {ul cl : List Nat}
    (hinv : Inv c ul cl) :
    ∃ ul', Inv (update c) ul' [] ∧
      (∀ m, ((update c).getData m).inverted = (c.getData m).inverted) ∧
      (∀ m, ((update c).getData m).gate_type = (c.getData m).gate_type) ∧
      (∀ m, (update c).getChildren m = c.getChildren m) ∧
      (update c).next_id = c.next_id := by
  have h1 : AMid { c with update_head := NULL } ul cl :=
    ⟨hinv.data_len, hinv.ud_len, hinv.ch_len, hinv.next_le, hinv.child_lt,
      hinv.ul_nodup, hinv.ul_lt, hinv.ul_off,
      by refine cchain_ext ?_ hinv.cl_chain; exact fun q _ => rfl,
      hinv.cl_nodup,
      hinv.cl_lt, hinv.cl_off, hinv.sizes, hinv.fam, hinv.xorb,
      hinv.formula⟩
  have huch1 : uchain { c with update_head := NULL } c.update_head ul :=
    by refine uchain_ext ?_ hinv.ul_chain; exact fun q _ => rfl
  have hfuel : ul.length < c.node_data.length + 1 := by
    have := nodup_lt_length_le ul c.next_id hinv.ul_nodup hinv.ul_lt
    rw [hinv.data_len]
    omega
  obtain ⟨cl', hA, hDP⟩ := phaseA_walk ul (c.node_data.length + 1)
    { c with update_head := NULL } cl c.update_head h1 huch1 hfuel
  have h2 : BMid { phaseA (c.node_data.length + 1)
      { c with update_head := NULL } c.update_head
      with changed_head := NULL } cl' [] :=
    ⟨hA.data_len, hA.ud_len, hA.ch_len, hA.next_le, hA.child_lt, rfl,
      hDP.uhead, List.nodup_nil, fun n hn => absurd hn (List.not_mem_nil n),
      fun n _ => hA.ul_off n (List.not_mem_nil n), hA.cl_nodup, hA.cl_lt,
      hA.cl_off, fun q hq => absurd hq (List.not_mem_nil q), hA.sizes,
      hA.fam, hA.xorb, hA.formula⟩
  have hch2 : cchain { phaseA (c.node_data.length + 1)
      { c with update_head := NULL } c.update_head
      with changed_head := NULL } (fun _ => True)
      (phaseA (c.node_data.length + 1)
        { c with update_head := NULL } c.update_head).changed_head cl' :=
    by
      refine cchain_ext ?_ (cchain_mono (fun _ _ => trivial) hA.cl_chain)
      exact fun q _ => rfl
  have hfuelB : cl'.length < (phaseA (c.node_data.length + 1)
      { c with update_head := NULL } c.update_head).node_data.length + 1 := by
    have := nodup_lt_length_le cl' _ hA.cl_nodup hA.cl_lt
    have h3 := hA.data_len
    omega
  obtain ⟨ul'', hB, hBP⟩ := phaseB_walk cl' _ _ [] _ h2 hch2 hfuelB
  have hupd : update c = { phaseB ((phaseA (c.node_data.length + 1)
      { c with update_head := NULL } c.update_head).node_data.length + 1)
      { phaseA (c.node_data.length + 1)
        { c with update_head := NULL } c.update_head
        with changed_head := NULL }
      (phaseA (c.node_data.length + 1)
        { c with update_head := NULL } c.update_head).changed_head
      with tick := (phaseB ((phaseA (c.node_data.length + 1)
      { c with update_head := NULL } c.update_head).node_data.length + 1)
      { phaseA (c.node_data.length + 1)
        { c with update_head := NULL } c.update_head
        with changed_head := NULL }
      (phaseA (c.node_data.length + 1)
        { c with update_head := NULL } c.update_head).changed_head).tick
        + 1 } := by
    unfold update
    rfl
  rw [hupd]
  refine ⟨ul'', ⟨hB.data_len, hB.ud_len, hB.ch_len, hB.next_le, hB.child_lt,
    by refine uchain_ext ?_ hB.ul_chain; exact fun q _ => rfl,
    hB.ul_nodup, hB.ul_lt, hB.ul_off, Or.inl hBP.chead,
    List.nodup_nil, fun n hn => absurd hn (List.not_mem_nil n),
    fun n _ => hB.rem_off n (List.not_mem_nil n), hB.sizes, hB.fam,
    hB.xorb, hB.formula⟩, ?_, ?_, ?_, ?_⟩
  · exact fun m => (hBP.inverted m).trans (hDP.inverted m)
  · exact fun m => (hBP.gate m).trans (hDP.gate m)
  · exact fun m => (hBP.children m).trans (hDP.children m)
  · exact hBP.nid.trans hDP.nid

/-! ### Freeze: nodes that are nobody's child keep their output -/

theorem getChildren_mk_chead (x : CircuitFast) (v : Nat) (m : Nat) :
    ({ x with changed_head := v } : CircuitFast).getChildren m
      = x.getChildren m := rfl

theorem getData_mk_tick (x : CircuitFast) (v : Nat) (m : Nat) :
    ({ x with tick := v } : CircuitFast).getData m = x.getData m := rfl

theorem getUD_mk_tick (x : CircuitFast) (v : Nat) (m : Nat) :
    ({ x with tick := v } : CircuitFast).getUD m = x.getUD m := rfl

theorem getChildren_mk_tick (x : CircuitFast) (v : Nat) (m : Nat) :
    ({ x with tick := v } : CircuitFast).getChildren m
      = x.getChildren m := rfl

/-- The two halves of `update`, named so their getters can be traced. -/
def updA (c : CircuitFast) : CircuitFast :=
  phaseA (c.node_data.length + 1) { c with update_head := NULL }
    c.update_head

def updB (c : CircuitFast) : CircuitFast :=
  phaseB ((updA c).node_data.length + 1) { updA c with changed_head := NULL }
    (updA c).changed_head

theorem update_eq (c : CircuitFast) :
    update c = { updB c with tick := (updB c).tick + 1 } := by
  unfold update updB updA
  rfl

theorem deliver_children' (b : Bool) :
    ∀ (cs : List Nat) (c : CircuitFast) (m : Nat),
      (cs.foldl (fun c child => c.modify child b) c).getChildren m
        = c.getChildren m := by
  intro cs
  induction cs with
  | nil => intro c m; rfl
  | cons x rest ih =>
    intro c m
    simp only [List.foldl_cons]
    rw [ih, modify_getChildren']

theorem deliver_nid' (b : Bool) :
    ∀ (cs : List Nat) (c : CircuitFast),
      (cs.foldl (fun c child => c.modify child b) c).next_id = c.next_id := by
  intro cs
  induction cs with
  | nil => intro c; rfl
  | cons x rest ih =>
    intro c
    simp only [List.foldl_cons]
    rw [ih, modify_next_id']

theorem deliver_data' (b : Bool) :
    ∀ (cs : List Nat) (c : CircuitFast) (m : Nat),
      (cs.foldl (fun c child => c.modify child b) c).getData m
        = c.getData m := by
  intro cs
  induction cs with
  | nil => intro c m; rfl
  | cons x rest ih =>
    intro c m
    simp only [List.foldl_cons]
    rw [ih, modify_getData']

theorem deliver_ud_ne (b : Bool) (m : Nat) :
    ∀ (cs : List Nat) (c : CircuitFast), m ∉ cs →
      (cs.foldl (fun c child => c.modify child b) c).getUD m
        = c.getUD m := by
  intro cs
  induction cs with
  | nil => intro c _; rfl
  | cons x rest ih =>
    intro c hm
    simp only [List.foldl_cons]
    rw [ih (c.modify x b) (fun hx => hm (List.mem_cons_of_mem x hx)),
      modify_getUD_ne c x b m
        (fun he => hm (he ▸ List.mem_cons_self x rest))]

theorem phaseA_null : ∀ (fuel : Nat) (c : CircuitFast),
    phaseA fuel c NULL = c := by
  intro fuel c
  cases fuel with
  | zero => rfl
  | succ f => simp [phaseA]

theorem phaseAStep_children' (c : CircuitFast) (n m : Nat) :
    (phaseAStep c n).getChildren m = c.getChildren m := by
  unfold phaseAStep
  dsimp only
  rw [deliver_children']
  rfl

theorem phaseAStep_nid' (c : CircuitFast) (n : Nat) :
    (phaseAStep c n).next_id = c.next_id := by
  unfold phaseAStep
  dsimp only
  rw [deliver_nid']
  rfl

theorem phaseAStep_ud (c : CircuitFast) (n m : Nat)
    (hm : m ∉ c.getChildren n) :
    (phaseAStep c n).getUD m = c.getUD m := by
  unfold phaseAStep
  dsimp only
  exact deliver_ud_ne _ _ _ _ hm

theorem phaseAStep_output (c : CircuitFast) (n m : Nat) :
    ((phaseAStep c n).getData m).output = (c.getData m).output := by
  unfold phaseAStep
  dsimp only
  rw [deliver_data', getData_setData']
  rcases Decidable.em (m = n ∧ n < c.node_data.length) with hc | hc
  · rw [if_pos hc]
    rcases hc with ⟨he, _⟩
    rw [he]
  · rw [if_neg hc]

theorem phaseA_children' :
    ∀ (fuel : Nat) (c : CircuitFast) (h m : Nat),
      (phaseA fuel c h).getChildren m = c.getChildren m := by
  intro fuel
  induction fuel with
  | zero => intro c h m; rfl
  | succ f ih =>
    intro c h m
    rcases Decidable.em (h = NULL) with hn | hn
    · simp only [phaseA, if_pos hn]
    · simp only [phaseA, if_neg hn]
      rw [ih, phaseAStep_children']

theorem phaseA_nid' :
    ∀ (fuel : Nat) (c : CircuitFast) (h : Nat),
      (phaseA fuel c h).next_id = c.next_id := by
  intro fuel
  induction fuel with
  | zero => intro c h; rfl
  | succ f ih =>
    intro c h
    rcases Decidable.em (h = NULL) with hn | hn
    · simp only [phaseA, if_pos hn]
    · simp only [phaseA, if_neg hn]
      rw [ih, phaseAStep_nid']

theorem phaseA_freeze (m : Nat) :
    ∀ (fuel : Nat) (c : CircuitFast) (h : Nat),
      (∀ p, m ∉ c.getChildren p) →
      (phaseA fuel c h).getUD m = c.getUD m ∧
      ((phaseA fuel c h).getData m).output = (c.getData m).output := by
  intro fuel
  induction fuel with
  | zero => intro c h _; exact ⟨rfl, rfl⟩
  | succ f ih =>
    intro c h hm
    rcases Decidable.em (h = NULL) with hn | hn
    · rw [hn, phaseA_null]
      exact ⟨rfl, rfl⟩
    · simp only [phaseA, if_neg hn]
      have hm2 : ∀ p, m ∉ (phaseAStep c h).getChildren p := by
        intro p
        rw [phaseAStep_children']
        exact hm p
      obtain ⟨h1, h2⟩ := ih (phaseAStep c h) (c.getData h).next_update hm2
      refine ⟨?_, ?_⟩
      · rw [h1, phaseAStep_ud c h m (hm h)]
      · rw [h2, phaseAStep_output]

theorem phaseBStep_getData_ne (c : CircuitFast) (n m : Nat) (h : m ≠ n) :
    (phaseBStep c n).getData m = c.getData m := by
  unfold phaseBStep
  dsimp only
  split
  · split
    · rw [enqueue_getData_ne' _ _ _ h, getData_setData',
        if_neg (fun hc => h hc.1), getData_setUD', getData_setUD']
    · rw [getData_setData', if_neg (fun hc => h hc.1), getData_setUD',
        getData_setUD']
  · rw [getData_setUD']

theorem phaseBStep_getUD_ne' (c : CircuitFast) (n m : Nat) (h : m ≠ n) :
    (phaseBStep c n).getUD m = c.getUD m := by
  unfold phaseBStep
  dsimp only
  split
  · split
    · rw [enqueue_getUD, getUD_setData', getUD_setUD',
        if_neg (fun hc => h hc.1), getUD_setUD', if_neg (fun hc => h hc.1)]
    · rw [getUD_setData', getUD_setUD', if_neg (fun hc => h hc.1),
        getUD_setUD', if_neg (fun hc => h hc.1)]
  · rw [getUD_setUD', if_neg (fun hc => h hc.1)]

theorem phaseBStep_children'' (c : CircuitFast) (n m : Nat) :
    (phaseBStep c n).getChildren m = c.getChildren m := by
  unfold phaseBStep
  dsimp only
  split
  · split
    · rw [enqueue_getChildren]
      rfl
    · rfl
  · rfl

theorem phaseBStep_nid'' (c : CircuitFast) (n : Nat) :
    (phaseBStep c n).next_id = c.next_id := by
  unfold phaseBStep
  dsimp only
  split
  · split
    · rw [enqueue_next_id]
      rfl
    · rfl
  · rfl

theorem phaseB_children' :
    ∀ (fuel : Nat) (c : CircuitFast) (h m : Nat),
      (phaseB fuel c h).getChildren m = c.getChildren m := by
  intro fuel
  induction fuel with
  | zero => intro c h m; rfl
  | succ f ih =>
    intro c h m
    rcases Decidable.em (h = NULL) with hn | hn
    · simp only [phaseB, if_pos hn]
    · simp only [phaseB, if_neg hn]
      rw [ih, phaseBStep_children'']

theorem phaseB_nid' :
    ∀ (fuel : Nat) (c : CircuitFast) (h : Nat),
      (phaseB fuel c h).next_id = c.next_id := by
  intro fuel
  induction fuel with
  | zero => intro c h; rfl
  | succ f ih =>
    intro c h
    rcases Decidable.em (h = NULL) with hn | hn
    · simp only [phaseB, if_pos hn]
    · simp only [phaseB, if_neg hn]
      rw [ih, phaseBStep_nid'']

theorem phaseB_freeze (m : Nat) :
    ∀ (fuel : Nat) (c : CircuitFast) (h : Nat),
      (c.getUD m).inputs_delta = 0 →
      ((phaseB fuel c h).getData m).output = (c.getData m).output ∧
      ((phaseB fuel c h).getUD m).inputs_delta = 0 := by
  intro fuel
  induction fuel with
  | zero => intro c h hd; exact ⟨rfl, hd⟩
  | succ f ih =>
    intro c h hd
    rcases Decidable.em (h = NULL) with hn | hn
    · rw [hn, phaseB_null]
      exact ⟨rfl, hd⟩
    · simp only [phaseB, if_neg hn]
      have hstep : ((phaseBStep c h).getData m).output
          = (c.getData m).output ∧
          ((phaseBStep c h).getUD m).inputs_delta = 0 := by
        rcases Decidable.em (m = h) with rfl | hne
        · obtain ⟨z1, _, z3, _⟩ := phaseBStep_zero c m hd
          exact ⟨by rw [z3 m], by rw [z1]⟩
        · exact ⟨by rw [phaseBStep_getData_ne c h m hne],
            by rw [phaseBStep_getUD_ne' c h m hne]; exact hd⟩
      obtain ⟨i1, i2⟩ := ih (phaseBStep c h) (c.getUD h).next_changed hstep.2
      exact ⟨i1.trans hstep.1, i2⟩

theorem update_children' (c : CircuitFast) (m : Nat) :
    (update c).getChildren m = c.getChildren m := by
  rw [update_eq c, getChildren_mk_tick]
  have h1 : (updB c).getChildren m
      = ({ updA c with changed_head := NULL } : CircuitFast).getChildren m :=
    phaseB_children' _ _ _ _
  have h2 : (updA c).getChildren m
      = ({ c with update_head := NULL } : CircuitFast).getChildren m :=
    phaseA_children' _ _ _ _
  rw [h1, getChildren_mk_chead, h2, getChildren_mk_uhead]

theorem update_nid' (c : CircuitFast) :
    (update c).next_id = c.next_id := by
  rw [update_eq c]
  have h0 : ({ updB c with tick := (updB c).tick + 1 } : CircuitFast).next_id
      = (updB c).next_id := rfl
  have h1 : (updB c).next_id
      = ({ updA c with changed_head := NULL } : CircuitFast).next_id :=
    phaseB_nid' _ _ _
  have h2 : (updA c).next_id
      = ({ c with update_head := NULL } : CircuitFast).next_id :=
    phaseA_nid' _ _ _
  rw [h0, h1, show ({ updA c with changed_head := NULL } :
    CircuitFast).next_id = (updA c).next_id from rfl, h2]

theorem update_freeze (c : CircuitFast) (m : Nat)
    (hch : ∀ p, m ∉ c.getChildren p)
    (hdz : (c.getUD m).inputs_delta = 0) :
    ((update c).getData m).output = (c.getData m).output ∧
    ((update c).getUD m).inputs_delta = 0 ∧
    (∀ p, m ∉ (update c).getChildren p) := by
  have h1 : ∀ p, m ∉ ({ c with update_head := NULL } :
      CircuitFast).getChildren p := hch
  obtain ⟨ha1, ha2⟩ := phaseA_freeze m (c.node_data.length + 1)
    { c with update_head := NULL } c.update_head h1
  have hAud : (updA c).getUD m = c.getUD m := ha1
  have hAout : ((updA c).getData m).output
      = (({ c with update_head := NULL } : CircuitFast).getData m).output :=
    ha2
  have hdz2 : (({ updA c with changed_head := NULL } :
      CircuitFast).getUD m).inputs_delta = 0 := by
    rw [getUD_mk_chead, hAud]
    exact hdz
  obtain ⟨hb1, hb2⟩ := phaseB_freeze m ((updA c).node_data.length + 1)
    { updA c with changed_head := NULL } (updA c).changed_head hdz2
  have hBout : ((updB c).getData m).output
      = (({ updA c with changed_head := NULL } :
          CircuitFast).getData m).output := hb1
  have hBud : ((updB c).getUD m).inputs_delta = 0 := hb2
  refine ⟨?_, ?_, ?_⟩
  · rw [update_eq c, getData_mk_tick, hBout, getData_mk_chead, hAout,
      getData_mk_uhead]
  · rw [update_eq c, getUD_mk_tick]
    exact hBud
  · intro p
    rw [update_children']
    exact hch p


/-! ## Build-operation preservation of the accounting invariant -/

theorem add_node_getUD' (c : CircuitFast) (gt : GateType) (inv : Bool)
    (m : Nat) : (c.add_node gt inv).1.getUD m = c.getUD m := by
  unfold add_node
  dsimp only
  split
  · show (resizePad c.node_update_data (c.next_id + 1) {}).getD m {} = _
    exact getD_resizePad _ _ _ _
  · rfl

theorem add_node_update_head' (c : CircuitFast) (gt : GateType)
    (inv : Bool) : (c.add_node gt inv).1.update_head = c.update_head := by
  unfold add_node
  dsimp only
  split <;> rfl

theorem add_node_changed_head' (c : CircuitFast) (gt : GateType)
    (inv : Bool) : (c.add_node gt inv).1.changed_head = c.changed_head := by
  unfold add_node
  dsimp only
  split <;> rfl

theorem getUD_default (c : CircuitFast) (n : Nat)
    (h : c.node_update_data.length ≤ n) : c.getUD n = {} := by
  unfold getUD
  exact List.getD_eq_default _ _ h

theorem getChildren_default (c : CircuitFast) (n : Nat)
    (h : c.node_children.length ≤ n) : c.getChildren n = [] := by
  unfold getChildren
  exact List.getD_eq_default _ _ h

theorem cnt_eq_zero_of_not_mem {c : CircuitFast} {p m : Nat}
    (h : m ∉ c.getChildren p) : cnt c p m = 0 :=
  List.count_eq_zero.mpr h

theorem Hdel_eq_zero {c : CircuitFast} {ul : List Nat} {m : Nat}
    (h : ∀ p, m ∉ c.getChildren p) : Hdel c ul m = 0 := by
  unfold Hdel
  refine Finset.sum_eq_zero (fun p _ => ?_)
  rw [cnt_eq_zero_of_not_mem (h p), ite_self]

theorem indeg_eq_zero {c : CircuitFast} {m : Nat}
    (h : ∀ p, m ∉ c.getChildren p) : indeg c m = 0 := by
  unfold indeg
  exact Finset.sum_eq_zero (fun p _ => cnt_eq_zero_of_not_mem (h p))

theorem Hdel_grow {c c' : CircuitFast} {ul : List Nat} (m : Nat)
    (hch : ∀ p, c'.getChildren p = c.getChildren p)
    (houts : ∀ p, p < c.next_id → (c'.getData p).output = (c.getData p).output)
    (hnid : c'.next_id = c.next_id + 1)
    (htop : m ∉ c.getChildren c.next_id) :
    Hdel c' ul m = Hdel c ul m := by
  unfold Hdel
  rw [hnid, Finset.sum_range_succ]
  have htop0 : cnt c' c.next_id m = 0 := by
    unfold cnt
    rw [hch]
    exact List.count_eq_zero.mpr htop
  rw [htop0, ite_self, add_zero]
  refine Finset.sum_congr rfl (fun p hp => ?_)
  have hdv : deliv c' ul p = deliv c ul p := by
    unfold deliv
    rw [houts p (Finset.mem_range.mp hp)]
  have hcnt : cnt c' p m = cnt c p m := by
    unfold cnt
    rw [hch]
  rw [hdv, hcnt]

theorem indeg_grow {c c' : CircuitFast} (m : Nat)
    (hch : ∀ p, c'.getChildren p = c.getChildren p)
    (hnid : c'.next_id = c.next_id + 1)
    (htop : m ∉ c.getChildren c.next_id) :
    indeg c' m = indeg c m := by
  unfold indeg
  rw [hnid, Finset.sum_range_succ]
  have htop0 : cnt c' c.next_id m = 0 := by
    unfold cnt
    rw [hch]
    exact List.count_eq_zero.mpr htop
  rw [htop0, add_zero]
  refine Finset.sum_congr rfl (fun p _ => ?_)
  unfold cnt
  rw [hch]

theorem add_node_Inv {c : CircuitFast} {ul cl : List Nat} (gt : GateType)
    (inv : Bool) (hinv : Inv c ul cl) (hle : c.next_id + 1 ≤ NULL) :
    Inv (c.add_node gt inv).1 ul cl := by
  have wf : WFAlloc c := ⟨hinv.ch_len, hinv.data_len, hinv.ud_len⟩
  have wf' := add_node_WFAlloc gt inv wf
  have hch : ∀ p, (c.add_node gt inv).1.getChildren p = c.getChildren p :=
    add_node_getChildren c gt inv
  have hud : ∀ p, (c.add_node gt inv).1.getUD p = c.getUD p :=
    add_node_getUD' c gt inv
  have hnid : (c.add_node gt inv).1.next_id = c.next_id + 1 :=
    add_node_next_id c gt inv
  have hdne : ∀ m, m ≠ c.next_id →
      (c.add_node gt inv).1.getData m = c.getData m :=
    fun m hm => add_node_getData_ne c gt inv m hm
  have hdself : (c.add_node gt inv).1.getData c.next_id =
      { next_update := NULL, output := inv, inputs := 0, inverted := inv,
        gate_type := gt } := add_node_getData_self gt inv wf
  have hfresh : ∀ p, c.next_id ∉ c.getChildren p := by
    intro p hm
    exact absurd (hinv.child_lt p _ hm) (lt_irrefl _)
  have hfresh' : ∀ p, c.next_id ∉ (c.add_node gt inv).1.getChildren p := by
    intro p
    rw [hch]
    exact hfresh p
  have houts : ∀ p, p < c.next_id →
      ((c.add_node gt inv).1.getData p).output = (c.getData p).output := by
    intro p hp
    rw [hdne p (Nat.ne_of_lt hp)]
  have htopch : c.getChildren c.next_id = [] :=
    getChildren_default c _ (Nat.le_of_eq hinv.ch_len)
  have htopnm : ∀ m, m ∉ c.getChildren c.next_id := by
    intro m hx
    rw [htopch] at hx
    exact absurd hx (List.not_mem_nil m)
  have hie : ∀ m, indeg (c.add_node gt inv).1 m = indeg c m :=
    fun m => indeg_grow m hch hnid (htopnm m)
  have hH : ∀ m, Hdel (c.add_node gt inv).1 ul m = Hdel c ul m :=
    fun m => Hdel_grow m hch houts hnid (htopnm m)
  have hud0 : c.getUD c.next_id = {} :=
    getUD_default c _ (Nat.le_of_eq hinv.ud_len)
  refine ⟨wf'.data_len, wf'.ud_len, wf'.children_len, ?_, ?_, ?_,
    hinv.ul_nodup, ?_, ?_, ?_, hinv.cl_nodup, ?_, ?_, ?_, ?_, ?_, ?_⟩
  · rw [hnid]
    exact hle
  · intro p m hm
    rw [hnid]
    rw [hch] at hm
    exact Nat.lt_succ_of_lt (hinv.child_lt p m hm)
  · rw [add_node_update_head']
    refine uchain_ext (fun q hq => ?_) hinv.ul_chain
    rw [hdne q (Nat.ne_of_lt (hinv.ul_lt q hq))]
  · intro q hq
    rw [hnid]
    exact Nat.lt_succ_of_lt (hinv.ul_lt q hq)
  · intro n hn
    rcases Decidable.em (n = c.next_id) with rfl | hne
    · rw [hdself]
    · rw [hdne n hne]
      exact hinv.ul_off n hn
  · rw [add_node_changed_head']
    refine cchain_ext (fun q _ => ?_) hinv.cl_chain
    rw [hud q]
  · intro q hq
    rw [hnid]
    exact Nat.lt_succ_of_lt (hinv.cl_lt q hq)
  · intro n hn
    rw [hud n]
    exact hinv.cl_off n hn
  · intro m
    refine ⟨?_, ?_⟩
    · rcases Decidable.em (m = c.next_id) with rfl | hne
      · rw [hdself]
        exact Nat.zero_lt_succ _
      · rw [hdne m hne]
        exact (hinv.sizes m).1
    · rw [hud m]
      exact (hinv.sizes m).2
  · intro m
    rcases Decidable.em (m = c.next_id) with rfl | hne
    · unfold famOK
      rw [hdself, hud _, hud0, hH _, Hdel_eq_zero hfresh, hie _,
        indeg_eq_zero hfresh]
      cases gt <;> simp
    · exact famOK_congr m (by rw [hdne m hne]) (by rw [hdne m hne])
        (by rw [hud m]) (hH m) (hie m) (hinv.fam m)
  · intro m hm
    rcases Decidable.em (m = c.next_id) with rfl | hne
    · rw [hdself]
      exact Nat.zero_le _
    · rw [hdne m hne]
      exact hinv.xorb m (by rw [hdne m hne] at hm; exact hm)
  · intro m hm
    rcases Decidable.em (m = c.next_id) with rfl | hne
    · rw [hie _, indeg_eq_zero hfresh] at hm
      exact absurd rfl hm
    · rw [hdne m hne]
      refine hinv.formula m ?_
      rw [← hie m]
      exact hm

/-- The unconditional between-builds formula: every node's output matches the
engine formula (true until the first `set_input`). -/
def AllF (c : CircuitFast) : Prop :=
  ∀ m, (c.getData m).output =
    newOutputFormula (c.getData m).inverted (c.getData m).inputs

theorem add_node_AllF {c : CircuitFast} (gt : GateType) (inv : Bool)
    (wf : WFAlloc c) (h : AllF c) : AllF (c.add_node gt inv).1 := by
  intro m
  rcases Decidable.em (m = c.next_id) with rfl | hne
  · rw [add_node_getData_self gt inv wf]
    unfold newOutputFormula
    cases inv <;> rfl
  · rw [add_node_getData_ne c gt inv m hne]
    exact h m

theorem connect_AllF {c : CircuitFast} (i o : Nat) (h : AllF c) :
    AllF (c.connect i o) := by
  intro m
  rw [connect_getData]
  exact h m

theorem connectChildren_getChildren_self' (c : CircuitFast) (i o : Nat)
    (h : i < c.node_children.length) :
    (c.connectChildren i o).getChildren i = c.getChildren i ++ [o] := by
  unfold connectChildren getChildren
  dsimp only
  rw [getD_set', if_pos ⟨rfl, h⟩]

theorem connectChildren_getChildren_ne' (c : CircuitFast) (i o m : Nat)
    (h : m ≠ i) :
    (c.connectChildren i o).getChildren m = c.getChildren m := by
  unfold connectChildren getChildren
  dsimp only
  rw [getD_set', if_neg (fun hc => h hc.1)]

theorem deliv_nil (c : CircuitFast) (p : Nat) :
    deliv c [] p = (c.getData p).output := by
  unfold deliv
  rw [if_neg (List.not_mem_nil p)]

theorem Hdel_append_child {c c' : CircuitFast} {ul : List Nat} (i o m : Nat)
    (hchi : c'.getChildren i = c.getChildren i ++ [o])
    (hchne : ∀ p, p ≠ i → c'.getChildren p = c.getChildren p)
    (houts : ∀ p, (c'.getData p).output = (c.getData p).output)
    (hnid : c'.next_id = c.next_id)
    (hi : i < c.next_id) :
    Hdel c' ul m = Hdel c ul m +
      (if deliv c ul i then (if m = o then 1 else 0) else 0) := by
  unfold Hdel
  rw [hnid]
  have hmem : i ∈ Finset.range c.next_id := Finset.mem_range.mpr hi
  rw [Finset.sum_eq_sum_diff_singleton_add hmem
      (fun p => if deliv c' ul p then cnt c' p m else 0),
    Finset.sum_eq_sum_diff_singleton_add hmem
      (fun p => if deliv c ul p then cnt c p m else 0)]
  have hdv : ∀ p, deliv c' ul p = deliv c ul p := by
    intro p
    unfold deliv
    rw [houts p]
  have hrest : ∑ p ∈ Finset.range c.next_id \ {i},
      (if deliv c' ul p then cnt c' p m else 0)
      = ∑ p ∈ Finset.range c.next_id \ {i},
        (if deliv c ul p then cnt c p m else 0) := by
    refine Finset.sum_congr rfl (fun p hp => ?_)
    have hpne : p ≠ i := by
      have := (Finset.mem_sdiff.mp hp).2
      simpa using this
    rw [hdv p]
    unfold cnt
    rw [hchne p hpne]
  rw [hrest, hdv i]
  have hcnt : cnt c' i m = cnt c i m + (if m = o then 1 else 0) := by
    unfold cnt
    rw [hchi, List.count_append]
    congr 1
    rw [List.count_cons, List.count_nil, Nat.zero_add]
    rcases Decidable.em (m = o) with he | he
    · rw [if_pos (beq_iff_eq.mpr he.symm), if_pos he]
    · rw [if_neg (fun hc => he (beq_iff_eq.mp hc).symm), if_neg he]
  rw [hcnt]
  cases hdl : deliv c ul i <;> simp [hdl, Nat.add_assoc]

theorem indeg_append_child {c c' : CircuitFast} (i o m : Nat)
    (hchi : c'.getChildren i = c.getChildren i ++ [o])
    (hchne : ∀ p, p ≠ i → c'.getChildren p = c.getChildren p)
    (hnid : c'.next_id = c.next_id)
    (hi : i < c.next_id) :
    indeg c' m = indeg c m + (if m = o then 1 else 0) := by
  unfold indeg
  rw [hnid]
  have hmem : i ∈ Finset.range c.next_id := Finset.mem_range.mpr hi
  rw [Finset.sum_eq_sum_diff_singleton_add hmem (fun p => cnt c' p m),
    Finset.sum_eq_sum_diff_singleton_add hmem (fun p => cnt c p m)]
  have hrest : ∑ p ∈ Finset.range c.next_id \ {i}, cnt c' p m
      = ∑ p ∈ Finset.range c.next_id \ {i}, cnt c p m := by
    refine Finset.sum_congr rfl (fun p hp => ?_)
    have hpne : p ≠ i := by
      have := (Finset.mem_sdiff.mp hp).2
      simpa using this
    unfold cnt
    rw [hchne p hpne]
  have hcnt : cnt c' i m = cnt c i m + (if m = o then 1 else 0) := by
    unfold cnt
    rw [hchi, List.count_append]
    congr 1
    rw [List.count_cons, List.count_nil, Nat.zero_add]
    rcases Decidable.em (m = o) with he | he
    · rw [if_pos (beq_iff_eq.mpr he.symm), if_pos he]
    · rw [if_neg (fun hc => he (beq_iff_eq.mp hc).symm), if_neg he]
  rw [hrest, hcnt, Nat.add_assoc]

theorem connectChildren_Inv {c : CircuitFast} {cl : List Nat} (i o : Nat)
    (hinv : Inv c [] cl) (hi : i < c.next_id) (ho : o < c.next_id)
    (hfo : (c.getData o).output =
      newOutputFormula (c.getData o).inverted (c.getData o).inputs)
    (hfamo : famOK (c.connectChildren i o) [] o) :
    Inv (c.connectChildren i o) [] cl := by
  have hWc : i < c.node_children.length := by
    rw [hinv.ch_len]
    exact hi
  have hchi : (c.connectChildren i o).getChildren i
      = c.getChildren i ++ [o] := connectChildren_getChildren_self' c i o hWc
  have hchne : ∀ p, p ≠ i →
      (c.connectChildren i o).getChildren p = c.getChildren p :=
    fun p hp => connectChildren_getChildren_ne' c i o p hp
  have hH : ∀ m, m ≠ o →
      Hdel (c.connectChildren i o) [] m = Hdel c [] m := by
    intro m hm
    rw [Hdel_append_child i o m hchi hchne (fun p => rfl) rfl hi,
      if_neg hm, ite_self, Nat.add_zero]
  have hid : ∀ m, m ≠ o →
      indeg (c.connectChildren i o) m = indeg c m := by
    intro m hm
    rw [indeg_append_child i o m hchi hchne rfl hi, if_neg hm, Nat.add_zero]
  refine ⟨hinv.data_len, hinv.ud_len, ?_, hinv.next_le, ?_, hinv.ul_chain,
    hinv.ul_nodup, hinv.ul_lt, hinv.ul_off, ?_, hinv.cl_nodup, hinv.cl_lt,
    hinv.cl_off, hinv.sizes, ?_, hinv.xorb, ?_⟩
  · show (c.node_children.set i (c.getChildren i ++ [o])).length = c.next_id
    rw [List.length_set]
    exact hinv.ch_len
  · intro p m hm
    rcases Decidable.em (p = i) with rfl | hp
    · rw [hchi] at hm
      rcases List.mem_append.mp hm with hm2 | hm2
      · exact hinv.child_lt p m hm2
      · rw [List.mem_singleton.mp hm2]
        exact ho
    · rw [hchne p hp] at hm
      exact hinv.child_lt p m hm
  · refine cchain_ext ?_ hinv.cl_chain
    exact fun q _ => rfl
  · intro m
    rcases Decidable.em (m = o) with rfl | hm
    · exact hfamo
    · exact @famOK_congr c (c.connectChildren i o) [] [] m rfl rfl rfl
        (hH m hm) (hid m hm) (hinv.fam m)
  · intro m hm
    rcases Decidable.em (m = o) with rfl | hmo
    · exact hfo
    · rw [hid m hmo] at hm
      exact hinv.formula m hm

theorem connectChildren_modify_Inv {c : CircuitFast} {cl : List Nat}
    (i o : Nat) (b : Bool)
    (hinv : Inv c [] cl) (hi : i < c.next_id) (ho : o < c.next_id)
    (hfo : (c.getData o).output =
      newOutputFormula (c.getData o).inverted (c.getData o).inputs)
    (hfamo : famOK ((c.connectChildren i o).modify o b) [] o) :
    ∃ cl', Inv ((c.connectChildren i o).modify o b) [] cl' := by
  have hWc : i < c.node_children.length := by
    rw [hinv.ch_len]
    exact hi
  have hchi0 : (c.connectChildren i o).getChildren i
      = c.getChildren i ++ [o] := connectChildren_getChildren_self' c i o hWc
  have hchne0 : ∀ p, p ≠ i →
      (c.connectChildren i o).getChildren p = c.getChildren p :=
    fun p hp => connectChildren_getChildren_ne' c i o p hp
  have hto : o < (c.connectChildren i o).node_update_data.length := by
    show o < c.node_update_data.length
    rw [hinv.ud_len]
    exact ho
  have hch1 : cchain (c.connectChildren i o) (fun q => q ∈ cl)
      (c.connectChildren i o).changed_head cl := by
    refine cchain_ext ?_ hinv.cl_chain
    exact fun q _ => rfl
  obtain ⟨cl', hmem, hnd', hch', hoff'⟩ := modify_cl o b hch1 hinv.cl_nodup
    hinv.cl_off hinv.cl_lt hto hinv.next_le
  have hd2 : ∀ m, ((c.connectChildren i o).modify o b).getData m
      = c.getData m := fun m => modify_getData' _ o b m
  have hud2 : ∀ m, m ≠ o → ((c.connectChildren i o).modify o b).getUD m
      = c.getUD m := fun m hm => modify_getUD_ne _ o b m hm
  have hch2 : ∀ m, ((c.connectChildren i o).modify o b).getChildren m
      = (c.connectChildren i o).getChildren m :=
    fun m => modify_getChildren' _ o b m
  have hnid2 : ((c.connectChildren i o).modify o b).next_id = c.next_id :=
    modify_next_id' _ o b
  have hchi : ((c.connectChildren i o).modify o b).getChildren i
      = c.getChildren i ++ [o] := by rw [hch2, hchi0]
  have hchne : ∀ p, p ≠ i →
      ((c.connectChildren i o).modify o b).getChildren p
        = c.getChildren p := by
    intro p hp
    rw [hch2, hchne0 p hp]
  have hH : ∀ m, m ≠ o →
      Hdel ((c.connectChildren i o).modify o b) [] m = Hdel c [] m := by
    intro m hm
    rw [Hdel_append_child i o m hchi hchne (fun p => by rw [hd2 p]) hnid2 hi,
      if_neg hm, ite_self, Nat.add_zero]
  have hid : ∀ m, m ≠ o →
      indeg ((c.connectChildren i o).modify o b) m = indeg c m := by
    intro m hm
    rw [indeg_append_child i o m hchi hchne hnid2 hi, if_neg hm,
      Nat.add_zero]
  have hudo : ((c.connectChildren i o).modify o b).getUD o =
      { next_changed := if ((c.connectChildren i o).getUD o).next_changed
          = NULL then (c.connectChildren i o).changed_head
          else ((c.connectChildren i o).getUD o).next_changed,
        inputs_delta :=
          bump b ((c.connectChildren i o).getUD o).inputs_delta } :=
    modify_getUD_self _ o b hto
  refine ⟨cl', ?_, ?_, ?_, ?_, ?_, ?_, hinv.ul_nodup, ?_, ?_, hch', hnd',
    ?_, hoff', ?_, ?_, ?_, ?_⟩
  · rw [(modify_lens _ o b).1, hnid2]
    exact hinv.data_len
  · rw [(modify_lens _ o b).2.2, hnid2]
    exact hinv.ud_len
  · rw [(modify_lens _ o b).2.1, hnid2]
    show (c.node_children.set i (c.getChildren i ++ [o])).length = c.next_id
    rw [List.length_set]
    exact hinv.ch_len
  · rw [hnid2]
    exact hinv.next_le
  · intro p m hm
    rw [hnid2]
    rw [hch2 p] at hm
    rcases Decidable.em (p = i) with rfl | hp
    · rw [hchi0] at hm
      rcases List.mem_append.mp hm with hm2 | hm2
      · exact hinv.child_lt p m hm2
      · rw [List.mem_singleton.mp hm2]
        exact ho
    · rw [hchne0 p hp] at hm
      exact hinv.child_lt p m hm
  · rw [modify_update_head' _ o b]
    exact hinv.ul_chain
  · intro q hq
    exact absurd hq (List.not_mem_nil q)
  · intro n _
    rw [hd2 n]
    exact hinv.ul_off n (List.not_mem_nil n)
  · intro q hq
    rw [hnid2]
    rcases (hmem q).mp hq with rfl | hq2
    · exact ho
    · exact hinv.cl_lt q hq2
  · intro m
    refine ⟨?_, ?_⟩
    · rw [hd2 m]
      exact (hinv.sizes m).1
    · rcases Decidable.em (m = o) with rfl | hm
      · rw [hudo]
        exact bump_lt b _
      · rw [hud2 m hm]
        exact (hinv.sizes m).2
  · intro m
    rcases Decidable.em (m = o) with rfl | hm
    · exact hfamo
    · exact famOK_congr m (by rw [hd2 m]) (by rw [hd2 m])
        (by rw [hud2 m hm]) (hH m hm) (hid m hm) (hinv.fam m)
  · intro m hm
    rw [hd2 m]
    exact hinv.xorb m (by rw [hd2 m] at hm; exact hm)
  · intro m hm
    rcases Decidable.em (m = o) with rfl | hmo
    · rw [hd2 m]
      exact hfo
    · rw [hid m hmo] at hm
      rw [hd2 m]
      exact hinv.formula m hm

theorem modifyCC_facts (c : CircuitFast) (i o : Nat) (b : Bool)
    (hWc : i < c.node_children.length)
    (hud : o < c.node_update_data.length) :
    (((c.connectChildren i o).modify o b).getUD o).inputs_delta
      = bump b (c.getUD o).inputs_delta ∧
    ((c.connectChildren i o).modify o b).getChildren i
      = c.getChildren i ++ [o] ∧
    (∀ p, p ≠ i → ((c.connectChildren i o).modify o b).getChildren p
      = c.getChildren p) ∧
    (∀ p, (((c.connectChildren i o).modify o b).getData p).output
      = (c.getData p).output) ∧
    ((c.connectChildren i o).modify o b).next_id = c.next_id ∧
    (∀ p, ((c.connectChildren i o).modify o b).getData p = c.getData p) := by
  have hud2 : o < (c.connectChildren i o).node_update_data.length := hud
  refine ⟨?_, ?_, ?_, ?_, ?_, ?_⟩
  · rw [modify_getUD_self (c.connectChildren i o) o b hud2]
    rfl
  · rw [modify_getChildren']
    exact connectChildren_getChildren_self' c i o hWc
  · intro p hp
    rw [modify_getChildren']
    exact connectChildren_getChildren_ne' c i o p hp
  · exact fun p => congrArg NodeData.output (modify_getData' _ o b p)
  · exact modify_next_id' _ o b
  · exact fun p => modify_getData' _ o b p

set_option maxHeartbeats 1000000 in
theorem connect_Inv {c : CircuitFast} {cl : List Nat} (i o : Nat)
    (hinv : Inv c [] cl) (hi : i < c.next_id) (ho : o < c.next_id)
    (hfo : (c.getData o).output =
      newOutputFormula (c.getData o).inverted (c.getData o).inputs) :
    ∃ cl', Inv (c.connect i o) [] cl' := by
  have hWc : i < c.node_children.length := by
    rw [hinv.ch_len]
    exact hi
  have hUc : o < c.node_update_data.length := by
    rw [hinv.ud_len]
    exact ho
  have hchi0 : (c.connectChildren i o).getChildren i
      = c.getChildren i ++ [o] := connectChildren_getChildren_self' c i o hWc
  have hchne0 : ∀ p, p ≠ i →
      (c.connectChildren i o).getChildren p = c.getChildren p :=
    fun p hp => connectChildren_getChildren_ne' c i o p hp
  have hHo : Hdel (c.connectChildren i o) [] o = Hdel c [] o +
      (if (c.getData i).output then 1 else 0) := by
    rw [Hdel_append_child i o o hchi0 hchne0 (fun p => rfl) rfl hi,
      deliv_nil, if_pos rfl]
  have hido : indeg (c.connectChildren i o) o = indeg c o + 1 := by
    rw [indeg_append_child i o o hchi0 hchne0 rfl hi, if_pos rfl]
  have hfam0 := hinv.fam o
  unfold connect
  dsimp only
  rw [show (c.connectChildren i o).getData o = c.getData o from rfl,
    show (c.connectChildren i o).is_active i = (c.getData i).output from rfl]
  rcases hgt : (c.getData o).gate_type with _ | _ | _ <;>
    cases houti : (c.getData i).output
  · -- OrNor, producer low: no reconciliation
    show ∃ cl', Inv (c.connectChildren i o) [] cl'
    refine ⟨cl, connectChildren_Inv i o hinv hi ho hfo ?_⟩
    unfold famOK at hfam0 ⊢
    rw [show (c.connectChildren i o).getData o = c.getData o from rfl, hgt]
    rw [hgt] at hfam0
    dsimp only at hfam0 ⊢
    rw [show (c.connectChildren i o).getUD o = c.getUD o from rfl, hHo,
      houti]
    push_cast
    linear_combination hfam0
  · -- OrNor, producer high: modify o (+1)
    show ∃ cl', Inv ((c.connectChildren i o).modify o true) [] cl'
    refine connectChildren_modify_Inv i o true hinv hi ho hfo ?_
    obtain ⟨hdelo, hchiM, hchneM, houtsM, hnidM, hdM⟩ :=
      modifyCC_facts c i o true hWc hUc
    have hH2 : Hdel ((c.connectChildren i o).modify o true) [] o
        = Hdel c [] o + 1 := by
      rw [Hdel_append_child i o o hchiM hchneM houtsM hnidM hi,
        deliv_nil, houti, if_pos rfl, if_pos rfl]
    unfold famOK at hfam0 ⊢
    rw [hdM o, hgt]
    rw [hgt] at hfam0
    dsimp only at hfam0 ⊢
    rw [hdelo, hH2, bump_zmod256, if_pos rfl]
    push_cast
    linear_combination hfam0
  · -- AndNand, producer low: modify o (-1)
    show ∃ cl', Inv ((c.connectChildren i o).modify o false) [] cl'
    refine connectChildren_modify_Inv i o false hinv hi ho hfo ?_
    obtain ⟨hdelo, hchiM, hchneM, houtsM, hnidM, hdM⟩ :=
      modifyCC_facts c i o false hWc hUc
    have hH2 : Hdel ((c.connectChildren i o).modify o false) [] o
        = Hdel c [] o := by
      rw [Hdel_append_child i o o hchiM hchneM houtsM hnidM hi,
        deliv_nil, houti]
      simp
    have hid2 : indeg ((c.connectChildren i o).modify o false) o
        = indeg c o + 1 := by
      rw [indeg_append_child i o o hchiM hchneM hnidM hi, if_pos rfl]
    unfold famOK at hfam0 ⊢
    rw [hdM o, hgt]
    rw [hgt] at hfam0
    dsimp only at hfam0 ⊢
    rw [hdelo, hH2, hid2, bump_zmod256, if_neg Bool.false_ne_true]
    push_cast
    linear_combination hfam0
  · -- AndNand, producer high: no reconciliation
    show ∃ cl', Inv (c.connectChildren i o) [] cl'
    refine ⟨cl, connectChildren_Inv i o hinv hi ho hfo ?_⟩
    unfold famOK at hfam0 ⊢
    rw [show (c.connectChildren i o).getData o = c.getData o from rfl, hgt]
    rw [hgt] at hfam0
    dsimp only at hfam0 ⊢
    rw [show (c.connectChildren i o).getUD o = c.getUD o from rfl, hHo,
      hido, houti, if_pos rfl]
    push_cast
    linear_combination hfam0
  · -- XorXnor, producer low: no reconciliation
    show ∃ cl', Inv (c.connectChildren i o) [] cl'
    refine ⟨cl, connectChildren_Inv i o hinv hi ho hfo ?_⟩
    unfold famOK at hfam0 ⊢
    rw [show (c.connectChildren i o).getData o = c.getData o from rfl, hgt]
    rw [hgt] at hfam0
    dsimp only at hfam0 ⊢
    rw [show (c.connectChildren i o).getUD o = c.getUD o from rfl, hHo,
      houti]
    push_cast
    linear_combination hfam0
  · -- XorXnor, producer high: modify o (+1)
    show ∃ cl', Inv ((c.connectChildren i o).modify o true) [] cl'
    refine connectChildren_modify_Inv i o true hinv hi ho hfo ?_
    obtain ⟨hdelo, hchiM, hchneM, houtsM, hnidM, hdM⟩ :=
      modifyCC_facts c i o true hWc hUc
    have hH2 : Hdel ((c.connectChildren i o).modify o true) [] o
        = Hdel c [] o + 1 := by
      rw [Hdel_append_child i o o hchiM hchneM houtsM hnidM hi,
        deliv_nil, houti, if_pos rfl, if_pos rfl]
    unfold famOK at hfam0 ⊢
    rw [hdM o, hgt]
    rw [hgt] at hfam0
    dsimp only at hfam0 ⊢
    rw [hdelo, hH2, bump_zmod2]
    push_cast
    linear_combination hfam0

theorem set_input_pass (c : CircuitFast) (n : Nat) (v : Bool)
    (hto : ¬ (c.getData n).output = v)
    (hnu : (c.getData n).next_update = NULL)
    (hdl : n < c.node_data.length) :
    (c.set_input n v).getData n =
      { next_update := c.update_head, output := v,
        inputs := (c.getData n).inputs,
        inverted := (c.getData n).inverted,
        gate_type := (c.getData n).gate_type } ∧
    (c.set_input n v).update_head = n ∧
    (∀ m, m ≠ n → (c.set_input n v).getData m = c.getData m) ∧
    (∀ m, (c.set_input n v).getUD m = c.getUD m) ∧
    (∀ m, (c.set_input n v).getChildren m = c.getChildren m) ∧
    (c.set_input n v).next_id = c.next_id ∧
    (c.set_input n v).changed_head = c.changed_head ∧
    (c.set_input n v).node_data.length = c.node_data.length ∧
    (c.set_input n v).node_update_data = c.node_update_data ∧
    (c.set_input n v).node_children = c.node_children := by
  unfold set_input
  dsimp only
  rw [if_pos hto]
  have h1d : (c.setData n { c.getData n with output := v }).getData n
      = { c.getData n with output := v } := by
    rw [getData_setData', if_pos ⟨rfl, hdl⟩]
  have h1nu : ((c.setData n { c.getData n with output := v }).getData
      n).next_update = NULL := by
    rw [h1d]
    exact hnu
  have h1dl : n < (c.setData n
      { c.getData n with output := v }).node_data.length := by
    show n < (c.node_data.set n _).length
    rw [List.length_set]
    exact hdl
  obtain ⟨he1, he2⟩ := enqueue_pass _ n h1nu h1dl
  refine ⟨?_, he2, ?_, ?_, ?_, ?_, ?_, ?_, ?_, ?_⟩
  · rw [he1, h1d]
    rfl
  · intro m hm
    rw [enqueue_getData_ne' _ _ _ hm, getData_setData',
      if_neg (fun hc => hm hc.1)]
  · intro m
    rw [enqueue_getUD]
    rfl
  · intro m
    rw [enqueue_getChildren]
    rfl
  · rw [enqueue_next_id]
    rfl
  · rw [enqueue_chead]
    rfl
  · rw [(enqueue_lens _ n).1]
    show (c.node_data.set n _).length = c.node_data.length
    rw [List.length_set]
  · rw [(enqueue_lens _ n).2.1]
    rfl
  · rw [(enqueue_lens _ n).2.2]
    rfl

theorem set_input_Inv {c : CircuitFast} {ul cl : List Nat} (n : Nat)
    (v : Bool) (hinv : Inv c ul cl) (hn : n < c.next_id) (hnul : n ∉ ul)
    (hnoc : ∀ p, n ∉ c.getChildren p) :
    Inv (c.set_input n v)
      (if (c.getData n).output = v then ul else n :: ul) cl := by
  rcases Decidable.em ((c.getData n).output = v) with he | he
  · rw [if_pos he]
    have hsame : c.set_input n v = c := by
      unfold set_input
      dsimp only
      rw [if_neg (fun hx => hx he)]
    rw [hsame]
    exact hinv
  · rw [if_neg he]
    have hdl : n < c.node_data.length := by
      rw [hinv.data_len]
      exact hn
    have hnu : (c.getData n).next_update = NULL := hinv.ul_off n hnul
    obtain ⟨hdn, huh, hdne, hud, hch, hnid, hchd, hdlen, hudl, hchl⟩ :=
      set_input_pass c n v he hnu hdl
    have hout : ((c.set_input n v).getData n).output = v := by rw [hdn]
    have hinp : ((c.set_input n v).getData n).inputs
        = (c.getData n).inputs := by rw [hdn]
    have hivt : ((c.set_input n v).getData n).inverted
        = (c.getData n).inverted := by rw [hdn]
    have hgtn : ((c.set_input n v).getData n).gate_type
        = (c.getData n).gate_type := by rw [hdn]
    have hnu2 : ((c.set_input n v).getData n).next_update
        = c.update_head := by rw [hdn]
    have hflip : ((c.set_input n v).getData n).output
        = !(c.getData n).output := by
      rw [hout]
      exact bool_ne_not _ _ he
    have houtsne : ∀ p, p ≠ n →
        ((c.set_input n v).getData p).output = (c.getData p).output :=
      fun p hp => by rw [hdne p hp]
    have hHt : ∀ m, Hdel (c.set_input n v) (n :: ul) m = Hdel c ul m :=
      fun m => Hdel_toggle m hnul hflip houtsne hch hnid
    have hidp : ∀ m, indeg (c.set_input n v) m = indeg c m :=
      indeg_congr hch hnid
    refine ⟨?_, ?_, ?_, ?_, ?_, ?_,
      List.nodup_cons.mpr ⟨hnul, hinv.ul_nodup⟩, ?_, ?_, ?_, hinv.cl_nodup,
      ?_, ?_, ?_, ?_, ?_, ?_⟩
    · rw [hdlen, hnid]
      exact hinv.data_len
    · rw [hudl, hnid]
      exact hinv.ud_len
    · rw [hchl, hnid]
      exact hinv.ch_len
    · rw [hnid]
      exact hinv.next_le
    · intro p m hm
      rw [hnid]
      rw [hch p] at hm
      exact hinv.child_lt p m hm
    · rw [huh]
      refine ⟨rfl, ?_⟩
      rw [hnu2]
      refine uchain_ext (fun q hq => ?_) hinv.ul_chain
      rw [hdne q (fun hx => hnul (hx ▸ hq))]
    · intro q hq
      rw [hnid]
      rcases List.mem_cons.mp hq with rfl | hq2
      · exact hn
      · exact hinv.ul_lt q hq2
    · intro m hm
      have hm1 : m ≠ n := fun hx => hm (hx ▸ List.mem_cons_self n ul)
      rw [hdne m hm1]
      exact hinv.ul_off m (fun hx => hm (List.mem_cons_of_mem n hx))
    · rw [hchd]
      refine cchain_ext (fun q _ => ?_) hinv.cl_chain
      rw [hud q]
    · intro q hq
      rw [hnid]
      exact hinv.cl_lt q hq
    · intro m hm
      rw [hud m]
      exact hinv.cl_off m hm
    · intro m
      refine ⟨?_, ?_⟩
      · rcases Decidable.em (m = n) with rfl | hm
        · rw [hinp]
          exact (hinv.sizes m).1
        · rw [hdne m hm]
          exact (hinv.sizes m).1
      · rw [hud m]
        exact (hinv.sizes m).2
    · intro m
      rcases Decidable.em (m = n) with rfl | hm
      · exact famOK_congr m hinp hgtn (by rw [hud m]) (hHt m) (hidp m)
          (hinv.fam m)
      · exact famOK_congr m (by rw [hdne m hm]) (by rw [hdne m hm])
          (by rw [hud m]) (hHt m) (hidp m) (hinv.fam m)
    · intro m hm
      rcases Decidable.em (m = n) with rfl | hmn
      · rw [hinp]
        exact hinv.xorb m (by rw [← hgtn]; exact hm)
      · rw [hdne m hmn]
        exact hinv.xorb m (by rw [hdne m hmn] at hm; exact hm)
    · intro m hm
      rcases Decidable.em (m = n) with rfl | hmn
      · rw [hidp m, indeg_eq_zero hnoc] at hm
        exact absurd rfl hm
      · rw [hdne m hmn]
        refine hinv.formula m ?_
        rw [← hidp m]
        exact hm

/-! ### Runs to quiescence preserve the invariant and the static structure -/

/-- Getter preservation across whole ticks: inverted flags, gate types,
children lists and the allocator never change during `update`. -/
structure GPres (c c' : CircuitFast) : Prop where
  inverted : ∀ m, (c'.getData m).inverted = (c.getData m).inverted
  gate : ∀ m, (c'.getData m).gate_type = (c.getData m).gate_type
  children : ∀ m, c'.getChildren m = c.getChildren m
  nid : c'.next_id = c.next_id

theorem GPres.rfl_g (c : CircuitFast) : GPres c c :=
  ⟨fun _ => rfl, fun _ => rfl, fun _ => rfl, rfl⟩

theorem GPres.trans_g {a b c : CircuitFast} (h1 : GPres a b)
    (h2 : GPres b c) : GPres a c :=
  ⟨fun m => (h2.inverted m).trans (h1.inverted m),
    fun m => (h2.gate m).trans (h1.gate m),
    fun m => (h2.children m).trans (h1.children m), h2.nid.trans h1.nid⟩

theorem run_until_done_Inv :
    ∀ (fuel : Nat) (c : CircuitFast) (ul cl : List Nat) (c' : CircuitFast),
      Inv c ul cl → run_until_done fuel c = some c' →
      ∃ ul' cl', Inv c' ul' cl' ∧ c'.work_left = false ∧ GPres c c' := by
  intro fuel
  induction fuel with
  | zero =>
    intro c ul cl c' hinv hrun
    unfold run_until_done at hrun
    rcases Decidable.em (c.work_left = true) with hw | hw
    · rw [if_pos hw] at hrun
      exact absurd hrun (by simp)
    · rw [if_neg hw] at hrun
      have hwf : c.work_left = false := by
        cases hwx : c.work_left
        · rfl
        · exact absurd hwx hw
      refine ⟨ul, cl, Option.some_injective _ hrun ▸ hinv, ?_, ?_⟩
      · rw [← Option.some_injective _ hrun]
        exact hwf
      · rw [← Option.some_injective _ hrun]
        exact GPres.rfl_g c
  | succ f ih =>
    intro c ul cl c' hinv hrun
    unfold run_until_done at hrun
    rcases Decidable.em (c.work_left = true) with hw | hw
    · rw [if_pos hw] at hrun
      obtain ⟨ul2, hinv2, hp1, hp2, hp3, hp4⟩ := update_pres hinv
      obtain ⟨ul', cl', hI, hwl, hg⟩ := ih (update c) ul2 [] c' hinv2 hrun
      exact ⟨ul', cl', hI, hwl, GPres.trans_g ⟨hp1, hp2, hp3, hp4⟩ hg⟩
    · rw [if_neg hw] at hrun
      have hwf : c.work_left = false := by
        cases hwx : c.work_left
        · rfl
        · exact absurd hwx hw
      refine ⟨ul, cl, Option.some_injective _ hrun ▸ hinv, ?_, ?_⟩
      · rw [← Option.some_injective _ hrun]
        exact hwf
      · rw [← Option.some_injective _ hrun]
        exact GPres.rfl_g c

theorem run_until_done_freeze :
    ∀ (fuel : Nat) (c : CircuitFast) (c' : CircuitFast) (m : Nat),
      run_until_done fuel c = some c' →
      (∀ p, m ∉ c.getChildren p) →
      (c.getUD m).inputs_delta = 0 →
      (c'.getData m).output = (c.getData m).output := by
  intro fuel
  induction fuel with
  | zero =>
    intro c c' m hrun hch hdz
    unfold run_until_done at hrun
    rcases Decidable.em (c.work_left = true) with hw | hw
    · rw [if_pos hw] at hrun
      exact absurd hrun (by simp)
    · rw [if_neg hw] at hrun
      rw [← Option.some_injective _ hrun]
  | succ f ih =>
    intro c c' m hrun hch hdz
    unfold run_until_done at hrun
    rcases Decidable.em (c.work_left = true) with hw | hw
    · rw [if_pos hw] at hrun
      obtain ⟨hf1, hf2, hf3⟩ := update_freeze c m hch hdz
      rw [ih (update c) c' m hrun hf3 hf2, hf1]
    · rw [if_neg hw] at hrun
      rw [← Option.some_injective _ hrun]

theorem quiescent_lists {c : CircuitFast} {ul cl : List Nat}
    (hinv : Inv c ul cl) (hwl : c.work_left = false) :
    ul = [] ∧ cl = [] := by
  have hw : c.update_head = NULL ∧ c.changed_head = NULL := by
    unfold work_left at hwl
    constructor
    · by_contra hx
      simp [hx] at hwl
    · by_contra hx
      simp [hx] at hwl
  constructor
  · cases hul : ul with
    | nil => rfl
    | cons q rest =>
      have := hinv.ul_chain
      rw [hul] at this
      obtain ⟨hq, _⟩ := this
      have hlt := hinv.ul_lt q (hul ▸ List.mem_cons_self q rest)
      have := hinv.next_le
      rw [hw.1] at hq
      unfold NULL at this hq
      omega
  · cases hcl : cl with
    | nil => rfl
    | cons q rest =>
      have := hinv.cl_chain
      rw [hcl] at this
      obtain ⟨hq, _⟩ := this
      have hlt := hinv.cl_lt q (hcl ▸ List.mem_cons_self q rest)
      have := hinv.next_le
      rw [hw.2] at hq
      unfold NULL at this hq
      omega

theorem new_Inv : Inv CircuitFast.new [] [] := by
  have hd : ∀ m, CircuitFast.new.getData m = {} := fun m => rfl
  have hu : ∀ m, CircuitFast.new.getUD m = {} := fun m => rfl
  have hH : ∀ m, Hdel CircuitFast.new [] m = 0 := fun m => rfl
  have hI : ∀ m, indeg CircuitFast.new m = 0 := fun m => rfl
  refine ⟨rfl, rfl, rfl, ?_, ?_, rfl, List.nodup_nil, ?_, ?_, Or.inl rfl,
    List.nodup_nil, ?_, ?_, ?_, ?_, ?_, ?_⟩
  · show 0 ≤ NULL
    exact Nat.zero_le _
  · intro p m hm
    exact absurd hm (List.not_mem_nil m)
  · intro q hq
    exact absurd hq (List.not_mem_nil q)
  · intro n _
    rfl
  · intro q hq
    exact absurd hq (List.not_mem_nil q)
  · intro n _
    exact ⟨rfl, rfl⟩
  · intro m
    rw [hd m, hu m]
    exact ⟨by norm_num, by norm_num⟩
  · intro m
    unfold famOK
    rw [hd m, hu m, hH m, hI m]
    dsimp only
    norm_num
  · intro m _
    rw [hd m]
    exact Nat.zero_le _
  · intro m hm
    exact absurd (hI m) hm

/-! ### Quiescent gate equations via explicit producer lists -/

theorem zmod256_inj (a b : Nat) (ha : a < 256) (hb : b < 256)
    (h : (a : ZMod 256) = b) : a = b := by
  have h2 := congrArg ZMod.val h
  rwa [ZMod.val_cast_of_lt ha, ZMod.val_cast_of_lt hb] at h2

theorem sum_range_count (pl : List Nat) (N : Nat) (f : Nat → Nat) :
    (∀ q ∈ pl, q < N) →
    ∑ p ∈ Finset.range N, pl.count p * f p = (pl.map f).sum := by
  induction pl with
  | nil =>
    intro _
    simp
  | cons q tl ih =>
    intro hlt
    have hq : q ∈ Finset.range N :=
      Finset.mem_range.mpr (hlt q (List.mem_cons_self q tl))
    have hsplit : ∀ p, (q :: tl).count p * f p
        = tl.count p * f p + (if p = q then f p else 0) := by
      intro p
      rw [List.count_cons]
      rcases Decidable.em (p = q) with he | he
      · rw [if_pos (beq_iff_eq.mpr he.symm), if_pos he]
        ring
      · rw [if_neg (fun hc => he (beq_iff_eq.mp hc).symm), if_neg he]
        ring
    rw [Finset.sum_congr rfl (fun p _ => hsplit p), Finset.sum_add_distrib,
      ih (fun x hx => hlt x (List.mem_cons_of_mem _ hx)),
      Finset.sum_ite_eq' (Finset.range N) q f, if_pos hq, List.map_cons,
      List.sum_cons]
    omega

/-- Number of currently-high producers in the list `pl`. -/
def outcount (c : CircuitFast) (pl : List Nat) : Nat :=
  (pl.map (fun q => if (c.getData q).output then 1 else 0)).sum

theorem outcount_le (c : CircuitFast) (pl : List Nat) :
    outcount c pl ≤ pl.length := by
  induction pl with
  | nil => exact Nat.le_refl _
  | cons q tl ih =>
    unfold outcount at ih ⊢
    rw [List.map_cons, List.sum_cons, List.length_cons]
    have h1 : (if (c.getData q).output then 1 else 0) ≤ 1 := by
      cases (c.getData q).output <;> simp
    omega

theorem sum_map_one (l : List Nat) :
    (l.map (fun _ => (1 : Nat))).sum = l.length := by
  induction l with
  | nil => rfl
  | cons x tl ih =>
    rw [List.map_cons, List.sum_cons, List.length_cons, ih]
    omega

theorem Hdel0_spec {c : CircuitFast} (m : Nat) (pl : List Nat)
    (hnd : pl.Nodup) (hlt : ∀ q ∈ pl, q < c.next_id)
    (hin : ∀ q ∈ pl, cnt c q m = 1)
    (hout : ∀ p, p ∉ pl → cnt c p m = 0) :
    Hdel c [] m = outcount c pl ∧ indeg c m = pl.length := by
  have hcnt : ∀ p, cnt c p m = pl.count p := by
    intro p
    rcases Decidable.em (p ∈ pl) with hp | hp
    · rw [hin p hp]
      symm
      exact List.count_eq_one_of_mem hnd hp
    · rw [hout p hp]
      symm
      exact List.count_eq_zero.mpr hp
  constructor
  · unfold Hdel outcount
    have hbody : ∀ p, (if deliv c [] p then cnt c p m else 0)
        = pl.count p * (if (c.getData p).output then 1 else 0) := by
      intro p
      rw [deliv_nil, hcnt p]
      cases ho : (c.getData p).output <;> simp [ho]
    rw [Finset.sum_congr rfl (fun p _ => hbody p)]
    exact sum_range_count pl c.next_id _ hlt
  · unfold indeg
    have hbody : ∀ p, cnt c p m = pl.count p * 1 := by
      intro p
      rw [hcnt p, Nat.mul_one]
    rw [Finset.sum_congr rfl (fun p _ => hbody p),
      sum_range_count pl c.next_id _ hlt]
    exact sum_map_one pl

theorem bne_of_iff (a b u v : Nat) (h : a = b ↔ u = v) :
    (a != b) = (u != v) := by
  rcases Decidable.em (a = b) with hc | hc
  · have h2 := h.mp hc
    rw [bne_eq_false_iff_eq.mpr hc, bne_eq_false_iff_eq.mpr h2]
  · have h2 : ¬ u = v := fun hx => hc (h.mpr hx)
    rw [bne_iff_ne.mpr hc, bne_iff_ne.mpr h2]

theorem gate_eval_or {c : CircuitFast} (m : Nat) (pl : List Nat)
    (hinv : Inv c [] []) (hgt : (c.getData m).gate_type = .OrNor)
    (hnd : pl.Nodup) (hne : pl ≠ []) (hlen : pl.length < 256)
    (hlt : ∀ q ∈ pl, q < c.next_id)
    (hin : ∀ q ∈ pl, cnt c q m = 1)
    (hout : ∀ p, p ∉ pl → cnt c p m = 0) :
    (c.getData m).output
      = Bool.xor (c.getData m).inverted (outcount c pl != 0) := by
  obtain ⟨hH, hI⟩ := Hdel0_spec m pl hnd hlt hin hout
  have hdz : (c.getUD m).inputs_delta = 0 :=
    (hinv.cl_off m (List.not_mem_nil m)).2
  have hfam := hinv.fam m
  unfold famOK at hfam
  rw [hgt] at hfam
  dsimp only at hfam
  rw [hdz, hH] at hfam
  have hinb : (c.getData m).inputs < 256 := (hinv.sizes m).1
  have hocb : outcount c pl < 256 :=
    Nat.lt_of_le_of_lt (outcount_le c pl) hlen
  have heq : (c.getData m).inputs = outcount c pl := by
    apply zmod256_inj _ _ hinb hocb
    push_cast at hfam ⊢
    linear_combination hfam
  have hfor := hinv.formula m (by
    rw [hI]
    intro hx
    exact hne (List.length_eq_zero.mp hx))
  rw [hfor]
  unfold newOutputFormula
  rw [heq]

theorem gate_eval_and {c : CircuitFast} (m : Nat) (pl : List Nat)
    (hinv : Inv c [] []) (hgt : (c.getData m).gate_type = .AndNand)
    (hnd : pl.Nodup) (hne : pl ≠ []) (hlen : pl.length < 256)
    (hlt : ∀ q ∈ pl, q < c.next_id)
    (hin : ∀ q ∈ pl, cnt c q m = 1)
    (hout : ∀ p, p ∉ pl → cnt c p m = 0) :
    (c.getData m).output
      = Bool.xor (c.getData m).inverted (outcount c pl != pl.length) := by
  obtain ⟨hH, hI⟩ := Hdel0_spec m pl hnd hlt hin hout
  have hdz : (c.getUD m).inputs_delta = 0 :=
    (hinv.cl_off m (List.not_mem_nil m)).2
  have hfam := hinv.fam m
  unfold famOK at hfam
  rw [hgt] at hfam
  dsimp only at hfam
  rw [hdz, hH, hI] at hfam
  have hinb : (c.getData m).inputs < 256 := (hinv.sizes m).1
  have hocb : outcount c pl ≤ pl.length := outcount_le c pl
  have hcast : (((c.getData m).inputs + pl.length : Nat) : ZMod 256)
      = ((outcount c pl : Nat) : ZMod 256) := by
    push_cast at hfam ⊢
    linear_combination hfam
  have hmod : ((c.getData m).inputs + pl.length) % 256
      = outcount c pl % 256 := (ZMod.natCast_eq_natCast_iff _ _ _).mp hcast
  have key : (c.getData m).inputs = 0 ↔ outcount c pl = pl.length := by
    omega
  have hfor := hinv.formula m (by
    rw [hI]
    intro hx
    exact hne (List.length_eq_zero.mp hx))
  rw [hfor]
  unfold newOutputFormula
  rw [bne_of_iff _ _ _ _ key]

theorem gate_eval_xor {c : CircuitFast} (m : Nat) (pl : List Nat)
    (hinv : Inv c [] []) (hgt : (c.getData m).gate_type = .XorXnor)
    (hnd : pl.Nodup) (hne : pl ≠ [])
    (hlt : ∀ q ∈ pl, q < c.next_id)
    (hin : ∀ q ∈ pl, cnt c q m = 1)
    (hout : ∀ p, p ∉ pl → cnt c p m = 0) :
    (c.getData m).output
      = Bool.xor (c.getData m).inverted (outcount c pl % 2 != 0) := by
  obtain ⟨hH, hI⟩ := Hdel0_spec m pl hnd hlt hin hout
  have hdz : (c.getUD m).inputs_delta = 0 :=
    (hinv.cl_off m (List.not_mem_nil m)).2
  have hfam := hinv.fam m
  unfold famOK at hfam
  rw [hgt] at hfam
  dsimp only at hfam
  rw [hdz, hH] at hfam
  have hxb : (c.getData m).inputs ≤ 1 := hinv.xorb m hgt
  have hcast : (((c.getData m).inputs : Nat) : ZMod 2)
      = ((outcount c pl : Nat) : ZMod 2) := by
    push_cast at hfam ⊢
    linear_combination hfam
  have hmod : (c.getData m).inputs % 2 = outcount c pl % 2 :=
    (ZMod.natCast_eq_natCast_iff _ _ _).mp hcast
  have heq : (c.getData m).inputs = outcount c pl % 2 := by
    omega
  have hfor := hinv.formula m (by
    rw [hI]
    intro hx
    exact hne (List.length_eq_zero.mp hx))
  rw [hfor]
  unfold newOutputFormula
  rw [heq]

/-! ### The ripple-carry adder of `adder.rs`

`Connector::gate_gen` creates the gate node first and then connects each
input connector in argument order; `adder` builds `sum = xor!(a, b, cin)`
and `cout = or!(and!(a,b), and!(a,cin), and!(b,cin))`;
`RippleCarryAdder::new` starts from the `cin` connector and iterates the
full adder over the bits, threading the carry. -/

theorem connect_getUD_ne' (c : CircuitFast) (i o m : Nat) (h : m ≠ o) :
    (c.connect i o).getUD m = c.getUD m := by
  unfold connect
  dsimp only
  split
  · exact modify_getUD_ne _ o _ m h
  · rfl

theorem connect_facts {c : CircuitFast} {cl : List Nat} (i o : Nat)
    (hinv : Inv c [] cl) (hi : i < c.next_id) (ho : o < c.next_id)
    (hallf : AllF c) :
    (∃ cl', Inv (c.connect i o) [] cl') ∧ AllF (c.connect i o) ∧
    (c.connect i o).next_id = c.next_id ∧
    (∀ m, (c.connect i o).getData m = c.getData m) ∧
    (∀ m, m ≠ i → (c.connect i o).getChildren m = c.getChildren m) ∧
    (c.connect i o).getChildren i = c.getChildren i ++ [o] ∧
    (∀ m, m ≠ o → (c.connect i o).getUD m = c.getUD m) :=
  ⟨connect_Inv i o hinv hi ho (hallf o), connect_AllF i o hallf,
    connect_next_id c i o, connect_getData c i o,
    fun m hm => connect_getChildren_ne c i o m hm,
    connect_getChildren_self c i o (by rw [hinv.ch_len]; exact hi),
    fun m hm => connect_getUD_ne' c i o m hm⟩

theorem add_gate_facts {c : CircuitFast} {cl : List Nat} (gt : GateType)
    (iv : Bool) (hinv : Inv c [] cl) (hle : c.next_id + 1 ≤ NULL)
    (hallf : AllF c) :
    Inv (c.add_node gt iv).1 [] cl ∧ AllF (c.add_node gt iv).1 ∧
    (c.add_node gt iv).2 = c.next_id ∧
    (c.add_node gt iv).1.next_id = c.next_id + 1 ∧
    (∀ m, (c.add_node gt iv).1.getChildren m = c.getChildren m) ∧
    (∀ m, m ≠ c.next_id → (c.add_node gt iv).1.getData m = c.getData m) ∧
    (c.add_node gt iv).1.getData c.next_id =
      { next_update := NULL, output := iv, inputs := 0, inverted := iv,
        gate_type := gt } ∧
    (∀ m, (c.add_node gt iv).1.getUD m = c.getUD m) ∧
    (c.add_node gt iv).1.getChildren c.next_id = [] :=
  ⟨add_node_Inv gt iv hinv hle,
    add_node_AllF gt iv ⟨hinv.ch_len, hinv.data_len, hinv.ud_len⟩ hallf,
    rfl, add_node_next_id c gt iv, add_node_getChildren c gt iv,
    fun m hm => add_node_getData_ne c gt iv m hm,
    add_node_getData_self gt iv ⟨hinv.ch_len, hinv.data_len, hinv.ud_len⟩,
    add_node_getUD' c gt iv,
    add_node_getChildren_fresh gt iv
      ⟨hinv.ch_len, hinv.data_len, hinv.ud_len⟩⟩

theorem gate3_facts {c : CircuitFast} {cl : List Nat} (gt : GateType)
    (iv : Bool) (p1 p2 p3 : Nat)
    (hinv : Inv c [] cl) (hle : c.next_id + 1 ≤ NULL) (hallf : AllF c)
    (h1 : p1 < c.next_id) (h2 : p2 < c.next_id) (h3 : p3 < c.next_id)
    (h12 : p1 ≠ p2) (h13 : p1 ≠ p3) (h23 : p2 ≠ p3) :
    (∃ cl', Inv ((((c.add_node gt iv).1.connect p1 c.next_id).connect p2
        c.next_id).connect p3 c.next_id) [] cl') ∧
    AllF ((((c.add_node gt iv).1.connect p1 c.next_id).connect p2
        c.next_id).connect p3 c.next_id) ∧
    ((((c.add_node gt iv).1.connect p1 c.next_id).connect p2
        c.next_id).connect p3 c.next_id).next_id = c.next_id + 1 ∧
    (∀ m, m ≠ c.next_id →
      ((((c.add_node gt iv).1.connect p1 c.next_id).connect p2
        c.next_id).connect p3 c.next_id).getData m = c.getData m) ∧
    ((((c.add_node gt iv).1.connect p1 c.next_id).connect p2
        c.next_id).connect p3 c.next_id).getData c.next_id =
      { next_update := NULL, output := iv, inputs := 0, inverted := iv,
        gate_type := gt } ∧
    (∀ m, m ≠ p1 → m ≠ p2 → m ≠ p3 →
      ((((c.add_node gt iv).1.connect p1 c.next_id).connect p2
        c.next_id).connect p3 c.next_id).getChildren m
        = c.getChildren m) ∧
    ((((c.add_node gt iv).1.connect p1 c.next_id).connect p2
        c.next_id).connect p3 c.next_id).getChildren p1
      = c.getChildren p1 ++ [c.next_id] ∧
    ((((c.add_node gt iv).1.connect p1 c.next_id).connect p2
        c.next_id).connect p3 c.next_id).getChildren p2
      = c.getChildren p2 ++ [c.next_id] ∧
    ((((c.add_node gt iv).1.connect p1 c.next_id).connect p2
        c.next_id).connect p3 c.next_id).getChildren p3
      = c.getChildren p3 ++ [c.next_id] ∧
    (∀ m, m ≠ c.next_id →
      ((((c.add_node gt iv).1.connect p1 c.next_id).connect p2
        c.next_id).connect p3 c.next_id).getUD m = c.getUD m) ∧
    ((((c.add_node gt iv).1.connect p1 c.next_id).connect p2
        c.next_id).connect p3 c.next_id).getChildren c.next_id = [] := by
  obtain ⟨hIA, hFA, _, hnidA, hchA, hdneA, hdslfA, hudA, hfrA⟩ :=
    add_gate_facts gt iv hinv hle hallf
  have hg : c.next_id < (c.add_node gt iv).1.next_id := by
    rw [hnidA]
    omega
  obtain ⟨⟨cl1, hI1⟩, hF1, hnid1, hd1, hchne1, hchi1, hud1⟩ :=
    connect_facts p1 c.next_id hIA (by rw [hnidA]; omega) hg hFA
  obtain ⟨⟨cl2, hI2⟩, hF2, hnid2, hd2, hchne2, hchi2, hud2⟩ :=
    connect_facts p2 c.next_id hI1 (by rw [hnid1, hnidA]; omega)
      (by rw [hnid1]; exact hg) hF1
  obtain ⟨⟨cl3, hI3⟩, hF3, hnid3, hd3, hchne3, hchi3, hud3⟩ :=
    connect_facts p3 c.next_id hI2 (by rw [hnid2, hnid1, hnidA]; omega)
      (by rw [hnid2, hnid1]; exact hg) hF2
  have hn1 : p1 ≠ c.next_id := Nat.ne_of_lt h1
  have hn2 : p2 ≠ c.next_id := Nat.ne_of_lt h2
  have hn3 : p3 ≠ c.next_id := Nat.ne_of_lt h3
  refine ⟨⟨cl3, hI3⟩, hF3, ?_, ?_, ?_, ?_, ?_, ?_, ?_, ?_, ?_⟩
  · rw [hnid3, hnid2, hnid1, hnidA]
  · intro m hm
    rw [hd3 m, hd2 m, hd1 m, hdneA m hm]
  · rw [hd3 _, hd2 _, hd1 _, hdslfA]
  · intro m hm1 hm2 hm3
    rw [hchne3 m hm3, hchne2 m hm2, hchne1 m hm1, hchA m]
  · rw [hchne3 p1 h13, hchne2 p1 h12, hchi1, hchA p1]
  · rw [hchne3 p2 h23, hchi2, hchne1 p2 (fun hx => h12 hx.symm),
      hchA p2]
  · rw [hchi3, hchne2 p3 (fun hx => h23 hx.symm),
      hchne1 p3 (fun hx => h13 hx.symm), hchA p3]
  · intro m hm
    rw [hud3 m hm, hud2 m hm, hud1 m hm, hudA m]
  · rw [hchne3 _ hn3.symm, hchne2 _ hn2.symm, hchne1 _ hn1.symm, hfrA]

theorem gate2_facts {c : CircuitFast} {cl : List Nat} (gt : GateType)
    (iv : Bool) (p1 p2 : Nat)
    (hinv : Inv c [] cl) (hle : c.next_id + 1 ≤ NULL) (hallf : AllF c)
    (h1 : p1 < c.next_id) (h2 : p2 < c.next_id) (h12 : p1 ≠ p2) :
    (∃ cl', Inv (((c.add_node gt iv).1.connect p1 c.next_id).connect p2
        c.next_id) [] cl') ∧
    AllF (((c.add_node gt iv).1.connect p1 c.next_id).connect p2
        c.next_id) ∧
    (((c.add_node gt iv).1.connect p1 c.next_id).connect p2
        c.next_id).next_id = c.next_id + 1 ∧
    (∀ m, m ≠ c.next_id →
      (((c.add_node gt iv).1.connect p1 c.next_id).connect p2
        c.next_id).getData m = c.getData m) ∧
    (((c.add_node gt iv).1.connect p1 c.next_id).connect p2
        c.next_id).getData c.next_id =
      { next_update := NULL, output := iv, inputs := 0, inverted := iv,
        gate_type := gt } ∧
    (∀ m, m ≠ p1 → m ≠ p2 →
      (((c.add_node gt iv).1.connect p1 c.next_id).connect p2
        c.next_id).getChildren m = c.getChildren m) ∧
    (((c.add_node gt iv).1.connect p1 c.next_id).connect p2
        c.next_id).getChildren p1 = c.getChildren p1 ++ [c.next_id] ∧
    (((c.add_node gt iv).1.connect p1 c.next_id).connect p2
        c.next_id).getChildren p2 = c.getChildren p2 ++ [c.next_id] ∧
    (∀ m, m ≠ c.next_id →
      (((c.add_node gt iv).1.connect p1 c.next_id).connect p2
        c.next_id).getUD m = c.getUD m) ∧
    (((c.add_node gt iv).1.connect p1 c.next_id).connect p2
        c.next_id).getChildren c.next_id = [] := by
  obtain ⟨hIA, hFA, _, hnidA, hchA, hdneA, hdslfA, hudA, hfrA⟩ :=
    add_gate_facts gt iv hinv hle hallf
  have hg : c.next_id < (c.add_node gt iv).1.next_id := by
    rw [hnidA]
    omega
  obtain ⟨⟨cl1, hI1⟩, hF1, hnid1, hd1, hchne1, hchi1, hud1⟩ :=
    connect_facts p1 c.next_id hIA (by rw [hnidA]; omega) hg hFA
  obtain ⟨⟨cl2, hI2⟩, hF2, hnid2, hd2, hchne2, hchi2, hud2⟩ :=
    connect_facts p2 c.next_id hI1 (by rw [hnid1, hnidA]; omega)
      (by rw [hnid1]; exact hg) hF1
  have hn1 : p1 ≠ c.next_id := Nat.ne_of_lt h1
  have hn2 : p2 ≠ c.next_id := Nat.ne_of_lt h2
  refine ⟨⟨cl2, hI2⟩, hF2, ?_, ?_, ?_, ?_, ?_, ?_, ?_, ?_⟩
  · rw [hnid2, hnid1, hnidA]
  · intro m hm
    rw [hd2 m, hd1 m, hdneA m hm]
  · rw [hd2 _, hd1 _, hdslfA]
  · intro m hm1 hm2
    rw [hchne2 m hm2, hchne1 m hm1, hchA m]
  · rw [hchne2 p1 h12, hchi1, hchA p1]
  · rw [hchi2, hchne1 p2 (fun hx => h12 hx.symm), hchA p2]
  · intro m hm
    rw [hud2 m hm, hud1 m hm, hudA m]
  · rw [hchne2 _ hn2.symm, hchne1 _ hn1.symm, hfrA]

theorem input_eq (c : CircuitFast) : c.input = c.add_node .OrNor false := rfl

theorem or_eq (c : CircuitFast) : c.or = c.add_node .OrNor false := rfl

theorem xor_eq (c : CircuitFast) : c.xor = c.add_node .XorXnor false := rfl

theorem and_eq (c : CircuitFast) : c.and = c.add_node .AndNand true := rfl

/-- One full-adder stage (`adder` in `adder.rs`, via the builder's
`gate_gen`, which creates the gate node first and then connects the
input connectors in argument order): fresh inputs `a`, `b`, then
`sum = xor!(a, b, carry)` and
`cout = or!(and!(a, b), and!(a, carry), and!(b, carry))`. -/
def bitStep (cc : CircuitFast × Nat) : CircuitFast × Nat :=
  let (c, carry) := cc
  let (c, a) := c.input
  let (c, b) := c.input
  let (c, s) := c.xor
  let c := ((c.connect a s).connect b s).connect carry s
  let (c, ab) := c.and
  let c := (c.connect a ab).connect b ab
  let (c, ac) := c.and
  let c := (c.connect a ac).connect carry ac
  let (c, bc) := c.and
  let c := (c.connect b bc).connect carry bc
  let (c, co) := c.or
  let c := ((c.connect ab co).connect ac co).connect bc co
  (c, co)

/-- `RippleCarryAdder::<BITS>::new` on a fresh circuit, with the `cin`
connector of the source's test harness (`Connector::new`, a bare OR
node), iterating `adder` over the bits and threading the carry. -/
def rcaBuild : Nat → CircuitFast × Nat
  | 0 => CircuitFast.new.or
  | B + 1 => bitStep (rcaBuild B)

/-- Driving the adder inputs with the bits of `a` and `b`
(`set_input(input_a[i], ..); set_input(input_b[i], ..)` per bit). -/
def rcaDrive (a b : Nat) : Nat → CircuitFast → CircuitFast
  | 0, c => c
  | k + 1, c =>
    ((rcaDrive a b k c).set_input (7 * k + 1) (a.testBit k)).set_input
      (7 * k + 2) (b.testBit k)

/-- Static structure of the built `B`-bit adder: node `0` is the
carry-in OR; bit `i` occupies ids `7i+1 .. 7i+7` as
`a, b, sum, and_ab, and_ac, and_bc, cout`; the carry into bit `i` is
node `7i`. -/
structure RcaC (B : Nat) (c : CircuitFast) : Prop where
  nid : c.next_id = 7 * B + 1
  g0 : (c.getData 0).gate_type = .OrNor
  i0 : (c.getData 0).inverted = false
  gS : ∀ i, i < B → (c.getData (7 * i + 3)).gate_type = .XorXnor
  iS : ∀ i, i < B → (c.getData (7 * i + 3)).inverted = false
  gAB : ∀ i, i < B → (c.getData (7 * i + 4)).gate_type = .AndNand
  iAB : ∀ i, i < B → (c.getData (7 * i + 4)).inverted = true
  gAC : ∀ i, i < B → (c.getData (7 * i + 5)).gate_type = .AndNand
  iAC : ∀ i, i < B → (c.getData (7 * i + 5)).inverted = true
  gBC : ∀ i, i < B → (c.getData (7 * i + 6)).gate_type = .AndNand
  iBC : ∀ i, i < B → (c.getData (7 * i + 6)).inverted = true
  gCO : ∀ i, i < B → (c.getData (7 * i + 7)).gate_type = .OrNor
  iCO : ∀ i, i < B → (c.getData (7 * i + 7)).inverted = false
  chA : ∀ i, i < B → c.getChildren (7 * i + 1)
    = [7 * i + 3, 7 * i + 4, 7 * i + 5]
  chB : ∀ i, i < B → c.getChildren (7 * i + 2)
    = [7 * i + 3, 7 * i + 4, 7 * i + 6]
  chS : ∀ i, i < B → c.getChildren (7 * i + 3) = []
  chAB : ∀ i, i < B → c.getChildren (7 * i + 4) = [7 * i + 7]
  chAC : ∀ i, i < B → c.getChildren (7 * i + 5) = [7 * i + 7]
  chBC : ∀ i, i < B → c.getChildren (7 * i + 6) = [7 * i + 7]
  chC : ∀ i, i < B → c.getChildren (7 * i)
    = [7 * i + 3, 7 * i + 5, 7 * i + 6]
  chTop : c.getChildren (7 * B) = []

/-- Everything the later phases need about the freshly built adder. -/
structure RcaOK (B : Nat) (cc : CircuitFast × Nat) : Prop where
  carry : cc.2 = 7 * B
  st : RcaC B cc.1
  inv : ∃ cl, Inv cc.1 [] cl
  allf : AllF cc.1
  dIn : ∀ m, (m = 0 ∨ ∃ i, i < B ∧ (m = 7 * i + 1 ∨ m = 7 * i + 2)) →
    (cc.1.getUD m).inputs_delta = 0
  out0 : (cc.1.getData 0).output = false

theorem rcaBuild_zero_ok : RcaOK 0 (rcaBuild 0) := by
  have hle : CircuitFast.new.next_id + 1 ≤ NULL := by
    show 0 + 1 ≤ NULL
    unfold NULL
    omega
  have hallf : AllF CircuitFast.new := fun m => rfl
  obtain ⟨hIa, hFa, hsnda, hnida, hcha, hdnea, hdslfa, huda, hfra⟩ :=
    add_gate_facts .OrNor false new_Inv hle hallf
  have hd0 : (CircuitFast.new.add_node .OrNor false).1.getData 0 =
      { next_update := NULL, output := false, inputs := 0,
        inverted := false, gate_type := .OrNor } := hdslfa
  have hvac : ∀ (P : Nat → Prop) i, i < 0 → P i :=
    fun P i hi => absurd hi (Nat.not_lt_zero i)
  refine ⟨rfl, ⟨?_, ?_, ?_, hvac _, hvac _, hvac _, hvac _, hvac _, hvac _,
    hvac _, hvac _, hvac _, hvac _, hvac _, hvac _, hvac _, hvac _, hvac _,
    hvac _, hvac _, ?_⟩, ⟨[], ?_⟩, ?_, ?_, ?_⟩
  · show (CircuitFast.new.add_node .OrNor false).1.next_id = 7 * 0 + 1
    exact hnida
  · show ((CircuitFast.new.add_node .OrNor false).1.getData 0).gate_type
      = .OrNor
    rw [hd0]
  · show ((CircuitFast.new.add_node .OrNor false).1.getData 0).inverted
      = false
    rw [hd0]
  · show (CircuitFast.new.add_node .OrNor false).1.getChildren (7 * 0) = []
    exact hfra
  · exact hIa
  · exact hFa
  · intro m hm
    show ((CircuitFast.new.add_node .OrNor false).1.getUD m).inputs_delta
      = 0
    rw [huda m]
    rfl
  · show ((CircuitFast.new.add_node .OrNor false).1.getData 0).output
      = false
    rw [hd0]

set_option maxHeartbeats 2000000 in
set_option maxRecDepth 4000 in
theorem rcaBuild_succ_ok (B : Nat) (hB : 7 * B + 8 ≤ NULL)
    (ih : RcaOK B (rcaBuild B)) : RcaOK (B + 1) (rcaBuild (B + 1)) := by
  rcases hpr : rcaBuild B with ⟨c0, k⟩
  rw [hpr] at ih
  obtain ⟨hcar, hst, ⟨cl0, hinv0⟩, hallf0, hdin0, hout00⟩ := ih
  have hk : k = 7 * B := hcar
  subst hk
  dsimp only at hst hinv0 hallf0 hdin0 hout00
  have hn0 : c0.next_id = 7 * B + 1 := hst.nid
  -- unit A: input a, id 7B+1
  obtain ⟨hIa, hFa, _, hnida, hcha, hdnea, hdslfa, huda, hfra⟩ :=
    add_gate_facts .OrNor false hinv0 (by omega) hallf0
  set cA := (c0.add_node .OrNor false).1 with hcA
  clear_value cA
  have hnA : cA.next_id = 7 * B + 2 := by rw [hnida, hn0]
  -- unit b: input b, id 7B+2
  obtain ⟨hIb, hFb, _, hnidb, hchb, hdneb, hdslfb, hudb, hfrb⟩ :=
    add_gate_facts .OrNor false hIa (by omega) hFa
  set cB := (cA.add_node .OrNor false).1 with hcB
  clear_value cB
  have hnB : cB.next_id = 7 * B + 3 := by rw [hnidb, hnA]
  rw [hn0] at hdnea hdslfa hfra
  rw [hnA] at hdneb hdslfb hfrb
  -- unit S: xor sum, id 7B+3, inputs a b carry
  obtain ⟨hI3, hF3, hnid3, hdne3, hdslf3, hchne3, hchi3a, hchi3b, hchi3c,
      hud3, hfr3⟩ :=
    gate3_facts .XorXnor false c0.next_id cA.next_id (7 * B) hIb (by omega)
      hFb (by omega) (by omega) (by omega) (by omega) (by omega) (by omega)
  simp only [hn0, hnA, hnB] at hnid3 hdne3 hdslf3 hchne3 hchi3a hchi3b hchi3c hud3 hfr3 hI3 hF3
  set c3 := (((cB.add_node .XorXnor false).1.connect (7 * B + 1)
      (7 * B + 3)).connect (7 * B + 2) (7 * B + 3)).connect (7 * B)
      (7 * B + 3) with hc3
  clear_value c3
  have hn3 : c3.next_id = 7 * B + 4 := by omega
  obtain ⟨cl3, hI3'⟩ := hI3
  -- unit AB: and ab, id 7B+4, inputs a b
  obtain ⟨hI4, hF4, hnid4, hdne4, hdslf4, hchne4, hchi4a, hchi4b,
      hud4, hfr4⟩ :=
    gate2_facts .AndNand true (7 * B + 1) (7 * B + 2) hI3' (by omega) hF3
      (by omega) (by omega) (by omega)
  simp only [hn3] at hnid4 hdne4 hdslf4 hchne4 hchi4a hchi4b hud4 hfr4 hI4 hF4
  set c4 := ((c3.add_node .AndNand true).1.connect (7 * B + 1)
      (7 * B + 4)).connect (7 * B + 2) (7 * B + 4) with hc4
  clear_value c4
  have hn4 : c4.next_id = 7 * B + 5 := by omega
  obtain ⟨cl4, hI4'⟩ := hI4
  -- unit AC: and ac, id 7B+5, inputs a carry
  obtain ⟨hI5, hF5, hnid5, hdne5, hdslf5, hchne5, hchi5a, hchi5b,
      hud5, hfr5⟩ :=
    gate2_facts .AndNand true (7 * B + 1) (7 * B) hI4' (by omega) hF4
      (by omega) (by omega) (by omega)
  simp only [hn4] at hnid5 hdne5 hdslf5 hchne5 hchi5a hchi5b hud5 hfr5 hI5 hF5
  set c5 := ((c4.add_node .AndNand true).1.connect (7 * B + 1)
      (7 * B + 5)).connect (7 * B) (7 * B + 5) with hc5
  clear_value c5
  have hn5 : c5.next_id = 7 * B + 6 := by omega
  obtain ⟨cl5, hI5'⟩ := hI5
  -- unit BC: and bc, id 7B+6, inputs b carry
  obtain ⟨hI6, hF6, hnid6, hdne6, hdslf6, hchne6, hchi6a, hchi6b,
      hud6, hfr6⟩ :=
    gate2_facts .AndNand true (7 * B + 2) (7 * B) hI5' (by omega) hF5
      (by omega) (by omega) (by omega)
  simp only [hn5] at hnid6 hdne6 hdslf6 hchne6 hchi6a hchi6b hud6 hfr6 hI6 hF6
  set c6 := ((c5.add_node .AndNand true).1.connect (7 * B + 2)
      (7 * B + 6)).connect (7 * B) (7 * B + 6) with hc6
  clear_value c6
  have hn6 : c6.next_id = 7 * B + 7 := by omega
  obtain ⟨cl6, hI6'⟩ := hI6
  -- unit CO: or cout, id 7B+7, inputs ab ac bc
  obtain ⟨hI7, hF7, hnid7, hdne7, hdslf7, hchne7, hchi7a, hchi7b, hchi7c,
      hud7, hfr7⟩ :=
    gate3_facts .OrNor false (7 * B + 4) (7 * B + 5) (7 * B + 6) hI6'
      (by omega) hF6 (by omega) (by omega) (by omega) (by omega) (by omega)
      (by omega)
  simp only [hn6] at hnid7 hdne7 hdslf7 hchne7 hchi7a hchi7b hchi7c hud7 hfr7 hI7 hF7
  set c7 := (((c6.add_node .OrNor false).1.connect (7 * B + 4)
      (7 * B + 7)).connect (7 * B + 5) (7 * B + 7)).connect (7 * B + 6)
      (7 * B + 7) with hc7
  clear_value c7
  have hn7 : c7.next_id = 7 * B + 8 := by omega
  -- composite preservation for old nodes
  have hDp : ∀ m, m < 7 * B + 1 → c7.getData m = c0.getData m := by
    intro m hm
    rw [hdne7 m (by omega), hdne6 m (by omega), hdne5 m (by omega),
      hdne4 m (by omega), hdne3 m (by omega), hdneb m (by omega),
      hdnea m (by omega)]
  have hCp : ∀ m, m < 7 * B + 1 → m ≠ 7 * B →
      c7.getChildren m = c0.getChildren m := by
    intro m hm hm0
    rw [hchne7 m (by omega) (by omega) (by omega),
      hchne6 m (by omega) hm0, hchne5 m (by omega) hm0,
      hchne4 m (by omega) (by omega),
      hchne3 m (by omega) (by omega) hm0, hchb m, hcha m]
  have hUp : ∀ m, m < 7 * B + 3 → c7.getUD m = c0.getUD m := by
    intro m hm
    rw [hud7 m (by omega), hud6 m (by omega), hud5 m (by omega),
      hud4 m (by omega), hud3 m (by omega), hudb m, huda m]
  -- data of the new nodes in the final circuit
  have hDa : c7.getData (7 * B + 1) =
      { next_update := NULL, output := false, inputs := 0,
        inverted := false, gate_type := .OrNor } := by
    rw [hdne7 _ (by omega), hdne6 _ (by omega), hdne5 _ (by omega),
      hdne4 _ (by omega), hdne3 _ (by omega), hdneb _ (by omega), hdslfa]
  have hDb : c7.getData (7 * B + 2) =
      { next_update := NULL, output := false, inputs := 0,
        inverted := false, gate_type := .OrNor } := by
    rw [hdne7 _ (by omega), hdne6 _ (by omega), hdne5 _ (by omega),
      hdne4 _ (by omega), hdne3 _ (by omega), hdslfb]
  have hDs : c7.getData (7 * B + 3) =
      { next_update := NULL, output := false, inputs := 0,
        inverted := false, gate_type := .XorXnor } := by
    rw [hdne7 _ (by omega), hdne6 _ (by omega), hdne5 _ (by omega),
      hdne4 _ (by omega), hdslf3]
  have hDab : c7.getData (7 * B + 4) =
      { next_update := NULL, output := true, inputs := 0,
        inverted := true, gate_type := .AndNand } := by
    rw [hdne7 _ (by omega), hdne6 _ (by omega), hdne5 _ (by omega),
      hdslf4]
  have hDac : c7.getData (7 * B + 5) =
      { next_update := NULL, output := true, inputs := 0,
        inverted := true, gate_type := .AndNand } := by
    rw [hdne7 _ (by omega), hdne6 _ (by omega), hdslf5]
  have hDbc : c7.getData (7 * B + 6) =
      { next_update := NULL, output := true, inputs := 0,
        inverted := true, gate_type := .AndNand } := by
    rw [hdne7 _ (by omega), hdslf6]
  have hDco : c7.getData (7 * B + 7) =
      { next_update := NULL, output := false, inputs := 0,
        inverted := false, gate_type := .OrNor } := hdslf7
  -- children of the new stage
  have hChA : c7.getChildren (7 * B + 1)
      = [7 * B + 3, 7 * B + 4, 7 * B + 5] := by
    rw [hchne7 _ (by omega) (by omega) (by omega),
      hchne6 _ (by omega) (by omega), hchi5a, hchi4a, hchi3a, hchb _,
      hfra]
    rfl
  have hChB : c7.getChildren (7 * B + 2)
      = [7 * B + 3, 7 * B + 4, 7 * B + 6] := by
    rw [hchne7 _ (by omega) (by omega) (by omega), hchi6a,
      hchne5 _ (by omega) (by omega), hchi4b, hchi3b, hfrb]
    rfl
  have hChS : c7.getChildren (7 * B + 3) = [] := by
    rw [hchne7 _ (by omega) (by omega) (by omega),
      hchne6 _ (by omega) (by omega), hchne5 _ (by omega) (by omega),
      hchne4 _ (by omega) (by omega), hfr3]
  have hChAB : c7.getChildren (7 * B + 4) = [7 * B + 7] := by
    rw [hchi7a, hchne6 _ (by omega) (by omega),
      hchne5 _ (by omega) (by omega), hfr4]
    rfl
  have hChAC : c7.getChildren (7 * B + 5) = [7 * B + 7] := by
    rw [hchi7b, hchne6 _ (by omega) (by omega), hfr5]
    rfl
  have hChBC : c7.getChildren (7 * B + 6) = [7 * B + 7] := by
    rw [hchi7c, hfr6]
    rfl
  have hChCy : c7.getChildren (7 * B) = [7 * B + 3, 7 * B + 5, 7 * B + 6]
      := by
    rw [hchne7 _ (by omega) (by omega) (by omega), hchi6b, hchi5b,
      hchne4 _ (by omega) (by omega), hchi3c, hchb _, hcha _, hst.chTop]
    rfl
  have hChCo : c7.getChildren (7 * B + 7) = [] := hfr7
  -- assemble
  have e1 : c0.input = (cA, 7 * B + 1) := by
    rw [hcA, ← hn0]
    rfl
  have e2 : cA.input = (cB, 7 * B + 2) := by
    rw [hcB, ← hnA]
    rfl
  have e3 : cB.xor = ((cB.add_node .XorXnor false).1, 7 * B + 3) := by
    rw [← hnB]
    rfl
  have e4 : c3.and = ((c3.add_node .AndNand true).1, 7 * B + 4) := by
    rw [← hn3]
    rfl
  have e5 : c4.and = ((c4.add_node .AndNand true).1, 7 * B + 5) := by
    rw [← hn4]
    rfl
  have e6 : c5.and = ((c5.add_node .AndNand true).1, 7 * B + 6) := by
    rw [← hn5]
    rfl
  have e7 : c6.or = ((c6.add_node .OrNor false).1, 7 * B + 7) := by
    rw [← hn6]
    rfl
  have hpair : bitStep (c0, 7 * B) = (c7, 7 * B + 7) := by
    simp only [bitStep, e1, e2, e3]
    simp only [← hc3]
    simp only [e4]
    simp only [← hc4]
    simp only [e5]
    simp only [← hc5]
    simp only [e6]
    simp only [← hc6]
    simp only [e7]
    rw [← hc7]
  simp only [rcaBuild]
  rw [hpr, hpair]
  obtain ⟨cl7, hI7'⟩ := hI7
  have hsplit : ∀ i, i < B + 1 → i < B ∨ i = B := by
    intro i hi
    omega
  refine ⟨by show 7 * B + 7 = 7 * (B + 1); omega,
    ⟨?_, ?_, ?_, ?_, ?_, ?_, ?_, ?_, ?_, ?_, ?_, ?_, ?_, ?_,
    ?_, ?_, ?_, ?_, ?_, ?_, ?_⟩, ⟨cl7, hI7'⟩, hF7, ?_, ?_⟩
  · show c7.next_id = 7 * (B + 1) + 1
    rw [hn7]
    omega
  · show (c7.getData 0).gate_type = .OrNor
    rw [hDp 0 (by omega)]
    exact hst.g0
  · show (c7.getData 0).inverted = false
    rw [hDp 0 (by omega)]
    exact hst.i0
  · intro i hi
    rcases hsplit i hi with hi2 | rfl
    · show (c7.getData (7 * i + 3)).gate_type = .XorXnor
      rw [hDp _ (by omega)]
      exact hst.gS i hi2
    · show (c7.getData (7 * i + 3)).gate_type = .XorXnor
      rw [hDs]
  · intro i hi
    rcases hsplit i hi with hi2 | rfl
    · show (c7.getData (7 * i + 3)).inverted = false
      rw [hDp _ (by omega)]
      exact hst.iS i hi2
    · show (c7.getData (7 * i + 3)).inverted = false
      rw [hDs]
  · intro i hi
    rcases hsplit i hi with hi2 | rfl
    · show (c7.getData (7 * i + 4)).gate_type = .AndNand
      rw [hDp _ (by omega)]
      exact hst.gAB i hi2
    · show (c7.getData (7 * i + 4)).gate_type = .AndNand
      rw [hDab]
  · intro i hi
    rcases hsplit i hi with hi2 | rfl
    · show (c7.getData (7 * i + 4)).inverted = true
      rw [hDp _ (by omega)]
      exact hst.iAB i hi2
    · show (c7.getData (7 * i + 4)).inverted = true
      rw [hDab]
  · intro i hi
    rcases hsplit i hi with hi2 | rfl
    · show (c7.getData (7 * i + 5)).gate_type = .AndNand
      rw [hDp _ (by omega)]
      exact hst.gAC i hi2
    · show (c7.getData (7 * i + 5)).gate_type = .AndNand
      rw [hDac]
  · intro i hi
    rcases hsplit i hi with hi2 | rfl
    · show (c7.getData (7 * i + 5)).inverted = true
      rw [hDp _ (by omega)]
      exact hst.iAC i hi2
    · show (c7.getData (7 * i + 5)).inverted = true
      rw [hDac]
  · intro i hi
    rcases hsplit i hi with hi2 | rfl
    · show (c7.getData (7 * i + 6)).gate_type = .AndNand
      rw [hDp _ (by omega)]
      exact hst.gBC i hi2
    · show (c7.getData (7 * i + 6)).gate_type = .AndNand
      rw [hDbc]
  · intro i hi
    rcases hsplit i hi with hi2 | rfl
    · show (c7.getData (7 * i + 6)).inverted = true
      rw [hDp _ (by omega)]
      exact hst.iBC i hi2
    · show (c7.getData (7 * i + 6)).inverted = true
      rw [hDbc]
  · intro i hi
    rcases hsplit i hi with hi2 | rfl
    · show (c7.getData (7 * i + 7)).gate_type = .OrNor
      rw [hDp _ (by omega)]
      exact hst.gCO i hi2
    · show (c7.getData (7 * i + 7)).gate_type = .OrNor
      rw [hDco]
  · intro i hi
    rcases hsplit i hi with hi2 | rfl
    · show (c7.getData (7 * i + 7)).inverted = false
      rw [hDp _ (by omega)]
      exact hst.iCO i hi2
    · show (c7.getData (7 * i + 7)).inverted = false
      rw [hDco]
  · intro i hi
    rcases hsplit i hi with hi2 | rfl
    · show c7.getChildren (7 * i + 1) = [7 * i + 3, 7 * i + 4, 7 * i + 5]
      rw [hCp _ (by omega) (by omega)]
      exact hst.chA i hi2
    · exact hChA
  · intro i hi
    rcases hsplit i hi with hi2 | rfl
    · show c7.getChildren (7 * i + 2) = [7 * i + 3, 7 * i + 4, 7 * i + 6]
      rw [hCp _ (by omega) (by omega)]
      exact hst.chB i hi2
    · exact hChB
  · intro i hi
    rcases hsplit i hi with hi2 | rfl
    · show c7.getChildren (7 * i + 3) = []
      rw [hCp _ (by omega) (by omega)]
      exact hst.chS i hi2
    · exact hChS
  · intro i hi
    rcases hsplit i hi with hi2 | rfl
    · show c7.getChildren (7 * i + 4) = [7 * i + 7]
      rw [hCp _ (by omega) (by omega)]
      exact hst.chAB i hi2
    · exact hChAB
  · intro i hi
    rcases hsplit i hi with hi2 | rfl
    · show c7.getChildren (7 * i + 5) = [7 * i + 7]
      rw [hCp _ (by omega) (by omega)]
      exact hst.chAC i hi2
    · exact hChAC
  · intro i hi
    rcases hsplit i hi with hi2 | rfl
    · show c7.getChildren (7 * i + 6) = [7 * i + 7]
      rw [hCp _ (by omega) (by omega)]
      exact hst.chBC i hi2
    · exact hChBC
  · intro i hi
    rcases hsplit i hi with hi2 | rfl
    · show c7.getChildren (7 * i) = [7 * i + 3, 7 * i + 5, 7 * i + 6]
      rw [hCp _ (by omega) (by omega)]
      exact hst.chC i hi2
    · exact hChCy
  · show c7.getChildren (7 * (B + 1)) = []
    rw [show 7 * (B + 1) = 7 * B + 7 from by omega]
    exact hChCo
  · intro m hm
    show (c7.getUD m).inputs_delta = 0
    rcases hm with rfl | ⟨i, hi, hm⟩
    · rw [hUp 0 (by omega)]
      exact hdin0 0 (Or.inl rfl)
    · rcases hsplit i hi with hi2 | rfl
      · rcases hm with rfl | rfl
        · rw [hUp _ (by omega)]
          exact hdin0 _ (Or.inr ⟨i, hi2, Or.inl rfl⟩)
        · rw [hUp _ (by omega)]
          exact hdin0 _ (Or.inr ⟨i, hi2, Or.inr rfl⟩)
      · rcases hm with rfl | rfl
        · rw [hUp _ (by omega), getUD_default c0 _ (by
            rw [hinv0.ud_len, hn0])]
        · rw [hUp _ (by omega), getUD_default c0 _ (by
            rw [hinv0.ud_len, hn0]
            omega)]
  · show (c7.getData 0).output = false
    rw [hDp 0 (by omega)]
    exact hout00

/-- The full build: structure, invariant and zeroed deltas for every
`B` whose ids fit below `NULL`. -/
theorem rcaBuild_ok : ∀ B : Nat, 7 * B + 8 ≤ NULL → RcaOK B (rcaBuild B) := by
  intro B
  induction B with
  | zero => intro _; exact rcaBuild_zero_ok
  | succ n ih =>
    intro hB
    have hmono : 7 * n + 8 ≤ 7 * (n + 1) + 8 := by omega
    exact rcaBuild_succ_ok n (le_trans hmono hB) (ih (le_trans hmono hB))

/-! ### Driving the inputs of the built adder -/

theorem set_input_facts (c : CircuitFast) (n : Nat) (v : Bool)
    (hnu : (c.getData n).next_update = NULL)
    (hdl : n < c.node_data.length) :
    ((c.set_input n v).getData n).output = v ∧
    ((c.set_input n v).getData n).inputs = (c.getData n).inputs ∧
    ((c.set_input n v).getData n).inverted = (c.getData n).inverted ∧
    ((c.set_input n v).getData n).gate_type = (c.getData n).gate_type ∧
    (∀ m, m ≠ n → (c.set_input n v).getData m = c.getData m) ∧
    (∀ m, (c.set_input n v).getUD m = c.getUD m) ∧
    (∀ m, (c.set_input n v).getChildren m = c.getChildren m) ∧
    (c.set_input n v).next_id = c.next_id ∧
    (c.set_input n v).node_data.length = c.node_data.length := by
  rcases Decidable.em ((c.getData n).output = v) with he | he
  · have hsame : c.set_input n v = c := by
      unfold set_input
      dsimp only
      rw [if_neg (fun hx => hx he)]
    rw [hsame]
    exact ⟨he, rfl, rfl, rfl, fun _ _ => rfl, fun _ => rfl, fun _ => rfl,
      rfl, rfl⟩
  · obtain ⟨hd, _, hne, hud, hch, hni, _, hlen, _, _⟩ :=
      set_input_pass c n v he hnu hdl
    refine ⟨?_, ?_, ?_, ?_, hne, hud, hch, hni, hlen⟩
    · rw [hd]
    · rw [hd]
    · rw [hd]
    · rw [hd]

/-- Every edge of the built adder goes from a carry, input or AND node
to a sum, AND or carry-out node of the same stage. -/
theorem rca_edges {B : Nat} {c : CircuitFast}
    (hst : RcaC B c) (hlen : c.node_children.length = c.next_id)
    (p m : Nat) (hm : m ∈ c.getChildren p) :
    ∃ i, i < B ∧
      ((p = 7 * i ∧ (m = 7 * i + 3 ∨ m = 7 * i + 5 ∨ m = 7 * i + 6)) ∨
       (p = 7 * i + 1 ∧ (m = 7 * i + 3 ∨ m = 7 * i + 4 ∨ m = 7 * i + 5)) ∨
       (p = 7 * i + 2 ∧ (m = 7 * i + 3 ∨ m = 7 * i + 4 ∨ m = 7 * i + 6)) ∨
       (p = 7 * i + 4 ∧ m = 7 * i + 7) ∨
       (p = 7 * i + 5 ∧ m = 7 * i + 7) ∨
       (p = 7 * i + 6 ∧ m = 7 * i + 7)) := by
  have hnid := hst.nid
  rcases Nat.lt_or_ge p (7 * B + 1) with hp | hp
  · rcases Nat.lt_or_ge p (7 * B) with hp' | hp'
    · obtain ⟨r, i, hpe, hr7⟩ : ∃ r i, p = 7 * i + r ∧ r < 7 :=
        ⟨p % 7, p / 7, by omega, Nat.mod_lt _ (by omega)⟩
      subst hpe
      have hiB : i < B := by omega
      interval_cases r
      · rw [Nat.add_zero] at hm
        rw [hst.chC i hiB] at hm
        simp only [List.mem_cons, List.not_mem_nil, or_false] at hm
        exact ⟨i, hiB, Or.inl ⟨rfl, hm⟩⟩
      · rw [hst.chA i hiB] at hm
        simp only [List.mem_cons, List.not_mem_nil, or_false] at hm
        exact ⟨i, hiB, Or.inr (Or.inl ⟨rfl, hm⟩)⟩
      · rw [hst.chB i hiB] at hm
        simp only [List.mem_cons, List.not_mem_nil, or_false] at hm
        exact ⟨i, hiB, Or.inr (Or.inr (Or.inl ⟨rfl, hm⟩))⟩
      · rw [hst.chS i hiB] at hm
        exact absurd hm (List.not_mem_nil m)
      · rw [hst.chAB i hiB] at hm
        simp only [List.mem_cons, List.not_mem_nil, or_false] at hm
        exact ⟨i, hiB, Or.inr (Or.inr (Or.inr (Or.inl ⟨rfl, hm⟩)))⟩
      · rw [hst.chAC i hiB] at hm
        simp only [List.mem_cons, List.not_mem_nil, or_false] at hm
        exact ⟨i, hiB, Or.inr (Or.inr (Or.inr (Or.inr (Or.inl ⟨rfl, hm⟩))))⟩
      · rw [hst.chBC i hiB] at hm
        simp only [List.mem_cons, List.not_mem_nil, or_false] at hm
        exact ⟨i, hiB,
          Or.inr (Or.inr (Or.inr (Or.inr (Or.inr ⟨rfl, hm⟩))))⟩
    · have hp7 : p = 7 * B := by omega
      subst hp7
      rw [hst.chTop] at hm
      exact absurd hm (List.not_mem_nil m)
  · rw [getChildren_default c p (by rw [hlen, hnid]; exact hp)] at hm
    exact absurd hm (List.not_mem_nil m)

/-- Input nodes (`7k+1`, `7k+2`) are nobody's child. -/
theorem rca_input_not_child {B : Nat} {c : CircuitFast}
    (hst : RcaC B c) (hlen : c.node_children.length = c.next_id)
    {k r : Nat} (hr : r = 1 ∨ r = 2) (p : Nat) :
    7 * k + r ∉ c.getChildren p := by
  intro hm
  obtain ⟨i, _, hsh⟩ := rca_edges hst hlen p _ hm
  rcases hr with rfl | rfl <;>
    rcases hsh with ⟨_, h⟩ | ⟨_, h⟩ | ⟨_, h⟩ | ⟨_, h⟩ | ⟨_, h⟩ | ⟨_, h⟩ <;>
    omega

/-- Node `0` (the carry-in) is nobody's child. -/
theorem rca_zero_not_child {B : Nat} {c : CircuitFast}
    (hst : RcaC B c) (hlen : c.node_children.length = c.next_id)
    (p : Nat) : 0 ∉ c.getChildren p := by
  intro hm
  obtain ⟨i, _, hsh⟩ := rca_edges hst hlen p _ hm
  rcases hsh with ⟨_, h⟩ | ⟨_, h⟩ | ⟨_, h⟩ | ⟨_, h⟩ | ⟨_, h⟩ | ⟨_, h⟩ <;>
    omega

theorem count_cons_ne (a b : Nat) (l : List Nat) (h : b ≠ a) :
    (b :: l).count a = l.count a := by
  rw [List.count_cons, if_neg (fun hc => h (beq_iff_eq.mp hc)),
    Nat.add_zero]

theorem count_cons_self (a b : Nat) (l : List Nat) (h : b = a) :
    (b :: l).count a = l.count a + 1 := by
  rw [List.count_cons, if_pos (beq_iff_eq.mpr h)]

theorem cnt_of_children {c : CircuitFast} {p : Nat} {l : List Nat}
    (h : c.getChildren p = l) (m : Nat) : cnt c p m = l.count m := by
  unfold cnt
  rw [h]

theorem outcount2_eq (c : CircuitFast) (p q : Nat) :
    outcount c [p, q]
      = (if (c.getData p).output then 1 else 0)
        + ((if (c.getData q).output then 1 else 0) + 0) := rfl

theorem outcount3_eq (c : CircuitFast) (p q r : Nat) :
    outcount c [p, q, r]
      = (if (c.getData p).output then 1 else 0)
        + ((if (c.getData q).output then 1 else 0)
          + ((if (c.getData r).output then 1 else 0) + 0)) := rfl

/-- A quiescent 2-input AND gate (inverted AND-family node) computes
the conjunction of its producers. -/
theorem and2_out {c : CircuitFast} {m p q : Nat} (hinv : Inv c [] [])
    (hgt : (c.getData m).gate_type = .AndNand)
    (hiv : (c.getData m).inverted = true)
    (hpq : p ≠ q) (hplt : p < c.next_id) (hqlt : q < c.next_id)
    (hcp : cnt c p m = 1) (hcq : cnt c q m = 1)
    (hz : ∀ x, x ≠ p → x ≠ q → cnt c x m = 0) :
    (c.getData m).output
      = ((c.getData p).output && (c.getData q).output) := by
  have hnd : ([p, q] : List Nat).Nodup := by
    simp only [List.nodup_cons, List.mem_cons, List.not_mem_nil, or_false,
      List.nodup_nil, and_true, not_false_iff]
    exact hpq
  have hin : ∀ x ∈ ([p, q] : List Nat), cnt c x m = 1 := by
    intro x hx
    simp only [List.mem_cons, List.not_mem_nil, or_false] at hx
    rcases hx with rfl | rfl
    · exact hcp
    · exact hcq
  have hzz : ∀ x, x ∉ ([p, q] : List Nat) → cnt c x m = 0 := by
    intro x hx
    simp only [List.mem_cons, List.not_mem_nil, or_false, not_or] at hx
    exact hz x hx.1 hx.2
  have hlt : ∀ x ∈ ([p, q] : List Nat), x < c.next_id := by
    intro x hx
    simp only [List.mem_cons, List.not_mem_nil, or_false] at hx
    rcases hx with rfl | rfl
    · exact hplt
    · exact hqlt
  have h := gate_eval_and m [p, q] hinv hgt hnd (by simp)
    (by norm_num) hlt hin hzz
  rw [h, hiv, outcount2_eq]
  cases h1 : (c.getData p).output <;> cases h2 : (c.getData q).output <;>
    rfl

/-- A quiescent 3-input OR gate computes the disjunction of its
producers. -/
theorem or3_out {c : CircuitFast} {m p q r : Nat} (hinv : Inv c [] [])
    (hgt : (c.getData m).gate_type = .OrNor)
    (hiv : (c.getData m).inverted = false)
    (hpq : p ≠ q) (hpr : p ≠ r) (hqr : q ≠ r)
    (hplt : p < c.next_id) (hqlt : q < c.next_id) (hrlt : r < c.next_id)
    (hcp : cnt c p m = 1) (hcq : cnt c q m = 1) (hcr : cnt c r m = 1)
    (hz : ∀ x, x ≠ p → x ≠ q → x ≠ r → cnt c x m = 0) :
    (c.getData m).output
      = ((c.getData p).output || (c.getData q).output
        || (c.getData r).output) := by
  have hnd : ([p, q, r] : List Nat).Nodup := by
    simp only [List.nodup_cons, List.mem_cons, List.not_mem_nil, or_false,
      List.nodup_nil, and_true, not_or]
    exact ⟨⟨hpq, hpr⟩, hqr, not_false⟩
  have hin : ∀ x ∈ ([p, q, r] : List Nat), cnt c x m = 1 := by
    intro x hx
    simp only [List.mem_cons, List.not_mem_nil, or_false] at hx
    rcases hx with rfl | rfl | rfl
    · exact hcp
    · exact hcq
    · exact hcr
  have hzz : ∀ x, x ∉ ([p, q, r] : List Nat) → cnt c x m = 0 := by
    intro x hx
    simp only [List.mem_cons, List.not_mem_nil, or_false, not_or] at hx
    exact hz x hx.1 hx.2.1 hx.2.2
  have hlt : ∀ x ∈ ([p, q, r] : List Nat), x < c.next_id := by
    intro x hx
    simp only [List.mem_cons, List.not_mem_nil, or_false] at hx
    rcases hx with rfl | rfl | rfl
    · exact hplt
    · exact hqlt
    · exact hrlt
  have h := gate_eval_or m [p, q, r] hinv hgt hnd (by simp)
    (by norm_num) hlt hin hzz
  rw [h, hiv, outcount3_eq]
  cases h1 : (c.getData p).output <;> cases h2 : (c.getData q).output <;>
    cases h3 : (c.getData r).output <;> rfl

/-- A quiescent 3-input XOR gate computes the parity of its
producers. -/
theorem xor3_out {c : CircuitFast} {m p q r : Nat} (hinv : Inv c [] [])
    (hgt : (c.getData m).gate_type = .XorXnor)
    (hiv : (c.getData m).inverted = false)
    (hpq : p ≠ q) (hpr : p ≠ r) (hqr : q ≠ r)
    (hplt : p < c.next_id) (hqlt : q < c.next_id) (hrlt : r < c.next_id)
    (hcp : cnt c p m = 1) (hcq : cnt c q m = 1) (hcr : cnt c r m = 1)
    (hz : ∀ x, x ≠ p → x ≠ q → x ≠ r → cnt c x m = 0) :
    (c.getData m).output
      = Bool.xor (Bool.xor (c.getData p).output (c.getData q).output)
          (c.getData r).output := by
  have hnd : ([p, q, r] : List Nat).Nodup := by
    simp only [List.nodup_cons, List.mem_cons, List.not_mem_nil, or_false,
      List.nodup_nil, and_true, not_or]
    exact ⟨⟨hpq, hpr⟩, hqr, not_false⟩
  have hin : ∀ x ∈ ([p, q, r] : List Nat), cnt c x m = 1 := by
    intro x hx
    simp only [List.mem_cons, List.not_mem_nil, or_false] at hx
    rcases hx with rfl | rfl | rfl
    · exact hcp
    · exact hcq
    · exact hcr
  have hzz : ∀ x, x ∉ ([p, q, r] : List Nat) → cnt c x m = 0 := by
    intro x hx
    simp only [List.mem_cons, List.not_mem_nil, or_false, not_or] at hx
    exact hz x hx.1 hx.2.1 hx.2.2
  have hlt : ∀ x ∈ ([p, q, r] : List Nat), x < c.next_id := by
    intro x hx
    simp only [List.mem_cons, List.not_mem_nil, or_false] at hx
    rcases hx with rfl | rfl | rfl
    · exact hplt
    · exact hqlt
    · exact hrlt
  have h := gate_eval_xor m [p, q, r] hinv hgt hnd (by simp) hlt hin hzz
  rw [h, hiv, outcount3_eq]
  cases h1 : (c.getData p).output <;> cases h2 : (c.getData q).output <;>
    cases h3 : (c.getData r).output <;> rfl

/-- Driving the first `k` input pairs of the built `B`-bit adder: the
accounting invariant persists with the pending-update list confined
to the driven inputs, the driven inputs read the operand bits, and all
other state is untouched. -/
theorem rcaDrive_ok (B : Nat) (hB : 7 * B + 8 ≤ NULL) (a b : Nat) :
    ∀ k, k ≤ B →
    ∃ ul cl,
      Inv (rcaDrive a b k (rcaBuild B).1) ul cl ∧
      (∀ q ∈ ul, ∃ j, j < k ∧ (q = 7 * j + 1 ∨ q = 7 * j + 2)) ∧
      (∀ j, j < k →
        ((rcaDrive a b k (rcaBuild B).1).getData (7 * j + 1)).output
            = a.testBit j ∧
          ((rcaDrive a b k (rcaBuild B).1).getData (7 * j + 2)).output
            = b.testBit j) ∧
      (∀ m, (∀ j, j < k → m ≠ 7 * j + 1 ∧ m ≠ 7 * j + 2) →
        (rcaDrive a b k (rcaBuild B).1).getData m
          = (rcaBuild B).1.getData m) ∧
      (∀ m, (rcaDrive a b k (rcaBuild B).1).getUD m
          = (rcaBuild B).1.getUD m) ∧
      (∀ m, (rcaDrive a b k (rcaBuild B).1).getChildren m
          = (rcaBuild B).1.getChildren m) ∧
      (rcaDrive a b k (rcaBuild B).1).next_id
        = (rcaBuild B).1.next_id := by
  obtain ⟨hcar, hst, ⟨cl0, hinv0⟩, hallf0, hdin0, hout00⟩ :=
    rcaBuild_ok B hB
  intro k
  induction k with
  | zero =>
    intro _
    exact ⟨[], cl0, hinv0, fun q hq => absurd hq (List.not_mem_nil q),
      fun j hj => absurd hj (Nat.not_lt_zero j),
      fun m _ => rfl, fun m => rfl, fun m => rfl, rfl⟩
  | succ k ih =>
    intro hk1
    have hkB : k < B := hk1
    obtain ⟨ul, cl, hI, hsh, hout, hpres, hud, hch, hni⟩ :=
      ih (Nat.le_of_lt hkB)
    simp only [rcaDrive]
    set cb := (rcaBuild B).1 with hcbdef
    set ck := rcaDrive a b k cb with hckdef
    clear_value ck
    have hnid : ck.next_id = 7 * B + 1 := by
      rw [hni]
      exact hst.nid
    have hchlen : cb.node_children.length = cb.next_id := hinv0.ch_len
    have hnoc1 : ∀ p, (7 * k + 1) ∉ ck.getChildren p := by
      intro p
      rw [hch p]
      exact rca_input_not_child hst hchlen (Or.inl rfl) p
    have hnoc2b : ∀ p, (7 * k + 2) ∉ ck.getChildren p := by
      intro p
      rw [hch p]
      exact rca_input_not_child hst hchlen (Or.inr rfl) p
    have hnul1 : (7 * k + 1) ∉ ul := by
      intro hmem
      obtain ⟨j, hj, hq⟩ := hsh _ hmem
      rcases hq with h | h <;> omega
    have hlt1 : 7 * k + 1 < ck.next_id := by
      rw [hnid]
      omega
    have hI1 := set_input_Inv (7 * k + 1) (a.testBit k) hI hlt1 hnul1 hnoc1
    have hnu1 : (ck.getData (7 * k + 1)).next_update = NULL :=
      hI.ul_off _ hnul1
    have hdl1 : 7 * k + 1 < ck.node_data.length := by
      rw [hI.data_len, hnid]
      omega
    obtain ⟨f1o, f1i, f1v, f1g, f1ne, f1ud, f1ch, f1ni, f1len⟩ :=
      set_input_facts ck (7 * k + 1) (a.testBit k) hnu1 hdl1
    set c1 := ck.set_input (7 * k + 1) (a.testBit k) with hc1def
    clear_value c1
    set ul1 := (if (ck.getData (7 * k + 1)).output = a.testBit k
      then ul else (7 * k + 1) :: ul) with hul1def
    have hul1mem : ∀ q ∈ ul1, q = 7 * k + 1 ∨ q ∈ ul := by
      intro q hq
      rw [hul1def] at hq
      rcases Decidable.em ((ck.getData (7 * k + 1)).output = a.testBit k)
        with hc | hc
      · rw [if_pos hc] at hq
        exact Or.inr hq
      · rw [if_neg hc] at hq
        exact List.mem_cons.mp hq
    have hnul2 : (7 * k + 2) ∉ ul1 := by
      intro hmem
      rcases hul1mem _ hmem with h | h
      · omega
      · obtain ⟨j, hj, hq⟩ := hsh _ h
        rcases hq with h' | h' <;> omega
    have hlt2 : 7 * k + 2 < c1.next_id := by
      rw [f1ni, hnid]
      omega
    have hnoc2 : ∀ p, (7 * k + 2) ∉ c1.getChildren p := by
      intro p
      rw [f1ch p]
      exact hnoc2b p
    have hI2 := set_input_Inv (7 * k + 2) (b.testBit k) hI1 hlt2 hnul2 hnoc2
    have hnu2 : (c1.getData (7 * k + 2)).next_update = NULL :=
      hI1.ul_off _ hnul2
    have hdl2 : 7 * k + 2 < c1.node_data.length := by
      rw [f1len, hI.data_len, hnid]
      omega
    obtain ⟨f2o, f2i, f2v, f2g, f2ne, f2ud, f2ch, f2ni, f2len⟩ :=
      set_input_facts c1 (7 * k + 2) (b.testBit k) hnu2 hdl2
    set c2 := c1.set_input (7 * k + 2) (b.testBit k) with hc2def
    clear_value c2
    set ul2 := (if (c1.getData (7 * k + 2)).output = b.testBit k
      then ul1 else (7 * k + 2) :: ul1) with hul2def
    have hul2mem : ∀ q ∈ ul2, q = 7 * k + 2 ∨ q ∈ ul1 := by
      intro q hq
      rw [hul2def] at hq
      rcases Decidable.em ((c1.getData (7 * k + 2)).output = b.testBit k)
        with hc | hc
      · rw [if_pos hc] at hq
        exact Or.inr hq
      · rw [if_neg hc] at hq
        exact List.mem_cons.mp hq
    refine ⟨ul2, cl, hI2, ?_, ?_, ?_, ?_, ?_, ?_⟩
    · intro q hq
      rcases hul2mem q hq with rfl | hq1
      · exact ⟨k, Nat.lt_succ_self k, Or.inr rfl⟩
      · rcases hul1mem q hq1 with rfl | hq0
        · exact ⟨k, Nat.lt_succ_self k, Or.inl rfl⟩
        · obtain ⟨j, hj, hs⟩ := hsh q hq0
          exact ⟨j, Nat.lt_succ_of_lt hj, hs⟩
    · intro j hj
      rcases Nat.lt_succ_iff_lt_or_eq.mp hj with hjk | rfl
      · constructor
        · rw [f2ne _ (by omega), f1ne _ (by omega)]
          exact (hout j hjk).1
        · rw [f2ne _ (by omega), f1ne _ (by omega)]
          exact (hout j hjk).2
      · constructor
        · rw [f2ne _ (by omega)]
          exact f1o
        · exact f2o
    · intro m hm
      have h1 := hm k (Nat.lt_succ_self k)
      rw [f2ne _ h1.2, f1ne _ h1.1]
      exact hpres m (fun j hj => hm j (Nat.lt_succ_of_lt hj))
    · intro m
      rw [f2ud m, f1ud m]
      exact hud m
    · intro m
      rw [f2ch m, f1ch m]
      exact hch m
    · rw [f2ni, f1ni]
      exact hni

theorem count3_one {x y z m : Nat}
    (h : (x = m ∧ y ≠ m ∧ z ≠ m) ∨ (x ≠ m ∧ y = m ∧ z ≠ m) ∨
      (x ≠ m ∧ y ≠ m ∧ z = m)) :
    ([x, y, z] : List Nat).count m = 1 := by
  rcases h with ⟨h1, h2, h3⟩ | ⟨h1, h2, h3⟩ | ⟨h1, h2, h3⟩
  · rw [count_cons_self _ _ _ h1, count_cons_ne _ _ _ h2,
      count_cons_ne _ _ _ h3, List.count_nil]
  · rw [count_cons_ne _ _ _ h1, count_cons_self _ _ _ h2,
      count_cons_ne _ _ _ h3, List.count_nil]
  · rw [count_cons_ne _ _ _ h1, count_cons_ne _ _ _ h2,
      count_cons_self _ _ _ h3, List.count_nil]

theorem count1_one {x m : Nat} (h : x = m) :
    ([x] : List Nat).count m = 1 := by
  rw [count_cons_self _ _ _ h, List.count_nil]

/-- Gate equations of stage `i` in the quiescent adder: the sum output
is the three-way parity and the carry-out the majority of the stage's
two inputs and incoming carry. -/
theorem rca_stage_eval {B : Nat} {c : CircuitFast} (hst : RcaC B c)
    (hinv : Inv c [] []) (i : Nat) (hi : i < B) :
    (c.getData (7 * i + 3)).output
        = Bool.xor (Bool.xor (c.getData (7 * i + 1)).output
            (c.getData (7 * i + 2)).output) (c.getData (7 * i)).output ∧
    (c.getData (7 * i + 7)).output
        = (((c.getData (7 * i + 1)).output
              && (c.getData (7 * i + 2)).output)
          || ((c.getData (7 * i + 1)).output
              && (c.getData (7 * i)).output)
          || ((c.getData (7 * i + 2)).output
              && (c.getData (7 * i)).output)) := by
  have hlen := hinv.ch_len
  have hnid := hst.nid
  have hcA := cnt_of_children (hst.chA i hi)
  have hcB := cnt_of_children (hst.chB i hi)
  have hcC := cnt_of_children (hst.chC i hi)
  have hcAB := cnt_of_children (hst.chAB i hi)
  have hcAC := cnt_of_children (hst.chAC i hi)
  have hcBC := cnt_of_children (hst.chBC i hi)
  -- producer counts into the sum gate
  have h13 : cnt c (7 * i + 1) (7 * i + 3) = 1 :=
    (hcA _).trans (count3_one (Or.inl ⟨rfl, by omega, by omega⟩))
  have h23 : cnt c (7 * i + 2) (7 * i + 3) = 1 :=
    (hcB _).trans (count3_one (Or.inl ⟨rfl, by omega, by omega⟩))
  have h03 : cnt c (7 * i) (7 * i + 3) = 1 :=
    (hcC _).trans (count3_one (Or.inl ⟨rfl, by omega, by omega⟩))
  have hz3 : ∀ x, x ≠ 7 * i + 1 → x ≠ 7 * i + 2 → x ≠ 7 * i →
      cnt c x (7 * i + 3) = 0 := by
    intro x h1 h2 h0
    refine cnt_eq_zero_of_not_mem ?_
    intro hmem
    obtain ⟨j, hj, hsh⟩ := rca_edges hst hlen x _ hmem
    rcases hsh with ⟨hx, hmm⟩ | ⟨hx, hmm⟩ | ⟨hx, hmm⟩ | ⟨hx, hmm⟩ |
      ⟨hx, hmm⟩ | ⟨hx, hmm⟩ <;> omega
  -- counts into the three AND gates
  have h14 : cnt c (7 * i + 1) (7 * i + 4) = 1 :=
    (hcA _).trans (count3_one (Or.inr (Or.inl ⟨by omega, rfl, by omega⟩)))
  have h24 : cnt c (7 * i + 2) (7 * i + 4) = 1 :=
    (hcB _).trans (count3_one (Or.inr (Or.inl ⟨by omega, rfl, by omega⟩)))
  have hz4 : ∀ x, x ≠ 7 * i + 1 → x ≠ 7 * i + 2 →
      cnt c x (7 * i + 4) = 0 := by
    intro x h1 h2
    refine cnt_eq_zero_of_not_mem ?_
    intro hmem
    obtain ⟨j, hj, hsh⟩ := rca_edges hst hlen x _ hmem
    rcases hsh with ⟨hx, hmm⟩ | ⟨hx, hmm⟩ | ⟨hx, hmm⟩ | ⟨hx, hmm⟩ |
      ⟨hx, hmm⟩ | ⟨hx, hmm⟩ <;> omega
  have h15 : cnt c (7 * i + 1) (7 * i + 5) = 1 :=
    (hcA _).trans (count3_one (Or.inr (Or.inr ⟨by omega, by omega, rfl⟩)))
  have h05 : cnt c (7 * i) (7 * i + 5) = 1 :=
    (hcC _).trans (count3_one (Or.inr (Or.inl ⟨by omega, rfl, by omega⟩)))
  have hz5 : ∀ x, x ≠ 7 * i + 1 → x ≠ 7 * i →
      cnt c x (7 * i + 5) = 0 := by
    intro x h1 h0
    refine cnt_eq_zero_of_not_mem ?_
    intro hmem
    obtain ⟨j, hj, hsh⟩ := rca_edges hst hlen x _ hmem
    rcases hsh with ⟨hx, hmm⟩ | ⟨hx, hmm⟩ | ⟨hx, hmm⟩ | ⟨hx, hmm⟩ |
      ⟨hx, hmm⟩ | ⟨hx, hmm⟩ <;> omega
  have h26 : cnt c (7 * i + 2) (7 * i + 6) = 1 :=
    (hcB _).trans (count3_one (Or.inr (Or.inr ⟨by omega, by omega, rfl⟩)))
  have h06 : cnt c (7 * i) (7 * i + 6) = 1 :=
    (hcC _).trans (count3_one (Or.inr (Or.inr ⟨by omega, by omega, rfl⟩)))
  have hz6 : ∀ x, x ≠ 7 * i + 2 → x ≠ 7 * i →
      cnt c x (7 * i + 6) = 0 := by
    intro x h2 h0
    refine cnt_eq_zero_of_not_mem ?_
    intro hmem
    obtain ⟨j, hj, hsh⟩ := rca_edges hst hlen x _ hmem
    rcases hsh with ⟨hx, hmm⟩ | ⟨hx, hmm⟩ | ⟨hx, hmm⟩ | ⟨hx, hmm⟩ |
      ⟨hx, hmm⟩ | ⟨hx, hmm⟩ <;> omega
  -- counts into the carry-out OR gate
  have h47 : cnt c (7 * i + 4) (7 * i + 7) = 1 :=
    (hcAB _).trans (count1_one rfl)
  have h57 : cnt c (7 * i + 5) (7 * i + 7) = 1 :=
    (hcAC _).trans (count1_one rfl)
  have h67 : cnt c (7 * i + 6) (7 * i + 7) = 1 :=
    (hcBC _).trans (count1_one rfl)
  have hz7 : ∀ x, x ≠ 7 * i + 4 → x ≠ 7 * i + 5 → x ≠ 7 * i + 6 →
      cnt c x (7 * i + 7) = 0 := by
    intro x h4 h5 h6
    refine cnt_eq_zero_of_not_mem ?_
    intro hmem
    obtain ⟨j, hj, hsh⟩ := rca_edges hst hlen x _ hmem
    rcases hsh with ⟨hx, hmm⟩ | ⟨hx, hmm⟩ | ⟨hx, hmm⟩ | ⟨hx, hmm⟩ |
      ⟨hx, hmm⟩ | ⟨hx, hmm⟩ <;> omega
  -- evaluate the five gates
  have hs := xor3_out hinv (hst.gS i hi) (hst.iS i hi)
    (by omega) (by omega) (by omega)
    (by rw [hnid]; omega) (by rw [hnid]; omega) (by rw [hnid]; omega)
    h13 h23 h03 hz3
  have hab := and2_out hinv (hst.gAB i hi) (hst.iAB i hi) (by omega)
    (by rw [hnid]; omega) (by rw [hnid]; omega) h14 h24 hz4
  have hac := and2_out hinv (hst.gAC i hi) (hst.iAC i hi) (by omega)
    (by rw [hnid]; omega) (by rw [hnid]; omega) h15 h05 hz5
  have hbc := and2_out hinv (hst.gBC i hi) (hst.iBC i hi) (by omega)
    (by rw [hnid]; omega) (by rw [hnid]; omega) h26 h06 hz6
  have hco := or3_out hinv (hst.gCO i hi) (hst.iCO i hi)
    (by omega) (by omega) (by omega)
    (by rw [hnid]; omega) (by rw [hnid]; omega) (by rw [hnid]; omega)
    h47 h57 h67 hz7
  rw [hab, hac, hbc] at hco
  exact ⟨hs, hco⟩

/-- Majority of three booleans. -/
def maj (x y z : Bool) : Bool := (x && y) || (x && z) || (y && z)

/-- The ripple carry into bit `i` when adding `a` and `b` with zero
carry-in. -/
def carryRec (a b : Nat) : Nat → Bool
  | 0 => false
  | i + 1 => maj (a.testBit i) (b.testBit i) (carryRec a b i)

/-- In the quiescent circuit with the operand bits on the inputs and a
low carry-in, the carry node of every stage reads the ripple carry. -/
theorem rca_carries {B : Nat} {c : CircuitFast} (hst : RcaC B c)
    (hinv : Inv c [] []) (a b : Nat)
    (hia : ∀ j, j < B → (c.getData (7 * j + 1)).output = a.testBit j)
    (hib : ∀ j, j < B → (c.getData (7 * j + 2)).output = b.testBit j)
    (h0 : (c.getData 0).output = false) :
    ∀ i, i ≤ B → (c.getData (7 * i)).output = carryRec a b i := by
  intro i
  induction i with
  | zero =>
    intro _
    exact h0
  | succ i ih =>
    intro hi1
    have hiB : i < B := hi1
    have hco := (rca_stage_eval hst hinv i hiB).2
    have h7 : 7 * (i + 1) = 7 * i + 7 := by ring
    rw [h7, hco, hia i hiB, hib i hiB, ih (Nat.le_of_lt hiB)]
    simp only [carryRec, maj]

theorem testBit_ite (a i : Nat) :
    (if a.testBit i then 1 else 0) = a / 2 ^ i % 2 := by
  rw [Nat.testBit_to_div_mod]
  rcases Nat.mod_two_eq_zero_or_one (a / 2 ^ i) with h | h <;>
    simp [h]

theorem sum_pow_lt (f : Nat → Bool) (B : Nat) :
    (∑ i ∈ Finset.range B, if f i then 2 ^ i else 0) < 2 ^ B := by
  induction B with
  | zero => simp
  | succ B ih =>
    rw [Finset.sum_range_succ]
    have h2 : (if f B then 2 ^ B else 0) ≤ 2 ^ B := by
      cases f B <;> simp
    have h3 : 2 ^ (B + 1) = 2 * 2 ^ B := by
      rw [pow_succ]
      ring
    omega

/-- Grade-school binary addition: the low `B` bits of the operands sum
to the `B` ripple-carry sum bits plus the final carry. -/
theorem addBits (a b : Nat) :
    ∀ B, a % 2 ^ B + b % 2 ^ B
      = (∑ i ∈ Finset.range B,
          if Bool.xor (Bool.xor (a.testBit i) (b.testBit i))
              (carryRec a b i)
          then 2 ^ i else 0)
        + (if carryRec a b B then 2 ^ B else 0) := by
  intro B
  induction B with
  | zero =>
    simp [carryRec, Nat.mod_one]
  | succ B ih =>
    have hsa : a % 2 ^ (B + 1)
        = a % 2 ^ B + 2 ^ B * (if a.testBit B then 1 else 0) := by
      rw [testBit_ite]
      exact Nat.mod_pow_succ
    have hsb : b % 2 ^ (B + 1)
        = b % 2 ^ B + 2 ^ B * (if b.testBit B then 1 else 0) := by
      rw [testBit_ite]
      exact Nat.mod_pow_succ
    have hcr : carryRec a b (B + 1)
        = maj (a.testBit B) (b.testBit B) (carryRec a b B) := rfl
    have hpw : 2 ^ (B + 1) = 2 * 2 ^ B := by
      rw [pow_succ]
      ring
    rw [Finset.sum_range_succ, hsa, hsb, hcr, hpw]
    cases hA : a.testBit B <;> cases hBb : b.testBit B <;>
      cases hC : carryRec a b B
    all_goals rw [hC] at ih
    all_goals simp [maj] at ih ⊢
    all_goals omega

/-- C7: for every `BITS > 0` (with the `7·BITS+8` node ids of the
adder below the `u32` sentinel `NULL`) and all operands
`a, b < 2^BITS`: after building `RippleCarryAdder<BITS>` on a fresh
circuit, driving `input_a` with the bits of `a` and `input_b` with the
bits of `b` (carry-in low) and running to quiescence, the sum bus
reads `(a + b) mod 2^BITS` and the carry-out node reads
`(a + b) ≥ 2^BITS`. -/
theorem claim_C7 (BITS a b fuel : Nat) (c' : CircuitFast)
    (hB : 0 < BITS) (hw : 7 * BITS + 8 ≤ NULL)
    (ha : a < 2 ^ BITS) (hb : b < 2 ^ BITS)
    (hrun : run_until_done fuel
        (rcaDrive a b BITS (rcaBuild BITS).1) = some c') :
    (∑ i ∈ Finset.range BITS,
        if c'.is_active (7 * i + 3) then 2 ^ i else 0)
      = (a + b) % 2 ^ BITS
    ∧ c'.is_active (7 * BITS) = decide (2 ^ BITS ≤ a + b) := by
  obtain ⟨hcar, hst, ⟨cl0, hinv0⟩, hallf0, hdin0, hout00⟩ :=
    rcaBuild_ok BITS hw
  obtain ⟨ul, cl, hI, hsh, houtd, hpres, hud, hch, hni⟩ :=
    rcaDrive_ok BITS hw a b BITS (Nat.le_refl BITS)
  set cb := (rcaBuild BITS).1 with hcbdef
  set cd := rcaDrive a b BITS cb with hcddef
  clear_value cd
  obtain ⟨ul', cl', hIq0, hwl, hG⟩ :=
    run_until_done_Inv fuel cd ul cl c' hI hrun
  obtain ⟨hue, hce⟩ := quiescent_lists hIq0 hwl
  subst hue
  subst hce
  have hchlen0 : cb.node_children.length = cb.next_id := hinv0.ch_len
  have hnid' : c'.next_id = 7 * BITS + 1 := by
    rw [hG.nid, hni]
    exact hst.nid
  have hchd : ∀ m, c'.getChildren m = cb.getChildren m := by
    intro m
    rw [hG.children m, hch m]
  have hpd : ∀ m, (∀ j, j < BITS → m ≠ 7 * j + 1 ∧ m ≠ 7 * j + 2) →
      (c'.getData m).gate_type = (cb.getData m).gate_type ∧
        (c'.getData m).inverted = (cb.getData m).inverted := by
    intro m hm
    constructor
    · rw [hG.gate m, hpres m hm]
    · rw [hG.inverted m, hpres m hm]
  have hst' : RcaC BITS c' :=
    ⟨hnid',
      ((hpd 0 (fun j hj => ⟨by omega, by omega⟩)).1).trans hst.g0,
      ((hpd 0 (fun j hj => ⟨by omega, by omega⟩)).2).trans hst.i0,
      fun i hi => ((hpd _ (fun j hj => ⟨by omega, by omega⟩)).1).trans
        (hst.gS i hi),
      fun i hi => ((hpd _ (fun j hj => ⟨by omega, by omega⟩)).2).trans
        (hst.iS i hi),
      fun i hi => ((hpd _ (fun j hj => ⟨by omega, by omega⟩)).1).trans
        (hst.gAB i hi),
      fun i hi => ((hpd _ (fun j hj => ⟨by omega, by omega⟩)).2).trans
        (hst.iAB i hi),
      fun i hi => ((hpd _ (fun j hj => ⟨by omega, by omega⟩)).1).trans
        (hst.gAC i hi),
      fun i hi => ((hpd _ (fun j hj => ⟨by omega, by omega⟩)).2).trans
        (hst.iAC i hi),
      fun i hi => ((hpd _ (fun j hj => ⟨by omega, by omega⟩)).1).trans
        (hst.gBC i hi),
      fun i hi => ((hpd _ (fun j hj => ⟨by omega, by omega⟩)).2).trans
        (hst.iBC i hi),
      fun i hi => ((hpd _ (fun j hj => ⟨by omega, by omega⟩)).1).trans
        (hst.gCO i hi),
      fun i hi => ((hpd _ (fun j hj => ⟨by omega, by omega⟩)).2).trans
        (hst.iCO i hi),
      fun i hi => (hchd _).trans (hst.chA i hi),
      fun i hi => (hchd _).trans (hst.chB i hi),
      fun i hi => (hchd _).trans (hst.chS i hi),
      fun i hi => (hchd _).trans (hst.chAB i hi),
      fun i hi => (hchd _).trans (hst.chAC i hi),
      fun i hi => (hchd _).trans (hst.chBC i hi),
      fun i hi => (hchd _).trans (hst.chC i hi),
      (hchd _).trans hst.chTop⟩
  have hia : ∀ j, j < BITS →
      (c'.getData (7 * j + 1)).output = a.testBit j := by
    intro j hj
    have hfr := run_until_done_freeze fuel cd c' (7 * j + 1) hrun
      (fun p => by
        rw [hch p]
        exact rca_input_not_child hst hchlen0 (Or.inl rfl) p)
      (by
        rw [hud]
        exact hdin0 _ (Or.inr ⟨j, hj, Or.inl rfl⟩))
    rw [hfr]
    exact (houtd j hj).1
  have hib : ∀ j, j < BITS →
      (c'.getData (7 * j + 2)).output = b.testBit j := by
    intro j hj
    have hfr := run_until_done_freeze fuel cd c' (7 * j + 2) hrun
      (fun p => by
        rw [hch p]
        exact rca_input_not_child hst hchlen0 (Or.inr rfl) p)
      (by
        rw [hud]
        exact hdin0 _ (Or.inr ⟨j, hj, Or.inr rfl⟩))
    rw [hfr]
    exact (houtd j hj).2
  have h0' : (c'.getData 0).output = false := by
    have hfr := run_until_done_freeze fuel cd c' 0 hrun
      (fun p => by
        rw [hch p]
        exact rca_zero_not_child hst hchlen0 p)
      (by
        rw [hud]
        exact hdin0 0 (Or.inl rfl))
    rw [hfr, hpres 0 (fun j hj => ⟨by omega, by omega⟩)]
    exact hout00
  have hcr := rca_carries hst' hIq0 a b hia hib h0'
  have hsum : ∀ i, i < BITS →
      (c'.getData (7 * i + 3)).output
        = Bool.xor (Bool.xor (a.testBit i) (b.testBit i))
            (carryRec a b i) := by
    intro i hi
    have hs := (rca_stage_eval hst' hIq0 i hi).1
    rw [hs, hia i hi, hib i hi, hcr i (Nat.le_of_lt hi)]
  have hmodeq := addBits a b BITS
  rw [Nat.mod_eq_of_lt ha, Nat.mod_eq_of_lt hb] at hmodeq
  have hsum_eq : (∑ i ∈ Finset.range BITS,
        if c'.is_active (7 * i + 3) then 2 ^ i else 0)
      = ∑ i ∈ Finset.range BITS,
        if Bool.xor (Bool.xor (a.testBit i) (b.testBit i))
            (carryRec a b i) then 2 ^ i else 0 := by
    refine Finset.sum_congr rfl ?_
    intro i hi
    rw [Finset.mem_range] at hi
    show (if (c'.getData (7 * i + 3)).output then 2 ^ i else 0) = _
    rw [hsum i hi]
  have hSlt := sum_pow_lt
    (fun i => Bool.xor (Bool.xor (a.testBit i) (b.testBit i))
      (carryRec a b i)) BITS
  constructor
  · rw [hsum_eq]
    cases hcv : carryRec a b BITS
    · rw [hcv, if_neg Bool.false_ne_true, Nat.add_zero] at hmodeq
      rw [← hmodeq, Nat.mod_eq_of_lt (by omega)]
    · rw [hcv, if_pos rfl] at hmodeq
      rw [hmodeq, Nat.add_mod_right, Nat.mod_eq_of_lt hSlt]
  · show (c'.getData (7 * BITS)).output = decide (2 ^ BITS ≤ a + b)
    rw [hcr BITS (Nat.le_refl BITS)]
    cases hcv : carryRec a b BITS
    · rw [hcv, if_neg Bool.false_ne_true, Nat.add_zero] at hmodeq
      symm
      rw [decide_eq_false_iff_not]
      omega
    · rw [hcv, if_pos rfl] at hmodeq
      symm
      rw [decide_eq_true_eq]
      omega

set_option maxRecDepth 100000 in
theorem claim_C7_witness :
    ∃ c', run_until_done 20 (rcaDrive 1 1 1 (rcaBuild 1).1) = some c'
      ∧ ((∑ i ∈ Finset.range 1,
            if c'.is_active (7 * i + 3) then 2 ^ i else 0)
          = (1 + 1) % 2 ^ 1
        ∧ c'.is_active (7 * 1) = decide (2 ^ 1 ≤ 1 + 1)) := by
  have hsome : (run_until_done 20
      (rcaDrive 1 1 1 (rcaBuild 1).1)).isSome = true := by decide
  refine ⟨(run_until_done 20 (rcaDrive 1 1 1 (rcaBuild 1).1)).get hsome,
    (Option.some_get hsome).symm, ?_⟩
  exact claim_C7 1 1 1 20 _ (by decide) (by decide) (by decide) (by decide)
    (Option.some_get hsome).symm

end CircuitFast

/-! ## The structural components (`wire.rs`, `memory.rs`)

`Wire<BITS>` is an array of node ids, modelled as a `List Nat`.  The
components call `create_node(NodeType)`; the `NodeType` enum is declared in a
file not present in this snapshot, but its `Or`/`Nor`/`And` cases dispatch to
the engine constructors `or`/`nor`/`and` per the family table of spec §3, so
the builders below call those constructors directly. -/

namespace Components

open CircuitFast

/-- `Wire::new` (wire.rs): one OR node per bit, allocated in bit order. -/
def wireNew : CircuitFast → Nat → CircuitFast × List Nat
  | c, 0 => (c, [])
  | c, bits + 1 =>
    let p := c.or
    let r := wireNew p.1 bits
    (r.1, p.2 :: r.2)

/-- `Wire::map_gate` (wire.rs): per lane, create a gate and connect the lane
into it. -/
def mapGate (mk : CircuitFast → CircuitFast × Nat) :
    CircuitFast → List Nat → CircuitFast × List Nat
  | c, [] => (c, [])
  | c, i :: rest =>
    let p := mk c
    let c := p.1.connect i p.2
    let r := mapGate mk c rest
    (r.1, p.2 :: r.2)

/-- `Wire::buffer`: per-lane OR-of-one. -/
def buffer (c : CircuitFast) (w : List Nat) : CircuitFast × List Nat :=
  mapGate CircuitFast.or c w

/-- `Wire::invert`: per-lane NOR-of-one. -/
def invert (c : CircuitFast) (w : List Nat) : CircuitFast × List Nat :=
  mapGate CircuitFast.nor c w

/-- The inner loop of `Wire::decode`: wire decoded output `g` (for index `i`)
to the positive or negative rail of each bit. -/
def decodeConnect (g i : Nat) : CircuitFast → Nat → List Nat → List Nat →
    CircuitFast
  | c, _, [], _ => c
  | c, _, _ :: _, [] => c
  | c, bit, p :: ps, q :: qs =>
    let src := if i &&& (1 <<< bit) = 0 then q else p
    decodeConnect g i (c.connect src g) (bit + 1) ps qs

/-- The output loop of `Wire::decode`: one AND gate per decoded line. -/
def decodeOuts (pos neg : List Nat) : CircuitFast → Nat → Nat →
    CircuitFast × List Nat
  | c, _, 0 => (c, [])
  | c, i, k + 1 =>
    let p := c.and
    let c := decodeConnect p.2 i p.1 0 pos neg
    let r := decodeOuts pos neg c (i + 1) k
    (r.1, p.2 :: r.2)

/-- `Wire::decode` (wire.rs): buffered positive rails, inverted negative
rails, then one AND per output index. -/
def decode (c : CircuitFast) (w : List Nat) (outputs : Nat) :
    CircuitFast × List Nat :=
  let bp := buffer c w
  let bn := invert bp.1 w
  decodeOuts bp.2 bn.2 bn.1 0 outputs

/-- `Wire::connect` (wire.rs): lane-by-lane `connect`. -/
def wireConnect (c : CircuitFast) : List Nat → List Nat → CircuitFast
  | [], _ => c
  | _ :: _, [] => c
  | i :: is, o :: os => wireConnect (c.connect i o) is os

/-- `create_d_latch2` (memory.rs).  Besides the latch output, the model also
returns the two write-gated AND nodes `q_reset` and `q_set` so that theorems
can name the gates the strobe reaches; the circuit built is exactly the
source's. -/
def create_d_latch2 (c : CircuitFast)
    (input_pos input_neg enable write : Nat) :
    CircuitFast × Nat × Nat × Nat :=
  let pr := c.and
  let q_reset := pr.2
  let c := pr.1.connect input_neg q_reset
  let c := c.connect enable q_reset
  let c := c.connect write q_reset
  let c := c.set_input q_reset false
  let ps := c.and
  let q_set := ps.2
  let c := ps.1.connect input_pos q_set
  let c := c.connect enable q_set
  let c := c.connect write q_set
  let c := c.set_input q_set false
  let pq := c.nor
  let q := pq.2
  let c := pq.1.connect q_reset q
  let c := c.set_input q false
  let pn := c.nor
  let q_not := pn.2
  let c := pn.1.connect q_set q_not
  let c := c.connect q q_not
  let c := c.connect q_not q
  let po := c.and
  let c := po.1.connect q po.2
  let c := c.connect enable po.2
  (c, po.2, q_reset, q_set)

/-- `create_sram_cell` (memory.rs): per data bit, buffered and inverted bit
rails feeding a `create_d_latch2`.  Returns the cell's output lanes and
(ghost) the list of write-gated ANDs of its latches. -/
def create_sram_cell (enable write : Nat) :
    CircuitFast → List Nat → CircuitFast × List Nat × List Nat
  | c, [] => (c, [], [])
  | c, i :: rest =>
    let pp := c.or
    let pn := pp.1.nor
    let c := pn.1.connect i pp.2
    let c := c.connect i pn.2
    let dl := create_d_latch2 c pp.2 pn.2 enable write
    let r := create_sram_cell enable write dl.1 rest
    (r.1, dl.2.1 :: r.2.1, dl.2.2.1 :: dl.2.2.2 :: r.2.2)

/-- The cell loop of `Sram::new`: one `create_sram_cell` per decoded enable
line, each connected onto the shared output wire. -/
def sramCellsLoop (input : List Nat) (write : Nat) (outputW : List Nat) :
    CircuitFast → List Nat → CircuitFast × List Nat
  | c, [] => (c, [])
  | c, e :: es =>
    let cell := create_sram_cell e write c input
    let c := wireConnect cell.1 cell.2.1 outputW
    let r := sramCellsLoop input write outputW c es
    (r.1, cell.2.2 ++ r.2)

/-- `Sram::new::<CELLS>` (memory.rs lines 97-120).  Returns (ghost, in order)
the ids of `write`, `write_delay_1`, `write_delay_2` and the write-gated ANDs
of every cell, alongside the final circuit. -/
def sramNew (cells : Nat) : CircuitFast × Nat × Nat × Nat × List Nat :=
  let a := wireNew CircuitFast.new 16
  let inp := wireNew a.1 16
  let pw := inp.1.or
  let p1 := pw.1.or
  let p2 := p1.1.or
  let c := p2.1.connect pw.2 p1.2
  let c := c.connect p1.2 p2.2
  let en := decode c a.2 cells
  let outw := wireNew en.1 16
  let cl := sramCellsLoop inp.2 p2.2 outw.2 outw.1 en.2
  (cl.1, pw.2, p1.2, p2.2, cl.2)

/-- The cell loop of `Sram::new_full_2d`: per cell index, an AND of the two
half-address selectors gates the cell; the strobe argument passed to
`create_sram_cell` is `write_delay_2` in the source. -/
def sram2dCellsLoop (input : List Nat) (write : Nat) (outputW : List Nat)
    (sel0 sel1 : List Nat) : CircuitFast → Nat → Nat →
    CircuitFast × List Nat
  | c, _, 0 => (c, [])
  | c, i, k + 1 =>
    let i0 := i &&& 255
    let i1 := i >>> 8
    let pe := c.and
    let c := pe.1.connect (sel0.getD i0 0) pe.2
    let c := c.connect (sel1.getD i1 0) pe.2
    let cell := create_sram_cell pe.2 write c input
    let c := wireConnect cell.1 cell.2.1 outputW
    let r := sram2dCellsLoop input write outputW sel0 sel1 c (i + 1) k
    (r.1, cell.2.2 ++ r.2)

/-- `Sram::new_full_2d` with the cell count as a parameter (the source fixes
`CELLS = 1 << 16`; see `sramNewFull2d`).  Ghost results: `write`, the three
delay nodes, and the write-gated ANDs of every cell. -/
def sramNewFull2dGen (cells : Nat) :
    CircuitFast × Nat × Nat × Nat × Nat × List Nat :=
  let a := wireNew CircuitFast.new 16
  let inp := wireNew a.1 16
  let pw := inp.1.or
  let p1 := pw.1.or
  let p2 := p1.1.or
  let p3 := p2.1.or
  let c := p3.1.connect pw.2 p1.2
  let c := c.connect p1.2 p2.2
  let c := c.connect p2.2 p3.2
  let s0 := decode c (a.2.take 8) 256
  let s1 := decode s0.1 (a.2.drop 8) 256
  let outw := wireNew s1.1 16
  let cl := sram2dCellsLoop inp.2 p2.2 outw.2 s0.2 s1.2 outw.1 0 cells
  (cl.1, pw.2, p1.2, p2.2, p3.2, cl.2)

/-- `Sram::new_full_2d` (memory.rs lines 122-156): `CELLS = 1 << 16`. -/
def sramNewFull2d : CircuitFast × Nat × Nat × Nat × Nat × List Nat :=
  sramNewFull2dGen (1 <<< 16)

end Components

/-! ## Extension lemmas for the builders -/

namespace CircuitFast

theorem enqueue_update_getData_ne (c : CircuitFast) (n m : Nat) (h : m ≠ n) :
    (c.enqueue_update n).getData m = c.getData m := by
  unfold enqueue_update
  dsimp only
  split
  · simp only [getData, setData]
    rw [getD_set, if_neg (fun hc => h hc.1)]
  · rfl

theorem set_input_getData_ne (c : CircuitFast) (n : Nat) (v : Bool) (m : Nat)
    (h : m ≠ n) : (c.set_input n v).getData m = c.getData m := by
  unfold set_input
  dsimp only
  split
  · rw [enqueue_update_getData_ne _ _ _ h]
    simp only [getData, setData]
    rw [getD_set, if_neg (fun hc => h hc.1)]
  · rfl

/-- A build step extends a circuit: the allocator only moves forward,
children lists of old nodes change only at `srcs` (and only by appending),
and node records of old nodes change only at `wr`. -/
structure Ext (c c' : CircuitFast) (srcs wr : Nat → Prop) : Prop where
  wf : WFAlloc c'
  next_le : c.next_id ≤ c'.next_id
  children_pres : ∀ t, t < c.next_id → ¬ srcs t →
    c'.getChildren t = c.getChildren t
  children_mono : ∀ t x, x ∈ c.getChildren t → x ∈ c'.getChildren t
  data_pres : ∀ t, t < c.next_id → ¬ wr t → c'.getData t = c.getData t

theorem Ext.rfl_ext {c : CircuitFast} (h : WFAlloc c) (srcs wr : Nat → Prop) :
    Ext c c srcs wr :=
  ⟨h, Nat.le_refl _, fun _ _ _ => rfl, fun _ _ hx => hx, fun _ _ _ => rfl⟩

theorem Ext.comp {a b c : CircuitFast} {s1 w1 s2 w2 : Nat → Prop}
    (h1 : Ext a b s1 w1) (h2 : Ext b c s2 w2) :
    Ext a c (fun t => s1 t ∨ s2 t) (fun t => w1 t ∨ w2 t) := by
  refine ⟨h2.wf, Nat.le_trans h1.next_le h2.next_le, ?_, ?_, ?_⟩
  · intro t ht hs
    rw [h2.children_pres t (Nat.lt_of_lt_of_le ht h1.next_le)
        (fun h => hs (Or.inr h)),
      h1.children_pres t ht (fun h => hs (Or.inl h))]
  · intro t x hx
    exact h2.children_mono t x (h1.children_mono t x hx)
  · intro t ht hw
    rw [h2.data_pres t (Nat.lt_of_lt_of_le ht h1.next_le)
        (fun h => hw (Or.inr h)),
      h1.data_pres t ht (fun h => hw (Or.inl h))]

theorem Ext.weaken {a b : CircuitFast} {s w s' w' : Nat → Prop}
    (h : Ext a b s w) (hs : ∀ t, s t → s' t) (hw : ∀ t, w t → w' t) :
    Ext a b s' w' :=
  ⟨h.wf, h.next_le,
   fun t ht hst => h.children_pres t ht (fun hx => hst (hs t hx)),
   h.children_mono,
   fun t ht hwt => h.data_pres t ht (fun hx => hwt (hw t hx))⟩

theorem Ext.add_node {c : CircuitFast} (gt : GateType) (inv : Bool)
    (h : WFAlloc c) (srcs wr : Nat → Prop) :
    Ext c (c.add_node gt inv).1 srcs wr := by
  refine ⟨add_node_WFAlloc gt inv h, ?_, ?_, ?_, ?_⟩
  · rw [add_node_next_id]; omega
  · intro t _ _; exact add_node_getChildren _ _ _ _
  · intro t x hx; rw [add_node_getChildren]; exact hx
  · intro t ht _
    exact add_node_getData_ne _ _ _ _ (Nat.ne_of_lt ht)

theorem Ext.connect {c : CircuitFast} (i o : Nat) (h : WFAlloc c)
    (wr : Nat → Prop) : Ext c (c.connect i o) (fun t => t = i) wr := by
  refine ⟨connect_WFAlloc i o h, by rw [connect_next_id], ?_, ?_, ?_⟩
  · intro t _ hs
    exact connect_getChildren_ne _ _ _ _ hs
  · intro t x hx
    exact connect_getChildren_mono _ _ _ _ _ hx
  · intro t _ _
    exact connect_getData _ _ _ _

theorem Ext.set_input {c : CircuitFast} (n : Nat) (v : Bool) (h : WFAlloc c)
    (srcs : Nat → Prop) :
    Ext c (c.set_input n v) srcs (fun t => t = n) := by
  refine ⟨set_input_WFAlloc n v h, by rw [set_input_next_id], ?_, ?_, ?_⟩
  · intro t _ _
    exact set_input_getChildren _ _ _ _
  · intro t x hx
    rw [set_input_getChildren]; exact hx
  · intro t _ hw
    exact set_input_getData_ne _ _ _ _ hw

/-- Composition with absorption of the second step's source/write sets into
the first step's, justified pointwise below the first allocator mark. -/
theorem Ext.comp_through {a b c : CircuitFast} {s1 w1 s2 w2 s w : Nat → Prop}
    (h1 : Ext a b s1 w1) (h2 : Ext b c s2 w2)
    (hs : ∀ t, t < a.next_id → ¬ s t → ¬ s1 t ∧ ¬ s2 t)
    (hw : ∀ t, t < a.next_id → ¬ w t → ¬ w1 t ∧ ¬ w2 t) :
    Ext a c s w := by
  refine ⟨h2.wf, Nat.le_trans h1.next_le h2.next_le, ?_, ?_, ?_⟩
  · intro t ht hst
    rw [h2.children_pres t (Nat.lt_of_lt_of_le ht h1.next_le)
        (hs t ht hst).2,
      h1.children_pres t ht (hs t ht hst).1]
  · intro t x hx
    exact h2.children_mono t x (h1.children_mono t x hx)
  · intro t ht hwt
    rw [h2.data_pres t (Nat.lt_of_lt_of_le ht h1.next_le) (hw t ht hwt).2,
      h1.data_pres t ht (hw t ht hwt).1]

/-- Extend an `Ext` chain by one `add_node`. -/
theorem Ext.step_add {a b : CircuitFast} {s w : Nat → Prop}
    (h : Ext a b s w) (gt : GateType) (inv : Bool) :
    Ext a (b.add_node gt inv).1 s w :=
  h.comp_through (Ext.add_node gt inv h.wf (fun _ => False) (fun _ => False))
    (fun _ _ hst => ⟨hst, fun hf => hf⟩) (fun _ _ hwt => ⟨hwt, fun hf => hf⟩)

/-- Extend an `Ext` chain by one `connect` whose source is either in the
chain's source set or fresh. -/
theorem Ext.step_connect {a b : CircuitFast} {s w : Nat → Prop}
    (h : Ext a b s w) (x y : Nat) (hx : x < a.next_id → s x) :
    Ext a (b.connect x y) s w :=
  h.comp_through (Ext.connect x y h.wf (fun _ => False))
    (fun t ht hst => ⟨hst, fun he => hst (he ▸ hx (he ▸ ht))⟩)
    (fun _ _ hwt => ⟨hwt, fun hf => hf⟩)

/-- Extend an `Ext` chain by one `set_input` whose target is either in the
chain's write set or fresh. -/
theorem Ext.step_set_input {a b : CircuitFast} {s w : Nat → Prop}
    (h : Ext a b s w) (n : Nat) (v : Bool) (hn : n < a.next_id → w n) :
    Ext a (b.set_input n v) s w :=
  h.comp_through (Ext.set_input n v h.wf (fun _ => False))
    (fun _ _ hst => ⟨hst, fun hf => hf⟩)
    (fun t ht hwt => ⟨hwt, fun he => hwt (he ▸ hn (he ▸ ht))⟩)

theorem connect_mem_self (c : CircuitFast) (i o : Nat)
    (h : i < c.node_children.length) :
    o ∈ (c.connect i o).getChildren i := by
  rw [connect_getChildren_self c i o h]
  simp

theorem getD_mem_or (l : List Nat) (n d : Nat) :
    l.getD n d = d ∨ l.getD n d ∈ l := by
  rcases Nat.lt_or_ge n l.length with hlt | hge
  · right
    rw [List.getD_eq_getElem?_getD, List.getElem?_eq_getElem hlt]
    exact List.getElem_mem _
  · left
    exact List.getD_eq_default _ _ hge

end CircuitFast

namespace Components

open CircuitFast

theorem wireNew_ext :
    ∀ (bits : Nat) (c : CircuitFast), WFAlloc c →
      Ext c (wireNew c bits).1 (fun _ => False) (fun _ => False) ∧
      (∀ o ∈ (wireNew c bits).2,
        c.next_id ≤ o ∧ o < (wireNew c bits).1.next_id) ∧
      (wireNew c bits).2.length = bits := by
  intro bits
  induction bits with
  | zero =>
    intro c h
    exact ⟨Ext.rfl_ext h _ _, fun o ho => absurd ho (by simp [wireNew]), rfl⟩
  | succ b ih =>
    intro c h
    unfold wireNew
    dsimp only
    simp only [CircuitFast.or]
    have h1 : WFAlloc (c.add_node .OrNor false).1 := add_node_WFAlloc _ _ h
    obtain ⟨ihE, ihF, ihL⟩ := ih (c.add_node .OrNor false).1 h1
    refine ⟨(Ext.add_node _ _ h _ _).comp_through ihE
      (fun _ _ hst => ⟨hst, hst⟩) (fun _ _ hwt => ⟨hwt, hwt⟩), ?_, ?_⟩
    · intro o ho
      rcases List.mem_cons.mp ho with rfl | ho
      · rw [add_node_snd]
        refine ⟨Nat.le_refl _, ?_⟩
        have := ihE.next_le
        rw [add_node_next_id] at this
        omega
      · rcases ihF o ho with ⟨h1', h2'⟩
        rw [add_node_next_id] at h1'
        exact ⟨by omega, h2'⟩
    · simp [ihL]

theorem wireNew_nid :
    ∀ (bits : Nat) (c : CircuitFast),
      (wireNew c bits).1.next_id = c.next_id + bits := by
  intro bits
  induction bits with
  | zero => intro c; rfl
  | succ b ih =>
    intro c
    simp only [wireNew, CircuitFast.or]
    rw [ih, add_node_next_id]
    omega

theorem mapGate_ext (gt : GateType) (inv : Bool)
    (mk : CircuitFast → CircuitFast × Nat)
    (hmk : ∀ c, mk c = c.add_node gt inv) :
    ∀ (w : List Nat) (c : CircuitFast), WFAlloc c →
      Ext c (mapGate mk c w).1 (fun t => t ∈ w) (fun _ => False) ∧
      (∀ o ∈ (mapGate mk c w).2,
        c.next_id ≤ o ∧ o < (mapGate mk c w).1.next_id) ∧
      (mapGate mk c w).2.length = w.length := by
  intro w
  induction w with
  | nil =>
    intro c h
    exact ⟨Ext.rfl_ext h _ _, fun o ho => absurd ho (by simp [mapGate]), rfl⟩
  | cons i rest ih =>
    intro c h
    unfold mapGate
    dsimp only
    simp only [hmk]
    have h1 : WFAlloc ((c.add_node gt inv).1.connect i
        (c.add_node gt inv).2) :=
      connect_WFAlloc _ _ (add_node_WFAlloc _ _ h)
    obtain ⟨ihE, ihF, ihL⟩ := ih _ h1
    have hnext : ((c.add_node gt inv).1.connect i
        (c.add_node gt inv).2).next_id = c.next_id + 1 := by
      rw [connect_next_id, add_node_next_id]
    have estep : Ext c ((c.add_node gt inv).1.connect i
        (c.add_node gt inv).2) (fun t => t ∈ i :: rest) (fun _ => False) :=
      (Ext.rfl_ext h _ _).step_add gt inv |>.step_connect i _
        (fun _ => List.mem_cons_self i rest)
    refine ⟨estep.comp_through ihE
      (fun t _ hst => ⟨hst, fun hr => hst (List.mem_cons_of_mem i hr)⟩)
      (fun _ _ hwt => ⟨hwt, hwt⟩), ?_, ?_⟩
    · intro o ho
      rcases List.mem_cons.mp ho with rfl | ho
      · have ho2 := add_node_snd c gt inv
        have h3 := ihE.next_le
        rw [hnext] at h3
        exact ⟨by omega, by omega⟩
      · rcases ihF o ho with ⟨h1', h2'⟩
        rw [hnext] at h1'
        exact ⟨by omega, h2'⟩
    · simp [ihL]

theorem decodeConnect_ext (g i : Nat) :
    ∀ (ps qs : List Nat) (c : CircuitFast) (bit : Nat), WFAlloc c →
      Ext c (decodeConnect g i c bit ps qs)
        (fun t => t ∈ ps ∨ t ∈ qs) (fun _ => False) := by
  intro ps
  induction ps with
  | nil =>
    intro qs c bit h
    unfold decodeConnect
    exact Ext.rfl_ext h _ _
  | cons p ps ih =>
    intro qs c bit h
    cases qs with
    | nil =>
      unfold decodeConnect
      exact Ext.rfl_ext h _ _
    | cons q qs =>
      unfold decodeConnect
      dsimp only
      have hsrc : (if i &&& (1 <<< bit) = 0 then q else p) ∈ p :: ps ∨
          (if i &&& (1 <<< bit) = 0 then q else p) ∈ q :: qs := by
        split
        · exact Or.inr (List.mem_cons_self _ _)
        · exact Or.inl (List.mem_cons_self _ _)
      have estep : Ext c (c.connect (if i &&& (1 <<< bit) = 0 then q else p) g)
          (fun t => t ∈ p :: ps ∨ t ∈ q :: qs) (fun _ => False) :=
        (Ext.rfl_ext h _ _).step_connect _ g (fun _ => hsrc)
      refine estep.comp_through (ih qs _ (bit + 1) (connect_WFAlloc _ _ h))
        (fun t _ hst => ⟨hst, fun hr => hst ?_⟩)
        (fun _ _ hwt => ⟨hwt, hwt⟩)
      rcases hr with hr | hr
      · exact Or.inl (List.mem_cons_of_mem _ hr)
      · exact Or.inr (List.mem_cons_of_mem _ hr)

theorem decodeOuts_ext (pos neg : List Nat) :
    ∀ (k i : Nat) (c : CircuitFast), WFAlloc c →
      Ext c (decodeOuts pos neg c i k).1
        (fun t => t ∈ pos ∨ t ∈ neg) (fun _ => False) ∧
      (∀ o ∈ (decodeOuts pos neg c i k).2,
        c.next_id ≤ o ∧ o < (decodeOuts pos neg c i k).1.next_id) ∧
      (decodeOuts pos neg c i k).2.length = k := by
  intro k
  induction k with
  | zero =>
    intro i c h
    exact ⟨Ext.rfl_ext h _ _, fun o ho => absurd ho (by simp [decodeOuts]), rfl⟩
  | succ k ih =>
    intro i c h
    unfold decodeOuts
    dsimp only
    simp only [CircuitFast.and]
    have hadd : WFAlloc (c.add_node .AndNand true).1 := add_node_WFAlloc _ _ h
    have edc := decodeConnect_ext (c.add_node .AndNand true).2 i pos neg
      (c.add_node .AndNand true).1 0 hadd
    have h2 : WFAlloc (decodeConnect (c.add_node .AndNand true).2 i
        (c.add_node .AndNand true).1 0 pos neg) := edc.wf
    obtain ⟨ihE, ihF, ihL⟩ := ih (i + 1) _ h2
    have hnext2 : c.next_id + 1 ≤ (decodeConnect (c.add_node .AndNand true).2 i
        (c.add_node .AndNand true).1 0 pos neg).next_id := by
      have := edc.next_le
      rw [add_node_next_id] at this
      exact this
    have estep : Ext c (decodeConnect (c.add_node .AndNand true).2 i
        (c.add_node .AndNand true).1 0 pos neg)
        (fun t => t ∈ pos ∨ t ∈ neg) (fun _ => False) :=
      (Ext.add_node _ _ h _ _).comp_through edc
        (fun _ _ hst => ⟨fun hf => hf, hst⟩)
        (fun _ _ hwt => ⟨hwt, hwt⟩)
    refine ⟨estep.comp_through ihE
      (fun _ _ hst => ⟨hst, hst⟩) (fun _ _ hwt => ⟨hwt, hwt⟩), ?_, ?_⟩
    · intro o ho
      rcases List.mem_cons.mp ho with rfl | ho
      · have ho2 := add_node_snd c .AndNand true
        have h3 := ihE.next_le
        exact ⟨by omega, by omega⟩
      · rcases ihF o ho with ⟨h1', h2'⟩
        exact ⟨by omega, h2'⟩
    · simp [ihL]

theorem decode_ext (c : CircuitFast) (w : List Nat) (outputs : Nat)
    (h : WFAlloc c) :
    Ext c (decode c w outputs).1 (fun t => t ∈ w) (fun _ => False) ∧
    (∀ o ∈ (decode c w outputs).2,
      c.next_id ≤ o ∧ o < (decode c w outputs).1.next_id) ∧
    (decode c w outputs).2.length = outputs := by
  unfold decode buffer invert
  dsimp only
  obtain ⟨bE, bF, _⟩ := mapGate_ext .OrNor false CircuitFast.or
    (fun _ => rfl) w c h
  obtain ⟨nE, nF, _⟩ := mapGate_ext .OrNor true CircuitFast.nor
    (fun _ => rfl) w (mapGate CircuitFast.or c w).1 bE.wf
  obtain ⟨oE, oF, oL⟩ := decodeOuts_ext (mapGate CircuitFast.or c w).2
    (mapGate CircuitFast.nor (mapGate CircuitFast.or c w).1 w).2
    outputs 0 (mapGate CircuitFast.nor (mapGate CircuitFast.or c w).1 w).1
    nE.wf
  have hbn : Ext c (mapGate CircuitFast.nor (mapGate CircuitFast.or c w).1 w).1
      (fun t => t ∈ w) (fun _ => False) :=
    bE.comp_through nE (fun _ _ hst => ⟨hst, hst⟩)
      (fun _ _ hwt => ⟨hwt, hwt⟩)
  have hfull : Ext c (decodeOuts (mapGate CircuitFast.or c w).2
      (mapGate CircuitFast.nor (mapGate CircuitFast.or c w).1 w).2
      (mapGate CircuitFast.nor (mapGate CircuitFast.or c w).1 w).1 0
      outputs).1 (fun t => t ∈ w) (fun _ => False) := by
    refine hbn.comp_through oE (fun t ht hst => ⟨hst, ?_⟩)
      (fun _ _ hwt => ⟨hwt, hwt⟩)
    rintro (hp | hn)
    · exact absurd (bF t hp).1 (by omega)
    · have := (nF t hn).1
      have := bE.next_le
      omega
  refine ⟨hfull, ?_, oL⟩
  intro o ho
  rcases oF o ho with ⟨h1', h2'⟩
  have := bE.next_le
  have := nE.next_le
  exact ⟨by omega, h2'⟩

theorem create_d_latch2_ext (c : CircuitFast) (ip iq en wn : Nat)
    (h : WFAlloc c) (hwn : wn < c.next_id) :
    Ext c (create_d_latch2 c ip iq en wn).1
      (fun t => t = ip ∨ t = iq ∨ t = en ∨ t = wn ∨ c.next_id ≤ t)
      (fun t => c.next_id ≤ t) ∧
    (c.next_id ≤ (create_d_latch2 c ip iq en wn).2.2.1 ∧
      (create_d_latch2 c ip iq en wn).2.2.1 <
        (create_d_latch2 c ip iq en wn).1.next_id) ∧
    (c.next_id ≤ (create_d_latch2 c ip iq en wn).2.2.2 ∧
      (create_d_latch2 c ip iq en wn).2.2.2 <
        (create_d_latch2 c ip iq en wn).1.next_id) ∧
    (create_d_latch2 c ip iq en wn).2.2.1 ∈
      (create_d_latch2 c ip iq en wn).1.getChildren wn ∧
    (create_d_latch2 c ip iq en wn).2.2.2 ∈
      (create_d_latch2 c ip iq en wn).1.getChildren wn ∧
    c.next_id ≤ (create_d_latch2 c ip iq en wn).2.1 := by
  unfold create_d_latch2
  dsimp only
  simp only [CircuitFast.and, CircuitFast.nor]
  set pr := c.add_node .AndNand true with hpr
  set c1 := pr.1.connect iq pr.2 with hc1
  set c2 := c1.connect en pr.2 with hc2
  set c3 := c2.connect wn pr.2 with hc3
  set c4 := c3.set_input pr.2 false with hc4
  set ps := c4.add_node .AndNand true with hps
  set c5 := ps.1.connect ip ps.2 with hc5
  set c6 := c5.connect en ps.2 with hc6
  set c7 := c6.connect wn ps.2 with hc7
  set c8 := c7.set_input ps.2 false with hc8
  set pq := c8.add_node .OrNor true with hpq
  set c9 := pq.1.connect pr.2 pq.2 with hc9
  set c10 := c9.set_input pq.2 false with hc10
  set pn := c10.add_node .OrNor true with hpn
  set c11 := pn.1.connect ps.2 pn.2 with hc11
  set c12 := c11.connect pq.2 pn.2 with hc12
  set c13 := c12.connect pn.2 pq.2 with hc13
  set po := c13.add_node .AndNand true with hpo
  set c14 := po.1.connect pq.2 po.2 with hc14
  set c15 := c14.connect en po.2 with hc15
  have hpr2 : pr.2 = c.next_id := add_node_snd c .AndNand true
  -- the extension chain
  have e1 : Ext c pr.1
      (fun t => t = ip ∨ t = iq ∨ t = en ∨ t = wn ∨ c.next_id ≤ t)
      (fun t => c.next_id ≤ t) := (Ext.rfl_ext h _ _).step_add _ _
  have e2 : Ext c c1 _ _ := e1.step_connect iq pr.2 (fun _ => Or.inr (Or.inl rfl))
  have e3 : Ext c c2 _ _ :=
    e2.step_connect en pr.2 (fun _ => Or.inr (Or.inr (Or.inl rfl)))
  have e4 : Ext c c3 _ _ :=
    e3.step_connect wn pr.2 (fun _ => Or.inr (Or.inr (Or.inr (Or.inl rfl))))
  have e5 : Ext c c4 _ _ :=
    e4.step_set_input pr.2 false (fun _ => Nat.le_of_eq hpr2.symm)
  have e6 : Ext c ps.1 _ _ := e5.step_add _ _
  have hps2 : ps.2 = c4.next_id := add_node_snd c4 .AndNand true
  have hps2' : c.next_id ≤ ps.2 := by rw [hps2]; exact e5.next_le
  have e7 : Ext c c5 _ _ := e6.step_connect ip ps.2 (fun _ => Or.inl rfl)
  have e8 : Ext c c6 _ _ :=
    e7.step_connect en ps.2 (fun _ => Or.inr (Or.inr (Or.inl rfl)))
  have e9 : Ext c c7 _ _ :=
    e8.step_connect wn ps.2 (fun _ => Or.inr (Or.inr (Or.inr (Or.inl rfl))))
  have e10 : Ext c c8 _ _ := e9.step_set_input ps.2 false (fun _ => hps2')
  have e11 : Ext c pq.1 _ _ := e10.step_add _ _
  have hpq2 : pq.2 = c8.next_id := add_node_snd c8 .OrNor true
  have hpq2' : c.next_id ≤ pq.2 := by rw [hpq2]; exact e10.next_le
  have e12 : Ext c c9 _ _ := e11.step_connect pr.2 pq.2
    (fun _ => Or.inr (Or.inr (Or.inr (Or.inr (Nat.le_of_eq hpr2.symm)))))
  have e13 : Ext c c10 _ _ := e12.step_set_input pq.2 false (fun _ => hpq2')
  have e14 : Ext c pn.1 _ _ := e13.step_add _ _
  have e15 : Ext c c11 _ _ := e14.step_connect ps.2 pn.2
    (fun _ => Or.inr (Or.inr (Or.inr (Or.inr hps2'))))
  have e16 : Ext c c12 _ _ := e15.step_connect pq.2 pn.2
    (fun _ => Or.inr (Or.inr (Or.inr (Or.inr hpq2'))))
  have hpn2 : pn.2 = c10.next_id := add_node_snd c10 .OrNor true
  have hpn2' : c.next_id ≤ pn.2 := by rw [hpn2]; exact e13.next_le
  have e17 : Ext c c13 _ _ := e16.step_connect pn.2 pq.2
    (fun _ => Or.inr (Or.inr (Or.inr (Or.inr hpn2'))))
  have e18 : Ext c po.1 _ _ := e17.step_add _ _
  have e19 : Ext c c14 _ _ := e18.step_connect pq.2 po.2
    (fun _ => Or.inr (Or.inr (Or.inr (Or.inr hpq2'))))
  have e20 : Ext c c15 _ _ := e19.step_connect en po.2
    (fun _ => Or.inr (Or.inr (Or.inl rfl)))
  -- allocator bookkeeping
  have hn15 : c15.next_id = c.next_id + 5 := by
    simp only [hc15, hc14, hpo, hc13, hc12, hc11, hpn, hc10, hc9, hpq, hc8,
      hc7, hc6, hc5, hps, hc4, hc3, hc2, hc1, hpr, connect_next_id,
      set_input_next_id, add_node_next_id]
  have hn4 : c4.next_id = c.next_id + 1 := by
    simp only [hc4, hc3, hc2, hc1, hpr, connect_next_id, set_input_next_id,
      add_node_next_id]
  -- q_reset membership: established at c3, preserved afterwards
  have hwf2 : WFAlloc c2 := e3.wf
  have m0 : pr.2 ∈ c3.getChildren wn := by
    rw [hc3]
    refine connect_mem_self c2 wn pr.2 ?_
    rw [hwf2.children_len]
    have := e3.next_le
    omega
  have m1 : pr.2 ∈ c4.getChildren wn := by
    rw [hc4, set_input_getChildren]; exact m0
  have m2 : pr.2 ∈ ps.1.getChildren wn := by
    rw [hps, add_node_getChildren]; exact m1
  have m3 : pr.2 ∈ c5.getChildren wn := by
    rw [hc5]; exact connect_getChildren_mono _ _ _ _ _ m2
  have m4 : pr.2 ∈ c6.getChildren wn := by
    rw [hc6]; exact connect_getChildren_mono _ _ _ _ _ m3
  have m5 : pr.2 ∈ c7.getChildren wn := by
    rw [hc7]; exact connect_getChildren_mono _ _ _ _ _ m4
  have m6 : pr.2 ∈ c8.getChildren wn := by
    rw [hc8, set_input_getChildren]; exact m5
  have m7 : pr.2 ∈ pq.1.getChildren wn := by
    rw [hpq, add_node_getChildren]; exact m6
  have m8 : pr.2 ∈ c9.getChildren wn := by
    rw [hc9]; exact connect_getChildren_mono _ _ _ _ _ m7
  have m9 : pr.2 ∈ c10.getChildren wn := by
    rw [hc10, set_input_getChildren]; exact m8
  have m10 : pr.2 ∈ pn.1.getChildren wn := by
    rw [hpn, add_node_getChildren]; exact m9
  have m11 : pr.2 ∈ c11.getChildren wn := by
    rw [hc11]; exact connect_getChildren_mono _ _ _ _ _ m10
  have m12 : pr.2 ∈ c12.getChildren wn := by
    rw [hc12]; exact connect_getChildren_mono _ _ _ _ _ m11
  have m13 : pr.2 ∈ c13.getChildren wn := by
    rw [hc13]; exact connect_getChildren_mono _ _ _ _ _ m12
  have m14 : pr.2 ∈ po.1.getChildren wn := by
    rw [hpo, add_node_getChildren]; exact m13
  have m15 : pr.2 ∈ c14.getChildren wn := by
    rw [hc14]; exact connect_getChildren_mono _ _ _ _ _ m14
  have m16 : pr.2 ∈ c15.getChildren wn := by
    rw [hc15]; exact connect_getChildren_mono _ _ _ _ _ m15
  -- q_set membership: established at c7, preserved afterwards
  have hwf6 : WFAlloc c6 := e8.wf
  have s0 : ps.2 ∈ c7.getChildren wn := by
    rw [hc7]
    refine connect_mem_self c6 wn ps.2 ?_
    rw [hwf6.children_len]
    have := e8.next_le
    omega
  have s1 : ps.2 ∈ c8.getChildren wn := by
    rw [hc8, set_input_getChildren]; exact s0
  have s2 : ps.2 ∈ pq.1.getChildren wn := by
    rw [hpq, add_node_getChildren]; exact s1
  have s3 : ps.2 ∈ c9.getChildren wn := by
    rw [hc9]; exact connect_getChildren_mono _ _ _ _ _ s2
  have s4 : ps.2 ∈ c10.getChildren wn := by
    rw [hc10, set_input_getChildren]; exact s3
  have s5 : ps.2 ∈ pn.1.getChildren wn := by
    rw [hpn, add_node_getChildren]; exact s4
  have s6 : ps.2 ∈ c11.getChildren wn := by
    rw [hc11]; exact connect_getChildren_mono _ _ _ _ _ s5
  have s7 : ps.2 ∈ c12.getChildren wn := by
    rw [hc12]; exact connect_getChildren_mono _ _ _ _ _ s6
  have s8 : ps.2 ∈ c13.getChildren wn := by
    rw [hc13]; exact connect_getChildren_mono _ _ _ _ _ s7
  have s9 : ps.2 ∈ po.1.getChildren wn := by
    rw [hpo, add_node_getChildren]; exact s8
  have s10 : ps.2 ∈ c14.getChildren wn := by
    rw [hc14]; exact connect_getChildren_mono _ _ _ _ _ s9
  have s11 : ps.2 ∈ c15.getChildren wn := by
    rw [hc15]; exact connect_getChildren_mono _ _ _ _ _ s10
  have hpo2 : po.2 = c13.next_id := add_node_snd c13 .AndNand true
  have hpo2' : c.next_id ≤ po.2 := by rw [hpo2]; exact e17.next_le
  exact ⟨e20, ⟨by omega, by omega⟩, ⟨hps2', by omega⟩, m16, s11, hpo2'⟩

theorem wireConnect_ext :
    ∀ (w1 w2 : List Nat) (c : CircuitFast), WFAlloc c →
      Ext c (wireConnect c w1 w2) (fun t => t ∈ w1) (fun _ => False) := by
  intro w1
  induction w1 with
  | nil =>
    intro w2 c h
    unfold wireConnect
    exact Ext.rfl_ext h _ _
  | cons i is ih =>
    intro w2 c h
    cases w2 with
    | nil =>
      unfold wireConnect
      exact Ext.rfl_ext h _ _
    | cons o os =>
      unfold wireConnect
      have estep : Ext c (c.connect i o) (fun t => t ∈ i :: is)
          (fun _ => False) :=
        (Ext.rfl_ext h _ _).step_connect i o (fun _ => List.mem_cons_self i is)
      refine estep.comp_through (ih os _ (connect_WFAlloc _ _ h))
        (fun t _ hst => ⟨hst, fun hr => hst (List.mem_cons_of_mem _ hr)⟩)
        (fun _ _ hwt => ⟨hwt, hwt⟩)

set_option maxHeartbeats 2000000 in
theorem create_sram_cell_ext (en wn : Nat) :
    ∀ (input : List Nat) (c : CircuitFast), WFAlloc c → wn < c.next_id →
      Ext c (create_sram_cell en wn c input).1
        (fun t => t ∈ input ∨ t = en ∨ t = wn ∨ c.next_id ≤ t)
        (fun t => c.next_id ≤ t) ∧
      (∀ g ∈ (create_sram_cell en wn c input).2.2,
        g ∈ (create_sram_cell en wn c input).1.getChildren wn) ∧
      (create_sram_cell en wn c input).2.2.length = 2 * input.length ∧
      (∀ o ∈ (create_sram_cell en wn c input).2.1, c.next_id ≤ o) := by
  intro input
  induction input with
  | nil =>
    intro c h _
    refine ⟨Ext.rfl_ext h _ _, ?_, rfl, ?_⟩ <;>
      exact fun o ho => absurd ho (by simp [create_sram_cell])
  | cons i rest ih =>
    intro c h hwn
    simp only [create_sram_cell, CircuitFast.or, CircuitFast.nor]
    set pp := c.add_node .OrNor false with hpp
    set pn := pp.1.add_node .OrNor true with hpn
    set ca := pn.1.connect i pp.2 with hca
    set cb := ca.connect i pn.2 with hcb
    set dl := create_d_latch2 cb pp.2 pn.2 en wn with hdl
    have hwfb : WFAlloc cb := by
      rw [hcb, hca, hpn, hpp]
      exact connect_WFAlloc _ _ (connect_WFAlloc _ _
        (add_node_WFAlloc _ _ (add_node_WFAlloc _ _ h)))
    have hnb : cb.next_id = c.next_id + 2 := by
      simp only [hcb, hca, hpn, hpp, connect_next_id, add_node_next_id]
    have hpp2 : pp.2 = c.next_id := add_node_snd c .OrNor false
    have hpn2 : pn.2 = c.next_id + 1 := by
      rw [hpn, add_node_snd, hpp, add_node_next_id]
    obtain ⟨lE, lqr, lqs, lmr, lms, lout⟩ :=
      create_d_latch2_ext cb pp.2 pn.2 en wn hwfb (by omega)
    rw [← hdl] at lE lqr lqs lmr lms lout
    have hwfl : WFAlloc dl.1 := lE.wf
    have hwnl : wn < dl.1.next_id := by
      have := lE.next_le
      omega
    obtain ⟨iE, iG, iL, iO⟩ := ih dl.1 hwfl hwnl
    have epre : Ext c cb
        (fun t => t ∈ i :: rest ∨ t = en ∨ t = wn ∨ c.next_id ≤ t)
        (fun t => c.next_id ≤ t) :=
      (Ext.rfl_ext h _ _).step_add _ _ |>.step_add _ _
        |>.step_connect i pp.2 (fun _ => Or.inl (List.mem_cons_self i rest))
        |>.step_connect i pn.2 (fun _ => Or.inl (List.mem_cons_self i rest))
    have emid : Ext c dl.1
        (fun t => t ∈ i :: rest ∨ t = en ∨ t = wn ∨ c.next_id ≤ t)
        (fun t => c.next_id ≤ t) := by
      refine epre.comp_through lE (fun t ht hst => ⟨hst, ?_⟩)
        (fun t ht hwt => ⟨hwt, fun hle => hwt (by omega)⟩)
      rintro (he | he | he | he | he)
      · exact hst (Or.inr (Or.inr (Or.inr (by omega))))
      · exact hst (Or.inr (Or.inr (Or.inr (by omega))))
      · exact hst (Or.inr (Or.inl he))
      · exact hst (Or.inr (Or.inr (Or.inl he)))
      · exact hst (Or.inr (Or.inr (Or.inr (by omega))))
    have efull : Ext c (create_sram_cell en wn dl.1 rest).1
        (fun t => t ∈ i :: rest ∨ t = en ∨ t = wn ∨ c.next_id ≤ t)
        (fun t => c.next_id ≤ t) := by
      refine emid.comp_through iE (fun t ht hst => ⟨hst, ?_⟩)
        (fun t ht hwt => ⟨hwt, fun hle => hwt
          (by have := lE.next_le; omega)⟩)
      rintro (he | he | he | he)
      · exact hst (Or.inl (List.mem_cons_of_mem _ he))
      · exact hst (Or.inr (Or.inl he))
      · exact hst (Or.inr (Or.inr (Or.inl he)))
      · exact hst (Or.inr (Or.inr (Or.inr (by have := lE.next_le; omega))))
    clear_value pp pn ca cb dl
    refine ⟨efull, ?_, ?_, ?_⟩
    · intro g hg
      rcases List.mem_cons.mp hg with rfl | hg
      · exact iE.children_mono _ _ lmr
      · rcases List.mem_cons.mp hg with rfl | hg
        · exact iE.children_mono _ _ lms
        · exact iG g hg
    · simp only [List.length_cons, iL, List.length_cons]
      omega
    · intro o ho
      rcases List.mem_cons.mp ho with rfl | ho
      · have := lout
        omega
      · have := iO o ho
        have := lE.next_le
        omega

set_option maxHeartbeats 1000000 in
theorem sramCellsLoop_ext (input : List Nat) (wn : Nat) (outputW : List Nat) :
    ∀ (es : List Nat) (c : CircuitFast), WFAlloc c → wn < c.next_id →
      Ext c (sramCellsLoop input wn outputW c es).1
        (fun t => t ∈ input ∨ t ∈ es ∨ t = wn ∨ c.next_id ≤ t)
        (fun t => c.next_id ≤ t) ∧
      (∀ g ∈ (sramCellsLoop input wn outputW c es).2,
        g ∈ (sramCellsLoop input wn outputW c es).1.getChildren wn) ∧
      (sramCellsLoop input wn outputW c es).2.length =
        2 * input.length * es.length := by
  intro es
  induction es with
  | nil =>
    intro c h _
    simp only [sramCellsLoop]
    exact ⟨Ext.rfl_ext h _ _, fun g hg => absurd hg (List.not_mem_nil g),
      by simp⟩
  | cons e es ih =>
    intro c h hwn
    simp only [sramCellsLoop]
    set cell := create_sram_cell e wn c input with hcell
    set c2 := wireConnect cell.1 cell.2.1 outputW with hc2
    obtain ⟨aE, aG, aL, aO⟩ := create_sram_cell_ext e wn input c h hwn
    rw [← hcell] at aE aG aL aO
    have wE : Ext cell.1 c2 (fun t => t ∈ cell.2.1) (fun _ => False) := by
      rw [hc2]
      exact wireConnect_ext cell.2.1 outputW cell.1 aE.wf
    have hwn2 : wn < c2.next_id := by
      have h1 := aE.next_le
      have h2 := wE.next_le
      omega
    obtain ⟨iE, iG, iL⟩ := ih c2 wE.wf hwn2
    have e2 : Ext c c2
        (fun t => t ∈ input ∨ t ∈ e :: es ∨ t = wn ∨ c.next_id ≤ t)
        (fun t => c.next_id ≤ t) := by
      refine aE.comp_through wE (fun t ht hst => ⟨?_, ?_⟩)
        (fun t ht hwt => ⟨hwt, fun hf => hf⟩)
      · rintro (hm | hm | hm | hm)
        · exact hst (Or.inl hm)
        · exact hst (Or.inr (Or.inl (hm ▸ List.mem_cons_self e es)))
        · exact hst (Or.inr (Or.inr (Or.inl hm)))
        · exact hst (Or.inr (Or.inr (Or.inr hm)))
      · exact fun hm => hst (Or.inr (Or.inr (Or.inr (aO t hm))))
    have e3 : Ext c (sramCellsLoop input wn outputW c2 es).1
        (fun t => t ∈ input ∨ t ∈ e :: es ∨ t = wn ∨ c.next_id ≤ t)
        (fun t => c.next_id ≤ t) := by
      refine e2.comp_through iE (fun t ht hst => ⟨hst, ?_⟩)
        (fun t ht hwt => ⟨hwt, fun hle => hwt ?_⟩)
      · rintro (hm | hm | hm | hm)
        · exact hst (Or.inl hm)
        · exact hst (Or.inr (Or.inl (List.mem_cons_of_mem e hm)))
        · exact hst (Or.inr (Or.inr (Or.inl hm)))
        · have h1 := aE.next_le
          have h2 := wE.next_le
          exact hst (Or.inr (Or.inr (Or.inr (by omega))))
      · have h1 := aE.next_le
        have h2 := wE.next_le
        omega
    clear_value cell c2
    refine ⟨e3, ?_, ?_⟩
    · intro g hg
      rcases List.mem_append.mp hg with hg | hg
      · exact iE.children_mono _ _ (wE.children_mono _ _ (aG g hg))
      · exact iG g hg
    · simp only [List.length_append, aL, iL, List.length_cons]
      ring

set_option maxHeartbeats 2000000 in
theorem sram2dCellsLoop_ext (input : List Nat) (wn : Nat)
    (outputW sel0 sel1 : List Nat) :
    ∀ (k i : Nat) (c : CircuitFast), WFAlloc c → wn < c.next_id →
      Ext c (sram2dCellsLoop input wn outputW sel0 sel1 c i k).1
        (fun t => t ∈ input ∨ t ∈ sel0 ∨ t ∈ sel1 ∨ t = 0 ∨ t = wn ∨
          c.next_id ≤ t)
        (fun t => c.next_id ≤ t) ∧
      (∀ g ∈ (sram2dCellsLoop input wn outputW sel0 sel1 c i k).2,
        g ∈ (sram2dCellsLoop input wn outputW sel0 sel1 c i k).1.getChildren
          wn) ∧
      (sram2dCellsLoop input wn outputW sel0 sel1 c i k).2.length =
        2 * input.length * k := by
  intro k
  induction k with
  | zero =>
    intro i c h _
    simp only [sram2dCellsLoop]
    exact ⟨Ext.rfl_ext h _ _, fun g hg => absurd hg (List.not_mem_nil g),
      by simp⟩
  | succ k ih =>
    intro i c h hwn
    simp only [sram2dCellsLoop, CircuitFast.and]
    set pe := c.add_node .AndNand true with hpe
    set ca := pe.1.connect (sel0.getD (i &&& 255) 0) pe.2 with hca
    set cb := ca.connect (sel1.getD (i >>> 8) 0) pe.2 with hcb
    set cell := create_sram_cell pe.2 wn cb input with hcell
    set c2 := wireConnect cell.1 cell.2.1 outputW with hc2
    have hwfb : WFAlloc cb := by
      rw [hcb, hca, hpe]
      exact connect_WFAlloc _ _ (connect_WFAlloc _ _ (add_node_WFAlloc _ _ h))
    have hnb : cb.next_id = c.next_id + 1 := by
      simp only [hcb, hca, hpe, connect_next_id, add_node_next_id]
    have hpe2 : pe.2 = c.next_id := add_node_snd c .AndNand true
    obtain ⟨aE, aG, aL, aO⟩ :=
      create_sram_cell_ext pe.2 wn input cb hwfb (by omega)
    rw [← hcell] at aE aG aL aO
    have wE : Ext cell.1 c2 (fun t => t ∈ cell.2.1) (fun _ => False) := by
      rw [hc2]
      exact wireConnect_ext cell.2.1 outputW cell.1 aE.wf
    have hn1 := aE.next_le
    have hn2 := wE.next_le
    have hwn2 : wn < c2.next_id := by omega
    obtain ⟨iE, iG, iL⟩ := ih (i + 1) c2 wE.wf hwn2
    have epre : Ext c cb
        (fun t => t ∈ input ∨ t ∈ sel0 ∨ t ∈ sel1 ∨ t = 0 ∨ t = wn ∨
          c.next_id ≤ t)
        (fun t => c.next_id ≤ t) :=
      (Ext.rfl_ext h _ _).step_add _ _
        |>.step_connect (sel0.getD (i &&& 255) 0) pe.2
          (fun _ => (getD_mem_or sel0 (i &&& 255) 0).elim
            (fun h0 => Or.inr (Or.inr (Or.inr (Or.inl h0))))
            (fun hm => Or.inr (Or.inl hm)))
        |>.step_connect (sel1.getD (i >>> 8) 0) pe.2
          (fun _ => (getD_mem_or sel1 (i >>> 8) 0).elim
            (fun h0 => Or.inr (Or.inr (Or.inr (Or.inl h0))))
            (fun hm => Or.inr (Or.inr (Or.inl hm))))
    have e1 : Ext c cell.1
        (fun t => t ∈ input ∨ t ∈ sel0 ∨ t ∈ sel1 ∨ t = 0 ∨ t = wn ∨
          c.next_id ≤ t)
        (fun t => c.next_id ≤ t) := by
      refine epre.comp_through aE (fun t ht hst => ⟨hst, ?_⟩)
        (fun t ht hwt => ⟨hwt, fun hle => hwt (by omega)⟩)
      rintro (hm | hm | hm | hm)
      · exact hst (Or.inl hm)
      · exact hst (Or.inr (Or.inr (Or.inr (Or.inr (Or.inr (by omega))))))
      · exact hst (Or.inr (Or.inr (Or.inr (Or.inr (Or.inl hm)))))
      · exact hst (Or.inr (Or.inr (Or.inr (Or.inr (Or.inr (by omega))))))
    have e2 : Ext c c2
        (fun t => t ∈ input ∨ t ∈ sel0 ∨ t ∈ sel1 ∨ t = 0 ∨ t = wn ∨
          c.next_id ≤ t)
        (fun t => c.next_id ≤ t) := by
      refine e1.comp_through wE
        (fun t ht hst => ⟨hst, fun hm => hst (Or.inr (Or.inr (Or.inr
          (Or.inr (Or.inr (by have := aO t hm; omega))))))⟩)
        (fun t ht hwt => ⟨hwt, fun hf => hf⟩)
    have e3 : Ext c
        (sram2dCellsLoop input wn outputW sel0 sel1 c2 (i + 1) k).1
        (fun t => t ∈ input ∨ t ∈ sel0 ∨ t ∈ sel1 ∨ t = 0 ∨ t = wn ∨
          c.next_id ≤ t)
        (fun t => c.next_id ≤ t) := by
      refine e2.comp_through iE (fun t ht hst => ⟨hst, ?_⟩)
        (fun t ht hwt => ⟨hwt, fun hle => hwt (by omega)⟩)
      rintro (hm | hm | hm | hm | hm | hm)
      · exact hst (Or.inl hm)
      · exact hst (Or.inr (Or.inl hm))
      · exact hst (Or.inr (Or.inr (Or.inl hm)))
      · exact hst (Or.inr (Or.inr (Or.inr (Or.inl hm))))
      · exact hst (Or.inr (Or.inr (Or.inr (Or.inr (Or.inl hm)))))
      · exact hst (Or.inr (Or.inr (Or.inr (Or.inr (Or.inr (by omega))))))
    clear_value pe ca cb cell c2
    refine ⟨e3, ?_, ?_⟩
    · intro g hg
      rcases List.mem_append.mp hg with hg | hg
      · exact iE.children_mono _ _ (wE.children_mono _ _ (aG g hg))
      · exact iG g hg
    · simp only [List.length_append, aL, iL]
      ring

set_option maxHeartbeats 1000000 in
theorem sramNew_structure (cells : Nat) :
    (sramNew cells).1.getChildren (sramNew cells).2.1
        = [(sramNew cells).2.2.1] ∧
    (sramNew cells).1.getChildren (sramNew cells).2.2.1
        = [(sramNew cells).2.2.2.1] ∧
    ((sramNew cells).1.getData (sramNew cells).2.2.1).gate_type
        = GateType.OrNor ∧
    ((sramNew cells).1.getData (sramNew cells).2.2.2.1).gate_type
        = GateType.OrNor ∧
    (∀ g ∈ (sramNew cells).2.2.2.2,
      g ∈ (sramNew cells).1.getChildren (sramNew cells).2.2.2.1) ∧
    (sramNew cells).2.2.2.2.length = 32 * cells := by
  simp only [sramNew, CircuitFast.or]
  set aW := wireNew CircuitFast.new 16 with haW
  set iW := wireNew aW.1 16 with hiWd
  set p0 := iW.1.add_node .OrNor false with hp0
  set p1 := p0.1.add_node .OrNor false with hp1
  set p2 := p1.1.add_node .OrNor false with hp2
  set cA := p2.1.connect p0.2 p1.2 with hcA
  set cB := cA.connect p1.2 p2.2 with hcB
  set eN := decode cB aW.2 cells with heN
  set oW := wireNew eN.1 16 with hoW
  set cL := sramCellsLoop iW.2 p2.2 oW.2 oW.1 eN.2 with hcL
  obtain ⟨aE, aF, aL⟩ := wireNew_ext 16 CircuitFast.new new_WFAlloc
  rw [← haW] at aE aF aL
  obtain ⟨iE2, iF, iL2⟩ := wireNew_ext 16 aW.1 aE.wf
  rw [← hiWd] at iE2 iF iL2
  have hv0 : CircuitFast.new.next_id = 0 := rfl
  have hva : aW.1.next_id = CircuitFast.new.next_id + 16 := by
    rw [haW, wireNew_nid]
  have hvi : iW.1.next_id = aW.1.next_id + 16 := by
    rw [hiWd, wireNew_nid]
  have hwf0 : WFAlloc p0.1 := by rw [hp0]; exact add_node_WFAlloc _ _ iE2.wf
  have hwf1 : WFAlloc p1.1 := by rw [hp1]; exact add_node_WFAlloc _ _ hwf0
  have hwf2 : WFAlloc p2.1 := by rw [hp2]; exact add_node_WFAlloc _ _ hwf1
  have hwfA : WFAlloc cA := by rw [hcA]; exact connect_WFAlloc _ _ hwf2
  have hwfb : WFAlloc cB := by rw [hcB]; exact connect_WFAlloc _ _ hwfA
  have hp02 : p0.2 = iW.1.next_id := by rw [hp0]; exact add_node_snd _ _ _
  have hp12 : p1.2 = p0.1.next_id := by rw [hp1]; exact add_node_snd _ _ _
  have hp22 : p2.2 = p1.1.next_id := by rw [hp2]; exact add_node_snd _ _ _
  have hq0 : p0.1.next_id = iW.1.next_id + 1 := by
    rw [hp0]; exact add_node_next_id _ _ _
  have hq1 : p1.1.next_id = p0.1.next_id + 1 := by
    rw [hp1]; exact add_node_next_id _ _ _
  have hq2 : p2.1.next_id = p1.1.next_id + 1 := by
    rw [hp2]; exact add_node_next_id _ _ _
  have hqA : cA.next_id = p2.1.next_id := by
    rw [hcA]; exact connect_next_id _ _ _
  have hqB : cB.next_id = cA.next_id := by
    rw [hcB]; exact connect_next_id _ _ _
  have e32a : p0.1.getChildren p0.2 = [] := by
    rw [hp0, add_node_snd]
    exact add_node_getChildren_fresh _ _ iE2.wf
  have e32b : p2.1.getChildren p0.2 = [] := by
    rw [hp2, add_node_getChildren, hp1, add_node_getChildren]
    exact e32a
  have e32d : cA.getChildren p0.2 = [p1.2] := by
    rw [hcA, connect_getChildren_self p2.1 p0.2 p1.2
      (by rw [hwf2.children_len]; omega), e32b]
    exact List.nil_append _
  have e32 : cB.getChildren p0.2 = [p1.2] := by
    rw [hcB, connect_getChildren_ne cA p1.2 p2.2 p0.2 (by omega)]
    exact e32d
  have e33a : p1.1.getChildren p1.2 = [] := by
    rw [hp1, add_node_snd]
    exact add_node_getChildren_fresh _ _ hwf0
  have e33b : p2.1.getChildren p1.2 = [] := by
    rw [hp2, add_node_getChildren]
    exact e33a
  have e33c : cA.getChildren p1.2 = [] := by
    rw [hcA, connect_getChildren_ne p2.1 p0.2 p1.2 p1.2 (by omega)]
    exact e33b
  have e33 : cB.getChildren p1.2 = [p2.2] := by
    rw [hcB, connect_getChildren_self cA p1.2 p2.2
      (by rw [hwfA.children_len]; omega), e33c]
    exact List.nil_append _
  have d33 : (cB.getData p1.2).gate_type = GateType.OrNor := by
    rw [hcB, connect_getData, hcA, connect_getData, hp2,
      add_node_getData_ne _ _ _ _ (by omega), hp1, add_node_snd,
      add_node_getData_self .OrNor false hwf0]
  have d34 : (cB.getData p2.2).gate_type = GateType.OrNor := by
    rw [hcB, connect_getData, hcA, connect_getData, hp2, add_node_snd,
      add_node_getData_self .OrNor false hwf1]
  obtain ⟨dE, dF, dL⟩ := decode_ext cB aW.2 cells hwfb
  rw [← heN] at dE dF dL
  obtain ⟨oE, oF, oL⟩ := wireNew_ext 16 eN.1 dE.wf
  rw [← hoW] at oE oF oL
  have hd := dE.next_le
  have ho := oE.next_le
  obtain ⟨lE, lG, lL⟩ := sramCellsLoop_ext iW.2 p2.2 oW.2 eN.2 oW.1 oE.wf
    (by omega)
  rw [← hcL] at lE lG lL
  have nsrc : ∀ t : Nat, t = p0.2 ∨ t = p1.2 →
      ¬ (t ∈ iW.2 ∨ t ∈ eN.2 ∨ t = p2.2 ∨ oW.1.next_id ≤ t) := by
    intro t htv
    rintro (hm | hm | hm | hm)
    · have := (iF t hm).2
      omega
    · have := (dF t hm).1
      omega
    · omega
    · omega
  have pres : ∀ t : Nat, t = p0.2 ∨ t = p1.2 →
      cL.1.getChildren t = cB.getChildren t := by
    intro t htv
    rw [lE.children_pres t (by omega) (nsrc t htv),
      oE.children_pres t (by omega) (fun hf => hf),
      dE.children_pres t (by omega)
        (fun hm => absurd ((aF t hm).2) (by omega))]
  have dpr : ∀ t : Nat, t = p1.2 ∨ t = p2.2 →
      cL.1.getData t = cB.getData t := by
    intro t htv
    rw [lE.data_pres t (by omega) (by omega),
      oE.data_pres t (by omega) (fun hf => hf),
      dE.data_pres t (by omega) (fun hf => hf)]
  refine ⟨?_, ?_, ?_, ?_, ?_, ?_⟩
  · rw [pres p0.2 (Or.inl rfl)]
    exact e32
  · rw [pres p1.2 (Or.inr rfl)]
    exact e33
  · rw [dpr p1.2 (Or.inl rfl)]
    exact d33
  · rw [dpr p2.2 (Or.inr rfl)]
    exact d34
  · exact lG
  · rw [lL, iL2, dL]

set_option maxHeartbeats 1000000 in
theorem sramNewFull2dGen_structure (cells : Nat) :
    (sramNewFull2dGen cells).1.getChildren (sramNewFull2dGen cells).2.1
        = [(sramNewFull2dGen cells).2.2.1] ∧
    (sramNewFull2dGen cells).1.getChildren (sramNewFull2dGen cells).2.2.1
        = [(sramNewFull2dGen cells).2.2.2.1] ∧
    (sramNewFull2dGen cells).2.2.2.2.1 ∈
      (sramNewFull2dGen cells).1.getChildren
        (sramNewFull2dGen cells).2.2.2.1 ∧
    (sramNewFull2dGen cells).1.getChildren
        (sramNewFull2dGen cells).2.2.2.2.1 = [] ∧
    (∀ g ∈ (sramNewFull2dGen cells).2.2.2.2.2,
      g ∈ (sramNewFull2dGen cells).1.getChildren
        (sramNewFull2dGen cells).2.2.2.1) ∧
    (sramNewFull2dGen cells).2.2.2.2.2.length = 32 * cells := by
  simp only [sramNewFull2dGen, CircuitFast.or]
  set aW := wireNew CircuitFast.new 16 with haW
  set iW := wireNew aW.1 16 with hiWd
  set p0 := iW.1.add_node .OrNor false with hp0
  set p1 := p0.1.add_node .OrNor false with hp1
  set p2 := p1.1.add_node .OrNor false with hp2
  set p3 := p2.1.add_node .OrNor false with hp3
  set cA := p3.1.connect p0.2 p1.2 with hcA
  set cB := cA.connect p1.2 p2.2 with hcB
  set cC := cB.connect p2.2 p3.2 with hcC
  set s0 := decode cC (aW.2.take 8) 256 with hs0
  set s1 := decode s0.1 (aW.2.drop 8) 256 with hs1
  set oW := wireNew s1.1 16 with hoW
  set cL := sram2dCellsLoop iW.2 p2.2 oW.2 s0.2 s1.2 oW.1 0 cells with hcL
  obtain ⟨aE, aF, aL⟩ := wireNew_ext 16 CircuitFast.new new_WFAlloc
  rw [← haW] at aE aF aL
  obtain ⟨iE2, iF, iL2⟩ := wireNew_ext 16 aW.1 aE.wf
  rw [← hiWd] at iE2 iF iL2
  have hv0 : CircuitFast.new.next_id = 0 := rfl
  have hva : aW.1.next_id = CircuitFast.new.next_id + 16 := by
    rw [haW, wireNew_nid]
  have hvi : iW.1.next_id = aW.1.next_id + 16 := by
    rw [hiWd, wireNew_nid]
  have hwf0 : WFAlloc p0.1 := by rw [hp0]; exact add_node_WFAlloc _ _ iE2.wf
  have hwf1 : WFAlloc p1.1 := by rw [hp1]; exact add_node_WFAlloc _ _ hwf0
  have hwf2 : WFAlloc p2.1 := by rw [hp2]; exact add_node_WFAlloc _ _ hwf1
  have hwf3 : WFAlloc p3.1 := by rw [hp3]; exact add_node_WFAlloc _ _ hwf2
  have hwfA : WFAlloc cA := by rw [hcA]; exact connect_WFAlloc _ _ hwf3
  have hwfB : WFAlloc cB := by rw [hcB]; exact connect_WFAlloc _ _ hwfA
  have hwfC : WFAlloc cC := by rw [hcC]; exact connect_WFAlloc _ _ hwfB
  have hp02 : p0.2 = iW.1.next_id := by rw [hp0]; exact add_node_snd _ _ _
  have hp12 : p1.2 = p0.1.next_id := by rw [hp1]; exact add_node_snd _ _ _
  have hp22 : p2.2 = p1.1.next_id := by rw [hp2]; exact add_node_snd _ _ _
  have hp32 : p3.2 = p2.1.next_id := by rw [hp3]; exact add_node_snd _ _ _
  have hq0 : p0.1.next_id = iW.1.next_id + 1 := by
    rw [hp0]; exact add_node_next_id _ _ _
  have hq1 : p1.1.next_id = p0.1.next_id + 1 := by
    rw [hp1]; exact add_node_next_id _ _ _
  have hq2 : p2.1.next_id = p1.1.next_id + 1 := by
    rw [hp2]; exact add_node_next_id _ _ _
  have hq3 : p3.1.next_id = p2.1.next_id + 1 := by
    rw [hp3]; exact add_node_next_id _ _ _
  have hqA : cA.next_id = p3.1.next_id := by
    rw [hcA]; exact connect_next_id _ _ _
  have hqB : cB.next_id = cA.next_id := by
    rw [hcB]; exact connect_next_id _ _ _
  have hqC : cC.next_id = cB.next_id := by
    rw [hcC]; exact connect_next_id _ _ _
  have e32a : p0.1.getChildren p0.2 = [] := by
    rw [hp0, add_node_snd]
    exact add_node_getChildren_fresh _ _ iE2.wf
  have e32b : p3.1.getChildren p0.2 = [] := by
    rw [hp3, add_node_getChildren, hp2, add_node_getChildren, hp1,
      add_node_getChildren]
    exact e32a
  have e32c : cA.getChildren p0.2 = [p1.2] := by
    rw [hcA, connect_getChildren_self p3.1 p0.2 p1.2
      (by rw [hwf3.children_len]; omega), e32b]
    exact List.nil_append _
  have e32d : cB.getChildren p0.2 = [p1.2] := by
    rw [hcB, connect_getChildren_ne cA p1.2 p2.2 p0.2 (by omega)]
    exact e32c
  have e32 : cC.getChildren p0.2 = [p1.2] := by
    rw [hcC, connect_getChildren_ne cB p2.2 p3.2 p0.2 (by omega)]
    exact e32d
  have e33a : p1.1.getChildren p1.2 = [] := by
    rw [hp1, add_node_snd]
    exact add_node_getChildren_fresh _ _ hwf0
  have e33b : p3.1.getChildren p1.2 = [] := by
    rw [hp3, add_node_getChildren, hp2, add_node_getChildren]
    exact e33a
  have e33c : cA.getChildren p1.2 = [] := by
    rw [hcA, connect_getChildren_ne p3.1 p0.2 p1.2 p1.2 (by omega)]
    exact e33b
  have e33d : cB.getChildren p1.2 = [p2.2] := by
    rw [hcB, connect_getChildren_self cA p1.2 p2.2
      (by rw [hwfA.children_len]; omega), e33c]
    exact List.nil_append _
  have e33 : cC.getChildren p1.2 = [p2.2] := by
    rw [hcC, connect_getChildren_ne cB p2.2 p3.2 p1.2 (by omega)]
    exact e33d
  have e34a : p2.1.getChildren p2.2 = [] := by
    rw [hp2, add_node_snd]
    exact add_node_getChildren_fresh _ _ hwf1
  have e34b : p3.1.getChildren p2.2 = [] := by
    rw [hp3, add_node_getChildren]
    exact e34a
  have e34c : cA.getChildren p2.2 = [] := by
    rw [hcA, connect_getChildren_ne p3.1 p0.2 p1.2 p2.2 (by omega)]
    exact e34b
  have e34d : cB.getChildren p2.2 = [] := by
    rw [hcB, connect_getChildren_ne cA p1.2 p2.2 p2.2 (by omega)]
    exact e34c
  have e34 : cC.getChildren p2.2 = [p3.2] := by
    rw [hcC, connect_getChildren_self cB p2.2 p3.2
      (by rw [hwfB.children_len]; omega), e34d]
    exact List.nil_append _
  have e35a : p3.1.getChildren p3.2 = [] := by
    rw [hp3, add_node_snd]
    exact add_node_getChildren_fresh _ _ hwf2
  have e35b : cA.getChildren p3.2 = [] := by
    rw [hcA, connect_getChildren_ne p3.1 p0.2 p1.2 p3.2 (by omega)]
    exact e35a
  have e35c : cB.getChildren p3.2 = [] := by
    rw [hcB, connect_getChildren_ne cA p1.2 p2.2 p3.2 (by omega)]
    exact e35b
  have e35 : cC.getChildren p3.2 = [] := by
    rw [hcC, connect_getChildren_ne cB p2.2 p3.2 p3.2 (by omega)]
    exact e35c
  obtain ⟨s0E, s0F, _⟩ := decode_ext cC (aW.2.take 8) 256 hwfC
  rw [← hs0] at s0E s0F
  obtain ⟨s1E, s1F, _⟩ := decode_ext s0.1 (aW.2.drop 8) 256 s0E.wf
  rw [← hs1] at s1E s1F
  obtain ⟨oE, oF2, oL2⟩ := wireNew_ext 16 s1.1 s1E.wf
  rw [← hoW] at oE oF2 oL2
  have hd0 := s0E.next_le
  have hd1 := s1E.next_le
  have ho := oE.next_le
  obtain ⟨lE, lG, lL⟩ := sram2dCellsLoop_ext iW.2 p2.2 oW.2 s0.2 s1.2 cells
    0 oW.1 oE.wf (by omega)
  rw [← hcL] at lE lG lL
  have nsrc : ∀ t : Nat, t = p0.2 ∨ t = p1.2 ∨ t = p3.2 →
      ¬ (t ∈ iW.2 ∨ t ∈ s0.2 ∨ t ∈ s1.2 ∨ t = 0 ∨ t = p2.2 ∨
        oW.1.next_id ≤ t) := by
    intro t htv
    rintro (hm | hm | hm | hm | hm | hm)
    · have := (iF t hm).2
      omega
    · have := (s0F t hm).1
      omega
    · have := (s1F t hm).1
      omega
    · omega
    · omega
    · omega
  have pres : ∀ t : Nat, t = p0.2 ∨ t = p1.2 ∨ t = p3.2 →
      cL.1.getChildren t = cC.getChildren t := by
    intro t htv
    rw [lE.children_pres t (by omega) (nsrc t htv),
      oE.children_pres t (by omega) (fun hf => hf),
      s1E.children_pres t (by omega)
        (fun hm => absurd ((aF t (List.drop_subset 8 aW.2 hm)).2) (by omega)),
      s0E.children_pres t (by omega)
        (fun hm => absurd ((aF t (List.take_subset 8 aW.2 hm)).2) (by omega))]
  have m35 : p3.2 ∈ cL.1.getChildren p2.2 := by
    refine lE.children_mono _ _ (oE.children_mono _ _ (s1E.children_mono _ _
      (s0E.children_mono _ _ ?_)))
    rw [e34]
    exact List.mem_singleton.mpr rfl
  refine ⟨?_, ?_, ?_, ?_, ?_, ?_⟩
  · rw [pres p0.2 (Or.inl rfl)]
    exact e32
  · rw [pres p1.2 (Or.inr (Or.inl rfl))]
    exact e33
  · exact m35
  · rw [pres p3.2 (Or.inr (Or.inr rfl))]
    exact e35
  · exact lG
  · rw [lL, iL2]

/-- **C9**: in `Sram::new` the write strobe reaches the cells' gating ANDs
through a delay chain of exactly two OR nodes: the `write` node's only child
is `write_delay_1`, whose only child is `write_delay_2`, both OR nodes, and
every write-gated AND of every cell is a child of `write_delay_2`
(`32 * CELLS` of them).  The claim's second half is FALSE of the code: in
`Sram::new_full_2d` the cells are gated by `write_delay_2` as well (again two
OR hops from `write`), while `write_delay_3` — the node that would realise
the claimed three-tick delay — is created, chained as a child of
`write_delay_2`, and then never consumed: its children list is empty. -/
theorem claim_C9_sram_write_delay :
    (∀ cells : Nat,
      (sramNew cells).1.getChildren (sramNew cells).2.1
          = [(sramNew cells).2.2.1] ∧
      (sramNew cells).1.getChildren (sramNew cells).2.2.1
          = [(sramNew cells).2.2.2.1] ∧
      ((sramNew cells).1.getData (sramNew cells).2.2.1).gate_type
          = GateType.OrNor ∧
      ((sramNew cells).1.getData (sramNew cells).2.2.2.1).gate_type
          = GateType.OrNor ∧
      (∀ g ∈ (sramNew cells).2.2.2.2,
        g ∈ (sramNew cells).1.getChildren (sramNew cells).2.2.2.1) ∧
      (sramNew cells).2.2.2.2.length = 32 * cells) ∧
    (∀ cells : Nat,
      (sramNewFull2dGen cells).1.getChildren (sramNewFull2dGen cells).2.1
          = [(sramNewFull2dGen cells).2.2.1] ∧
      (sramNewFull2dGen cells).1.getChildren (sramNewFull2dGen cells).2.2.1
          = [(sramNewFull2dGen cells).2.2.2.1] ∧
      (sramNewFull2dGen cells).2.2.2.2.1 ∈
        (sramNewFull2dGen cells).1.getChildren
          (sramNewFull2dGen cells).2.2.2.1 ∧
      (sramNewFull2dGen cells).1.getChildren
          (sramNewFull2dGen cells).2.2.2.2.1 = [] ∧
      (∀ g ∈ (sramNewFull2dGen cells).2.2.2.2.2,
        g ∈ (sramNewFull2dGen cells).1.getChildren
          (sramNewFull2dGen cells).2.2.2.1) ∧
      (sramNewFull2dGen cells).2.2.2.2.2.length = 32 * cells) ∧
    (sramNewFull2d.1.getChildren sramNewFull2d.2.1
        = [sramNewFull2d.2.2.1] ∧
      sramNewFull2d.1.getChildren sramNewFull2d.2.2.1
        = [sramNewFull2d.2.2.2.1] ∧
      sramNewFull2d.2.2.2.2.1 ∈
        sramNewFull2d.1.getChildren sramNewFull2d.2.2.2.1 ∧
      sramNewFull2d.1.getChildren sramNewFull2d.2.2.2.2.1 = [] ∧
      (∀ g ∈ sramNewFull2d.2.2.2.2.2,
        g ∈ sramNewFull2d.1.getChildren sramNewFull2d.2.2.2.1) ∧
      sramNewFull2d.2.2.2.2.2.length = 32 * (1 <<< 16)) :=
  ⟨fun cells => sramNew_structure cells,
   fun cells => sramNewFull2dGen_structure cells,
   sramNewFull2dGen_structure (1 <<< 16)⟩

/-- Witness for C9 at one cell: the strobe-gated AND count of `Sram::new` is
`32 * 1`, and in the generic 2-D builder the dead `write_delay_3` node has an
empty children list. -/
theorem claim_C9_witness :
    (sramNew 1).2.2.2.2.length = 32 * 1 ∧
    (sramNewFull2dGen 1).1.getChildren (sramNewFull2dGen 1).2.2.2.2.1
      = [] :=
  ⟨(claim_C9_sram_write_delay.1 1).2.2.2.2.2,
   (claim_C9_sram_write_delay.2.1 1).2.2.2.1⟩

end Components

end Digisim
